import Mathlib

/-!
# Inf_poisk: boolean index builder, index reader and boolean search

A shallow embedding of
* `src/6/boolean_index_builder.cpp` (class `BooleanIndexBuilder`),
* `src/6/boolean_index_reader.cpp` (class `BooleanIndexReader`),
* `src/7/bool_search.cpp` (function `eval`),
followed by the theorems that settle the properties stated about them.

Conventions of the embedding.
* A `std::string` is a list of bytes (`Str`).  A `char` is a byte; where the
  source compares a `char` with an integer constant the signed value
  (`schar`) is used.
* `uint32_t` / `uint16_t` quantities are natural numbers reduced `% 2^32` /
  `% 2^16` at every place where the source stores into such a variable or
  casts to it.  `size_t` quantities (64 bit) are plain natural numbers: they
  count bytes or tokens of data held in memory and so stay below `2^64`.
* An `std::unordered_map` is an association list with unique keys.  Its
  iteration order is unspecified in C++; the model iterates in insertion
  order, and every result below is independent of that order (keys are
  sorted before they are used).
* An output stream is the list of bytes written so far (`tellp` is its
  length); an input stream is the list of bytes still to be read.
-/

namespace InfPoisk

/-- One byte (`char` / `unsigned char`). -/
abbrev Byte := Fin 256

/-- Model of `std::string`: a sequence of bytes. -/
abbrev Str := List Byte

/-- The bytes of an ASCII literal. -/
def ascii (s : String) : Str := s.toList.map (fun c => (Fin.ofNat c.toNat : Fin 256))

/-- Value of a byte seen as a (signed) `char` promoted to `int`. -/
def schar (c : Byte) : Int := if c.val < 128 then (c.val : Int) else (c.val : Int) - 256

/-- Little-endian bytes of a `uint16_t`. -/
def u16le (n : Nat) : List Byte :=
  [(Fin.ofNat (n % 256) : Fin 256), (Fin.ofNat (n / 256 % 256) : Fin 256)]

/-- Little-endian bytes of a `uint32_t`. -/
def u32le (n : Nat) : List Byte :=
  [(Fin.ofNat (n % 256) : Fin 256), (Fin.ofNat (n / 256 % 256) : Fin 256),
   (Fin.ofNat (n / 65536 % 256) : Fin 256), (Fin.ofNat (n / 16777216 % 256) : Fin 256)]

/-- Value of the `uint16_t` stored in the first two bytes of `bs`
(missing bytes count as zero; callers check the length first). -/
def le16 (bs : List Byte) : Nat :=
  (bs.getD 0 0).val + 256 * (bs.getD 1 0).val

/-- Value of the `uint32_t` stored in the first four bytes of `bs`. -/
def le32 (bs : List Byte) : Nat :=
  (bs.getD 0 0).val + 256 * (bs.getD 1 0).val + 65536 * (bs.getD 2 0).val
    + 16777216 * (bs.getD 3 0).val

/-! ### `std::unordered_map<std::string, V>` -/

/-- Association list with unique keys. -/
abbrev UMap (V : Type) := List (Str × V)

/-- Lookup (`find` / `count` / `at`). -/
def mapFind {V : Type} : UMap V → Str → Option V
  | [], _ => none
  | (k, v) :: m, key => if k = key then some v else mapFind m key

/-- The entry for `key` becomes `f (old value)`; a missing key is inserted
(`operator[]` followed by an update of the referenced value). -/
def mapUpsert {V : Type} : UMap V → Str → (Option V → V) → UMap V
  | [], key, f => [(key, f none)]
  | (k, v) :: m, key, f =>
    if k = key then (k, f (some v)) :: m else (k, v) :: mapUpsert m key f

/-- Keys in iteration order. -/
def mapKeys {V : Type} (m : UMap V) : List Str := m.map Prod.fst

/-! ## `src/6/boolean_index_builder.cpp` -/

namespace BooleanIndexBuilder

/-- `struct Document`: `file_size` is a `size_t`, `token_count` a `uint32_t`. -/
structure Document where
  title : Str
  path : Str
  file_size : Nat
  token_count : Nat
deriving DecidableEq, Repr

/-- `struct TermInfo`: `doc_ids` is a `vector<uint32_t>`, `total_occurrences`
a `size_t`. -/
structure TermInfo where
  doc_ids : List Nat
  total_occurrences : Nat
deriving DecidableEq, Repr

/-- `struct Statistics` without its two floating point members
(`indexing_time`, `avg_term_length`), which are only printed. -/
structure Statistics where
  total_documents : Nat
  total_tokens : Nat
  unique_terms : Nat
  total_bytes : Nat
deriving DecidableEq, Repr

/-- Data members of `class BooleanIndexBuilder`. -/
structure Builder where
  documents : List Document
  term_index : UMap TermInfo
  sorted_terms : List Str
  stats : Statistics
deriving DecidableEq, Repr

/-- A freshly constructed builder (`reset_statistics` in the constructor). -/
def Builder.fresh : Builder :=
  { documents := [], term_index := [], sorted_terms := [], stats := ⟨0, 0, 0, 0⟩ }

def FILE_FORMAT_VERSION : Nat := 1

/-- `FILE_MAGIC`, the four bytes "BIND". -/
def FILE_MAGIC : List Byte := [66, 73, 78, 68]

def HEADER_SIZE : Nat := 32

/-- One `.txt` file of the corpus directory as the file system presents it:
`path` and `title` (`filepath.stem()`), the size reported by
`fs::file_size` during the scan, and the bytes obtained when the file is
opened and read by `process_document` (`none` when it cannot be opened). -/
structure CorpusFile where
  path : Str
  title : Str
  file_size : Nat
  content : Option Str
deriving DecidableEq, Repr

/-- `scan_directory`, given the `.txt` files of the directory already sorted
by path.  Returns the `bool` result and the new state. -/
def scan_directory (b : Builder) (files : List CorpusFile) : Bool × Builder :=
  let docs := b.documents ++ files.map (fun f =>
    ({ title := f.title, path := f.path, file_size := f.file_size, token_count := 0 } : Document))
  (decide (docs.length > 0),
   { b with documents := docs, stats := { b.stats with total_documents := docs.length } })

/-- `is_valid_token_char`.  The Russian letters of the source are
two-byte UTF-8 sequences, so each quoted letter is a multi-character
constant of type `int`: 0xD0B0, 0xD18F, 0xD090, 0xD0AF, 0xD191, 0xD081. -/
def is_valid_token_char (c : Byte) : Bool :=
  let v := schar c
  if (53424 ≤ v ∧ v ≤ 53647) ∨ (53392 ≤ v ∧ v ≤ 53423) ∨ v = 53649 ∨ v = 53377 then true
  else if (97 ≤ v ∧ v ≤ 122) ∨ (65 ≤ v ∧ v ≤ 90) then true
  else if 48 ≤ v ∧ v ≤ 57 then true
  else if v = 45 ∨ v = 39 ∨ v = 38 then true
  else false

/-- `std::tolower` on an `unsigned char` in the "C" locale, cast back to `char`. -/
def tolower (c : Byte) : Byte := if 65 ≤ c.val ∧ c.val ≤ 90 then c + 32 else c

/-- Local variables of the tokenisation loop of `process_document`, together
with the two counters it increments (`stats.total_tokens`, a `size_t`, and
`doc.token_count`, a `uint32_t`).  `term_counts` maps a term to a `uint32_t`. -/
structure ScanState where
  current_token : Str
  in_token : Bool
  term_counts : UMap Nat
  total_tokens : Nat
  token_count : Nat
deriving DecidableEq, Repr

/-- The three statements `term_counts[current_token]++; stats.total_tokens++;
doc.token_count++;`. -/
def count_token (s : ScanState) : ScanState :=
  { s with
    term_counts := mapUpsert s.term_counts s.current_token (fun o => (o.getD 0 + 1) % 2 ^ 32)
    total_tokens := s.total_tokens + 1
    token_count := (s.token_count + 1) % 2 ^ 32 }

/-- Body of `for (char c : content)`. -/
def scan_step (s : ScanState) (c : Byte) : ScanState :=
  if is_valid_token_char c then
    { s with current_token := s.current_token ++ [tolower c], in_token := true }
  else if s.in_token then
    let s1 := if s.current_token.length > 1 then count_token s else s
    { s1 with current_token := [], in_token := false }
  else s

/-- The loop over the content followed by the "last token" statement. -/
def scan_content (s : ScanState) (content : Str) : ScanState :=
  let s1 := content.foldl scan_step s
  if s1.in_token ∧ s1.current_token.length > 1 then count_token s1 else s1

/-- Body of `for (const auto& term_pair : term_counts)`. -/
def add_posting (doc_id : Nat) (term_index : UMap TermInfo) (term_pair : Str × Nat) :
    UMap TermInfo :=
  mapUpsert term_index term_pair.1 (fun o =>
    let info := o.getD ⟨[], 0⟩
    ⟨info.doc_ids ++ [doc_id], info.total_occurrences + term_pair.2⟩)

/-- `process_document(doc_id)`; `content` is what opening and reading
`documents[doc_id].path` yields. -/
def process_document (b : Builder) (doc_id : Nat) (content : Option Str) : Bool × Builder :=
  match b.documents.get? doc_id with
  | none => (false, b)
  | some doc =>
    match content with
    | none => (false, b)
    | some bytes =>
      let s := scan_content ⟨[], false, [], b.stats.total_tokens, doc.token_count⟩ bytes
      (true,
       { b with
         documents := b.documents.set doc_id { doc with token_count := s.token_count }
         term_index := s.term_counts.foldl (add_posting doc_id) b.term_index
         stats := { b.stats with
                    total_bytes := b.stats.total_bytes + bytes.length
                    total_tokens := s.total_tokens } })

/-- The loop `for (uint32_t doc_id = 0; doc_id < stats.total_documents; ++doc_id)`
of `build_index`, started at `doc_id`; `contents` lists what reading the
documents `doc_id, doc_id + 1, ...` yields.  A document that cannot be
processed is skipped. -/
def process_all (b : Builder) : List (Option Str) → Nat → Builder
  | [], _ => b
  | c :: cs, doc_id => process_all (process_document b doc_id c).2 cs (doc_id + 1)

/-- `std::unique` on a vector of doc ids followed by `erase`. -/
def unique : List Nat → List Nat
  | [] => []
  | [a] => [a]
  | a :: b :: rest => if a = b then unique (b :: rest) else a :: unique (b :: rest)

/-- `operator<` of `std::string`: lexicographic on unsigned bytes. -/
def str_lt : Str → Str → Bool
  | [], [] => false
  | [], _ :: _ => true
  | _ :: _, [] => false
  | a :: as, b :: bs =>
    if a.val < b.val then true else if b.val < a.val then false else str_lt as bs

/-- `std::sort` on a vector of strings. -/
def sort_terms (l : List Str) : List Str :=
  l.insertionSort (fun a b => str_lt b a = false)

/-- `std::sort` on a vector of doc ids. -/
def sort_ids (l : List Nat) : List Nat := l.insertionSort (fun a b => a ≤ b)

/-- `prepare_term_dictionary`. -/
def prepare_term_dictionary (b : Builder) : Builder :=
  let sorted := sort_terms (b.sorted_terms ++ mapKeys b.term_index)
  { b with
    sorted_terms := sorted
    term_index := b.term_index.map (fun p =>
      (p.1, { p.2 with doc_ids := unique (sort_ids p.2.doc_ids) }))
    stats := { b.stats with unique_terms := sorted.length } }

/-- State of the builder when `build_index` returns `true` on the corpus
`files`.  (`calculate_statistics` only sets a floating point average.) -/
def built (files : List CorpusFile) : Builder :=
  prepare_term_dictionary
    (process_all (scan_directory Builder.fresh files).2 (files.map (fun f => f.content)) 0)

/-- `build_index`: `some b` when the call returns `true` leaving the builder
in state `b`.  `none` when no index is built: the scan finds no file, or the
directory holds `2^32` files or more, in which case the `uint32_t` counter
`doc_id` stays below `stats.total_documents` for ever and the loop never ends. -/
def build_index (files : List CorpusFile) : Option Builder :=
  if (scan_directory Builder.fresh files).1 = false then none
  else if 2 ^ 32 ≤ files.length then none
  else some (built files)

/-! ### Writing the index file -/

/-- `write_file_header`: 4 + 4 + 4 + 4 bytes and five 4-byte placeholders. -/
def write_file_header (b : Builder) (out : List Byte) : List Byte :=
  out ++ FILE_MAGIC ++ u32le FILE_FORMAT_VERSION ++ u32le (b.documents.length % 2 ^ 32)
    ++ u32le (b.sorted_terms.length % 2 ^ 32)
    ++ (u32le 0 ++ u32le 0 ++ u32le 0 ++ u32le 0 ++ u32le 0)

/-- Bytes written for one document by the loop of `write_document_table`. -/
def write_document (doc : Document) : List Byte :=
  let title_len := doc.title.length % 2 ^ 32
  let path_len := doc.path.length % 2 ^ 32
  u32le title_len ++ doc.title.take title_len ++ u32le path_len ++ doc.path.take path_len
    ++ u32le (doc.file_size % 2 ^ 32) ++ u32le (doc.token_count % 2 ^ 32)

def write_documents : List Document → List Byte
  | [] => []
  | d :: ds => write_document d ++ write_documents ds

/-- `write_document_table`: the stream afterwards and the returned `start_pos`. -/
def write_document_table (b : Builder) (out : List Byte) : List Byte × Nat :=
  (out ++ write_documents b.documents, out.length)

/-- `uint32_t list_size = 4 + (static_cast<uint32_t>(info.doc_ids.size()) * 4)`. -/
def list_size (info : TermInfo) : Nat := (4 + (info.doc_ids.length % 2 ^ 32) * 4) % 2 ^ 32

/-- First loop of `write_term_dictionary`: the vector `posting_offsets`,
with `current_offset` a `uint32_t`.  `none` when `term_index.at` throws. -/
def posting_offsets (term_index : UMap TermInfo) : List Str → Nat → Option (List Nat)
  | [], _ => some []
  | term :: rest, current_offset =>
    match mapFind term_index term with
    | none => none
    | some info =>
      match posting_offsets term_index rest ((current_offset + list_size info) % 2 ^ 32) with
      | none => none
      | some offs => some (current_offset :: offs)

/-- Bytes written for one term by the second loop of `write_term_dictionary`. -/
def write_term (term : Str) (info : TermInfo) (offset : Nat) : List Byte :=
  let term_len := term.length % 2 ^ 16
  u16le term_len ++ term.take term_len ++ u32le offset ++ u32le (list_size info)
    ++ u32le (info.total_occurrences % 2 ^ 32)

/-- Second loop of `write_term_dictionary` (`sorted_terms[i]` with
`posting_offsets[i]`). -/
def write_terms (term_index : UMap TermInfo) : List Str → List Nat → Option (List Byte)
  | term :: rest, offset :: offs =>
    match mapFind term_index term with
    | none => none
    | some info =>
      match write_terms term_index rest offs with
      | none => none
      | some bs => some (write_term term info offset ++ bs)
  | _, _ => some []

/-- `write_term_dictionary`: the stream afterwards and the returned `start_pos`. -/
def write_term_dictionary (b : Builder) (out : List Byte) : Option (List Byte × Nat) :=
  match posting_offsets b.term_index b.sorted_terms 0 with
  | none => none
  | some offs =>
    match write_terms b.term_index b.sorted_terms offs with
    | none => none
    | some bs => some (out ++ bs, out.length)

def write_ids : List Nat → List Byte
  | [] => []
  | doc_id :: rest => u32le doc_id ++ write_ids rest

/-- Bytes written for one term by `write_posting_lists`. -/
def write_posting (info : TermInfo) : List Byte :=
  u32le (info.doc_ids.length % 2 ^ 32) ++ write_ids info.doc_ids

/-- `write_posting_lists`, as the bytes appended to the stream. -/
def write_postings (term_index : UMap TermInfo) : List Str → Option (List Byte)
  | [] => some []
  | term :: rest =>
    match mapFind term_index term with
    | none => none
    | some info =>
      match write_postings term_index rest with
      | none => none
      | some bs => some (write_posting info ++ bs)

def write_posting_lists (b : Builder) (out : List Byte) : Option (List Byte) :=
  match write_postings b.term_index b.sorted_terms with
  | none => none
  | some bs => some (out ++ bs)

/-- `calculate_term_dict_size`. -/
def calculate_term_dict_size : List Str → Nat
  | [] => 0
  | term :: rest => 2 + term.length + 4 + 4 + 4 + calculate_term_dict_size rest

/-- `update_file_header`: `seekp(16)` and five `uint32_t` written over bytes
16..35 of the stream (which is at least 36 bytes long at that point). -/
def update_file_header (b : Builder) (out : List Byte) (doc_table_offset term_dict_offset : Nat) :
    List Byte :=
  let current_pos := out.length
  out.take 16
    ++ (u32le (doc_table_offset % 2 ^ 32) ++ u32le (term_dict_offset % 2 ^ 32)
        ++ u32le ((term_dict_offset + calculate_term_dict_size b.sorted_terms) % 2 ^ 32)
        ++ u32le (HEADER_SIZE % 2 ^ 32) ++ u32le (current_pos % 2 ^ 32))
    ++ out.drop 36

/-- `save_index`: the bytes of the file when the call returns `true`, `none`
when `term_index.at` throws and the call returns `false`. -/
def save_index (b : Builder) : Option (List Byte) :=
  let out1 := write_file_header b []
  let (out2, doc_table_offset) := write_document_table b out1
  match write_term_dictionary b out2 with
  | none => none
  | some (out3, term_dict_offset) =>
    match write_posting_lists b out3 with
    | none => none
    | some out4 => some (update_file_header b out4 doc_table_offset term_dict_offset)

end BooleanIndexBuilder

/-! ## `src/6/boolean_index_reader.cpp` -/

namespace BooleanIndexReader

/-- `struct DocumentInfo` (both numbers are `uint32_t`). -/
structure DocumentInfo where
  title : Str
  path : Str
  file_size : Nat
  token_count : Nat
deriving DecidableEq, Repr

/-- `struct TermInfo` of the reader (the three numbers are `uint32_t`). -/
structure TermInfo where
  term : Str
  posting_offset : Nat
  posting_size : Nat
  total_occurrences : Nat
deriving DecidableEq, Repr

/-- Data members of `class BooleanIndexReader`.  `header` holds the
`sizeof(FileHeader) = 36` bytes of the member `header` (`char magic[4]`
followed by eight `uint32_t`), which `load_index` fills by a raw read. -/
structure Reader where
  header : List Byte
  documents : List DocumentInfo
  term_dict : List TermInfo
deriving DecidableEq, Repr

/-- `sizeof(FileHeader)`. -/
def SIZEOF_FILE_HEADER : Nat := 36

def header_magic (h : List Byte) : List Byte := h.take 4
def header_version (h : List Byte) : Nat := le32 (h.drop 4)
def header_doc_count (h : List Byte) : Nat := le32 (h.drop 8)
def header_term_count (h : List Byte) : Nat := le32 (h.drop 12)
def header_doc_table_offset (h : List Byte) : Nat := le32 (h.drop 16)
def header_term_dict_offset (h : List Byte) : Nat := le32 (h.drop 20)
def header_posting_offset (h : List Byte) : Nat := le32 (h.drop 24)
def header_header_size (h : List Byte) : Nat := le32 (h.drop 28)
def header_file_size (h : List Byte) : Nat := le32 (h.drop 32)

/-- `in.read` of a `uint32_t` from the bytes still to be read; `none` when
fewer than four bytes are left (the read fails and the variable keeps an
indeterminate value). -/
def read_u32 (inp : List Byte) : Option (Nat × List Byte) :=
  if 4 ≤ inp.length then some (le32 inp, inp.drop 4) else none

/-- `in.read` of a `uint16_t`. -/
def read_u16 (inp : List Byte) : Option (Nat × List Byte) :=
  if 2 ≤ inp.length then some (le16 inp, inp.drop 2) else none

/-- `s.resize(n); in.read(&s[0], n)`. -/
def read_str (n : Nat) (inp : List Byte) : Option (Str × List Byte) :=
  if n ≤ inp.length then some (inp.take n, inp.drop n) else none

/-- Body of the document loop of `load_index`. -/
def read_document (inp : List Byte) : Option (DocumentInfo × List Byte) :=
  match read_u32 inp with
  | none => none
  | some (title_len, inp1) =>
    match read_str title_len inp1 with
    | none => none
    | some (title, inp2) =>
      match read_u32 inp2 with
      | none => none
      | some (path_len, inp3) =>
        match read_str path_len inp3 with
        | none => none
        | some (path, inp4) =>
          match read_u32 inp4 with
          | none => none
          | some (file_size, inp5) =>
            match read_u32 inp5 with
            | none => none
            | some (token_count, inp6) => some (⟨title, path, file_size, token_count⟩, inp6)

/-- The loop `for (uint32_t i = 0; i < header.doc_count; ++i)`. -/
def read_documents : Nat → List Byte → Option (List DocumentInfo × List Byte)
  | 0, inp => some ([], inp)
  | n + 1, inp =>
    match read_document inp with
    | none => none
    | some (doc, inp1) =>
      match read_documents n inp1 with
      | none => none
      | some (docs, inp2) => some (doc :: docs, inp2)

/-- Body of the term loop of `load_index`. -/
def read_term (inp : List Byte) : Option (TermInfo × List Byte) :=
  match read_u16 inp with
  | none => none
  | some (term_len, inp1) =>
    match read_str term_len inp1 with
    | none => none
    | some (term, inp2) =>
      match read_u32 inp2 with
      | none => none
      | some (posting_offset, inp3) =>
        match read_u32 inp3 with
        | none => none
        | some (posting_size, inp4) =>
          match read_u32 inp4 with
          | none => none
          | some (total_occurrences, inp5) =>
            some (⟨term, posting_offset, posting_size, total_occurrences⟩, inp5)

/-- The loop `for (uint32_t i = 0; i < header.term_count; ++i)`. -/
def read_terms : Nat → List Byte → Option (List TermInfo × List Byte)
  | 0, inp => some ([], inp)
  | n + 1, inp =>
    match read_term inp with
    | none => none
    | some (t, inp1) =>
      match read_terms n inp1 with
      | none => none
      | some (ts, inp2) => some (t :: ts, inp2)

/-- `load_index`.  `file` is the content of `index_file_path` (`none` when
the file cannot be opened).  The result is the returned `bool` with the
state of the reader afterwards.

The header is read straight into the member `header`: the bytes the file
supplies overwrite it, the rest keeps its old content.  When the file is
shorter than 36 bytes that read sets the fail bit, so both `seekg` calls
do nothing and every later read fails.  A read that fails inside one of the
two loops leaves an uninitialised local variable that the loop then uses;
the model gives no result (`none`) for such a run. -/
def load_index (r : Reader) (file : Option (List Byte)) : Option (Bool × Reader) :=
  match file with
  | none => some (false, r)
  | some data =>
    let got := data.take SIZEOF_FILE_HEADER
    let r1 := { r with header := got ++ r.header.drop got.length }
    if header_magic r1.header ≠ [66, 73, 78, 68] then some (false, r1)
    else if data.length < SIZEOF_FILE_HEADER then
      if header_doc_count r1.header = 0 ∧ header_term_count r1.header = 0 then some (true, r1)
      else none
    else
      match read_documents (header_doc_count r1.header)
              (data.drop (header_doc_table_offset r1.header)) with
      | none => none
      | some (docs, _) =>
        match read_terms (header_term_count r1.header)
                (data.drop (header_term_dict_offset r1.header)) with
        | none => none
        | some (terms, _) =>
          some (true, { r1 with documents := r.documents ++ docs,
                                term_dict := r.term_dict ++ terms })

/-- Reads `n` doc ids (`uint32_t`) one after the other. -/
def read_ids : Nat → List Byte → Option (List Nat)
  | 0, _ => some []
  | n + 1, inp =>
    match read_u32 inp with
    | none => none
    | some (doc_id, inp1) =>
      match read_ids n inp1 with
      | none => none
      | some ids => some (doc_id :: ids)

end BooleanIndexReader

/-! ## `src/7/bool_search.cpp` -/

namespace BoolSearch

/-- `unordered_set<int>`. -/
abbrev DocSet := Finset Int

/-- The global variables `idx` and `all_docs` that `eval` reads. -/
structure Globals where
  idx : UMap DocSet
  all_docs : DocSet

/-- `isalnum` in the "C" locale (false for every byte outside ASCII). -/
def isalnum (c : Byte) : Bool :=
  (48 ≤ c.val ∧ c.val ≤ 57) ∨ (65 ≤ c.val ∧ c.val ≤ 90) ∨ (97 ≤ c.val ∧ c.val ≤ 122)

/-- `tolower` in the "C" locale, stored back into a `char`. -/
def tolower (c : Byte) : Byte := if 65 ≤ c.val ∧ c.val ≤ 90 then c + 32 else c

/-- Condition of the word loop of `eval`:
`isalnum(c) || c >= 'а' && c <= 'я' || c >= 'А' && c <= 'Я'`, where the
quoted Russian letters are the multi-character `int` constants 0xD0B0,
0xD18F, 0xD090, 0xD0AF. -/
def is_word_char (c : Byte) : Bool :=
  isalnum c || (decide (53424 ≤ schar c) && decide (schar c ≤ 53647))
    || (decide (53392 ≤ schar c) && decide (schar c ≤ 53423))

/-- Content of the variable `op`, which only ever holds "", "&&", "||" or "!". -/
inductive Op where
  | empty
  | and
  | or
  | not
deriving DecidableEq, Repr

/-- The inner loop of the `(` branch: `depth` starts at 1 and the loop runs
while `j < expr.size() && depth > 0`.  The argument is `expr` from index
`j` on; the result is the number of characters the loop steps over. -/
def scan_paren : List Byte → Nat → Nat
  | [], _ => 0
  | c :: cs, depth =>
    if depth = 0 then 0
    else if c = 40 then 1 + scan_paren cs (depth + 1)
    else if c = 41 then 1 + scan_paren cs (depth - 1)
    else 1 + scan_paren cs depth

/-- The block "Обработка операций" at the end of the loop body: the stack
(top first) and `op` afterwards. -/
def apply_op (g : Globals) (st : List DocSet) (op : Op) : List DocSet × Op :=
  match op, st with
  | Op.and, b :: a :: rest => (a.filter (fun x => x ∈ b) :: rest, Op.empty)
  | Op.or, b :: a :: rest => ((a ∪ b) :: rest, Op.empty)
  | Op.not, a :: rest => (g.all_docs.filter (fun x => x ∉ a) :: rest, Op.empty)
  | Op.not, [] => ([], Op.empty)
  | _, _ => (st, op)

/-- The `for` loop of `eval`, with `fuel` bounding the number of loop
iterations (those of nested calls included).  The second argument is
`expr` from index `i` on, `st` is the stack (top first).  `some s` is the
returned set; `none` means the fuel ran out.

In the word branch the loop reads the longest run of word characters, then
`i--` and the `i++` of the `for` leave `i` at the first character after the
run (at the same character when the run is empty). -/
def eval_loop (g : Globals) : Nat → List Byte → List DocSet → Op → Option DocSet
  | 0, _, _, _ => none
  | _ + 1, [], st, _ => some (st.headD ∅)
  | fuel + 1, c :: cs, st, op =>
    if c = 32 then eval_loop g fuel cs st op
    else if c = 40 then
      let k := scan_paren cs 1
      -- `expr.substr(i+1, j-i-2)`; the length is a `size_t`
      match eval_loop g fuel (cs.take ((k + 2 ^ 64 - 1) % 2 ^ 64)) [] Op.empty with
      | none => none
      | some res =>
        let r := apply_op g (res :: st) op
        eval_loop g fuel (cs.drop k) r.1 r.2
    else if (c :: cs).take 2 = [38, 38] then
      let r := apply_op g st Op.and
      eval_loop g fuel (cs.drop 1) r.1 r.2
    else if (c :: cs).take 2 = [124, 124] then
      let r := apply_op g st Op.or
      eval_loop g fuel (cs.drop 1) r.1 r.2
    else if c = 33 then
      if cs ≠ [] ∧ (isalnum (cs.headD 0) = true ∨ cs.headD 0 = 40) then
        eval_loop g fuel cs st op
      else
        let r := apply_op g st Op.not
        eval_loop g fuel cs r.1 r.2
    else
      let word := ((c :: cs).takeWhile is_word_char).map tolower
      let st1 := if word ≠ [] then (mapFind g.idx word).getD ∅ :: st else st
      let r := apply_op g st1 op
      eval_loop g fuel ((c :: cs).dropWhile is_word_char) r.1 r.2

/-- `eval(expr)` run with the given fuel. -/
def eval (g : Globals) (fuel : Nat) (expr : Str) : Option DocSet :=
  eval_loop g fuel expr [] Op.empty

/-! ### Vocabulary for statements about `eval` -/

/-- Looking up a (lower-cased) word in `idx`: its set, or the empty set. -/
def postings (g : Globals) (word : Str) : DocSet := (mapFind g.idx word).getD ∅

/-- A non-empty word of ASCII letters and digits. -/
def is_word (w : Str) : Prop := w ≠ [] ∧ w.all isalnum = true

/-- A term as `tokenize` produces them: a word that is already lower case. -/
def is_term (w : Str) : Prop := is_word w ∧ w.map tolower = w

/-- The text after a word starts, if at all, with a character that ends the word. -/
def ends_word (rest : Str) : Prop := ∀ c ∈ rest.head?, is_word_char c = false

/-- The two binary operators of a query. -/
inductive BinOp where
  | and
  | or
deriving DecidableEq, Repr

/-- The two characters of a binary operator: "&&" or "||". -/
def BinOp.text : BinOp → Str
  | BinOp.and => [38, 38]
  | BinOp.or => [124, 124]

/-- What the branch of `eval` for the operator stores in `op`. -/
def BinOp.toOp : BinOp → Op
  | BinOp.and => Op.and
  | BinOp.or => Op.or

/-- Intersection for "&&", union for "||". -/
def BinOp.apply : BinOp → DocSet → DocSet → DocSet
  | BinOp.and, a, b => a ∩ b
  | BinOp.or, a, b => a ∪ b

/-- A run of `n` spaces. -/
def spaces (n : Nat) : Str := List.replicate n 32

/-- One further step `o t` of a chain `t1 o1 t2 o2 ... tn`, with the number of
spaces written before and after the operator. -/
structure ChainItem where
  before : Nat
  op : BinOp
  after : Nat
  word : Str

/-- Text of the steps after the first word. -/
def chain_tail : List ChainItem → Str
  | [] => []
  | it :: rest => spaces it.before ++ it.op.text ++ spaces it.after ++ it.word ++ chain_tail rest

/-- Text of the chain `t1 o1 t2 o2 ... tn`. -/
def chain (w1 : Str) (tail : List ChainItem) : Str := w1 ++ chain_tail tail

/-- Strict left fold `(((S1 o1 S2) o2 S3) ...)` started from `acc`. -/
def left_fold (g : Globals) (acc : DocSet) : List ChainItem → DocSet
  | [] => acc
  | it :: rest => left_fold g (it.op.apply acc (postings g (it.word.map tolower))) rest

/-- Parentheses are balanced in `e` when read at nesting depth `d`: no `)`
closes below depth 0 and the depth is back at 0 at the end. -/
def balanced : Nat → Str → Bool
  | d, [] => decide (d = 0)
  | d, c :: cs =>
    if c = 40 then balanced (d + 1) cs
    else if c = 41 then decide (0 < d) && balanced (d - 1) cs
    else balanced d cs

/-- The query `Q` negated twice, written "!(!(Q))". -/
def not_not (q : Str) : Str := [33, 40, 33, 40] ++ q ++ [41, 41]

/-- The index of the end-to-end example: `cat:{0,2}`, `dog:{0,1}`,
`bird:{1,2}`, `fish:{2}` over the universe `{0,1,2}`. -/
def pets : Globals :=
  ⟨[(ascii "cat", {0, 2}), (ascii "dog", {0, 1}), (ascii "bird", {1, 2}), (ascii "fish", {2})],
   {0, 1, 2}⟩

/-- The index of the precedence example: `a:{1,2}`, `b:{2,3}`, `c:{3,4}`
over the universe `{1,2,3,4}`. -/
def abc : Globals :=
  ⟨[(ascii "a", {1, 2}), (ascii "b", {2, 3}), (ascii "c", {3, 4})], {1, 2, 3, 4}⟩

end BoolSearch

/-! ## Vocabulary for statements about the builder and the index file -/

namespace BooleanIndexBuilder

/-- The tokens that the tokenisation loop of `process_document` counts, in the order in
which it counts them, when it is entered with `current_token = cur`: the loop with its
three counting statements replaced by emitting the token. -/
def tokens_from (cur : Str) : Str → List Str
  | [] => if cur.length > 1 then [cur] else []
  | c :: cs =>
    if is_valid_token_char c then tokens_from (cur ++ [tolower c]) cs
    else if cur.length > 1 then cur :: tokens_from [] cs
    else tokens_from [] cs

/-- The normalised term sequence of a document with the given bytes. -/
def tokenize (content : Str) : List Str := tokens_from [] content

/-- The term sequence of a document as `process_document` sees it: nothing when the
file cannot be opened. -/
def doc_tokens (content : Option Str) : List Str :=
  match content with
  | none => []
  | some bytes => tokenize bytes

/-- `term_counts` after the given tokens have been counted one by one. -/
def count_tokens (m : UMap Nat) (toks : List Str) : UMap Nat :=
  toks.foldl (fun m t => mapUpsert m t (fun o => (o.getD 0 + 1) % 2 ^ 32)) m

/-- Ids of the documents, numbered from `doc_id` on, whose term sequence contains `t`. -/
def spec_ids (t : Str) : List (Option Str) → Nat → List Nat
  | [], _ => []
  | c :: cs, doc_id =>
    if t ∈ doc_tokens c then doc_id :: spec_ids t cs (doc_id + 1)
    else spec_ids t cs (doc_id + 1)

/-- Sum over the documents of the `uint32_t` count of `t` in the document. -/
def spec_total (t : Str) : List (Option Str) → Nat
  | [] => 0
  | c :: cs => (doc_tokens c).count t % 2 ^ 32 + spec_total t cs

/-- `doc_ids(t)` of a builder: the posting list stored for `t`, empty when `t` is not a
key of `term_index`. -/
def doc_ids_of (b : Builder) (t : Str) : List Nat :=
  match mapFind b.term_index t with
  | none => []
  | some info => info.doc_ids

/-- `total_occurrences(t)` of a builder (0 when `t` is not a key of `term_index`). -/
def total_occurrences_of (b : Builder) (t : Str) : Nat :=
  match mapFind b.term_index t with
  | none => 0
  | some info => info.total_occurrences

end BooleanIndexBuilder

namespace BooleanIndexBuilder

/-- The string `s` written `n` times in a row. -/
def repeat_str : Nat → Str → Str
  | 0, _ => []
  | n + 1, s => s ++ repeat_str n s

/-- The corpus of the end-to-end example: doc0 "cat dog", doc1 "dog bird",
doc2 "cat bird fish". -/
def pets_corpus : List CorpusFile :=
  [⟨ascii "d0.txt", ascii "d0", 7, some (ascii "cat dog")⟩,
   ⟨ascii "d1.txt", ascii "d1", 8, some (ascii "dog bird")⟩,
   ⟨ascii "d2.txt", ascii "d2", 13, some (ascii "cat bird fish")⟩]

/-- A corpus of one readable document of 12 GiB: the three bytes "ab " written
`2^32` times. -/
def repetitive_corpus : List CorpusFile :=
  [⟨ascii "r.txt", ascii "r", 3 * 2 ^ 32, some (repeat_str (2 ^ 32) (ascii "ab "))⟩]

/-- A corpus of one document of 4 GiB that cannot be opened. -/
def big_file_corpus : List CorpusFile :=
  [⟨ascii "big.txt", ascii "big", 2 ^ 32, none⟩]

/-- A corpus of one document that consists of the letter "a" written 65536 times. -/
def long_term_corpus : List CorpusFile :=
  [⟨ascii "l.txt", ascii "l", 65536, some (List.replicate 65536 97)⟩]

end BooleanIndexBuilder

namespace IndexFile
open BooleanIndexBuilder BooleanIndexReader

/-- The record the reader obtains from the bytes `write_document` emits for a document. -/
def doc_info (d : Document) : DocumentInfo :=
  ⟨d.title.take (d.title.length % 2 ^ 32), d.path.take (d.path.length % 2 ^ 32),
   d.file_size % 2 ^ 32, d.token_count % 2 ^ 32⟩

/-- The entry the reader obtains from the bytes `write_term` emits for a term. -/
def term_entry (term : Str) (info : BooleanIndexBuilder.TermInfo) (offset : Nat) :
    BooleanIndexReader.TermInfo :=
  ⟨term.take (term.length % 2 ^ 16), offset % 2 ^ 32, list_size info,
   info.total_occurrences % 2 ^ 32⟩

/-- The entries for the terms of a dictionary, paired with their offsets. -/
def term_entries (term_index : UMap BooleanIndexBuilder.TermInfo) :
    List Str → List Nat → List BooleanIndexReader.TermInfo
  | term :: rest, offset :: offs =>
    term_entry term ((mapFind term_index term).getD ⟨[], 0⟩) offset
      :: term_entries term_index rest offs
  | _, _ => []

end IndexFile

namespace IndexFile
open BooleanIndexBuilder BooleanIndexReader

/-- The 36 bytes at the start of the file once `update_file_header` has run, given the
two offsets passed to it and the position of the write cursor. -/
def header_bytes (b : Builder) (doc_table_offset term_dict_offset current_pos : Nat) :
    List Byte :=
  FILE_MAGIC ++ (u32le FILE_FORMAT_VERSION ++ (u32le (b.documents.length % 2 ^ 32)
    ++ (u32le (b.sorted_terms.length % 2 ^ 32) ++ (u32le (doc_table_offset % 2 ^ 32)
    ++ (u32le (term_dict_offset % 2 ^ 32)
    ++ (u32le ((term_dict_offset + calculate_term_dict_size b.sorted_terms) % 2 ^ 32)
    ++ (u32le (HEADER_SIZE % 2 ^ 32) ++ u32le (current_pos % 2 ^ 32))))))))

/-- A reader object before `load_index` is called: empty vectors, and a header
member holding whatever bytes `h` were there. -/
def fresh_reader (h : List Byte) : Reader := ⟨h, [], []⟩

end IndexFile

namespace IndexFile
open BooleanIndexBuilder BooleanIndexReader

/-- The index file of the end-to-end corpus. -/
def pets_file : List Byte := (save_index (built pets_corpus)).getD []

end IndexFile

namespace BoolSearch

/-- The index built from a directory without documents: no postings, empty universe. -/
def no_docs : Globals := ⟨[], ∅⟩

end BoolSearch

namespace BooleanIndexReader

/-- A header member filled with zero bytes. -/
def zero_header : List Byte := List.replicate 36 0

/-- An 8-byte file that is not an index file. -/
def junk_file : List Byte := ascii "JUNKJUNK"

end BooleanIndexReader

namespace BooleanIndexBuilder

/-- The end-to-end corpus with its second document unreadable. -/
def gap_corpus : List CorpusFile :=
  [⟨ascii "d0.txt", ascii "d0", 7, some (ascii "cat dog")⟩,
   ⟨ascii "d1.txt", ascii "d1", 8, none⟩,
   ⟨ascii "d2.txt", ascii "d2", 13, some (ascii "cat bird fish")⟩]

/-- The number `i` written with ten decimal digits. -/
def doc_name (i : Nat) : Str :=
  (List.range 10).reverse.map (fun k => (Fin.ofNat (48 + i / 10 ^ k % 10) : Byte))

/-- A corpus of `n` documents named "0000000000.txt", "0000000001.txt", ..., each
holding the three bytes "ab ". -/
def numbered_corpus (n : Nat) : List CorpusFile :=
  (List.range n).map (fun i => ⟨doc_name i ++ ascii ".txt", doc_name i, 3, some (ascii "ab ")⟩)

/-- A corpus of `2^30` documents that all contain the term "ab". -/
def crowded_corpus : List CorpusFile := numbered_corpus (2 ^ 30)

end BooleanIndexBuilder

namespace BoolSearch

/-- The text after a "!" is empty or starts with a character that is neither
alphanumeric nor "(": the "!" then reaches the statement `op = "!"`. -/
def applies_bang (rest : Str) : Prop :=
  ∀ c ∈ rest.head?, isalnum c = false ∧ c ≠ 40

end BoolSearch

namespace BooleanIndexReader
open BooleanIndexBuilder

/-- The initial value of `right` in `search_term`: `int right = term_dict.size() - 1`,
a `size_t` (64 bits) converted to `int` (32 bits, two's complement). -/
def int_of_size_minus_one (n : Nat) : Int :=
  let v : Nat := (n + 2 ^ 64 - 1) % 2 ^ 64 % 2 ^ 32
  if v < 2 ^ 31 then (v : Int) else (v : Int) - 2 ^ 32

/-- The loop `while (left <= right)` of `search_term`, with `fuel` bounding the number
of iterations.  The result is `found_index` (`-1` for "not found"); `none` means that
the fuel ran out, that `term_dict[mid]` lies outside the vector, or that `mid + 1`
overflows `int`.  `left` is never negative, so inside the loop `right - left` is not
negative and the division rounds as in C++. -/
def search_loop (term_dict : List TermInfo) (term : Str) : Nat → Int → Int → Option Int
  | 0, _, _ => none
  | fuel + 1, left, right =>
    if left ≤ right then
      let mid := left + (right - left) / 2
      if mid < 0 then none
      else
        match term_dict.get? mid.toNat with
        | none => none
        | some e =>
          if e.term = term then some mid
          else if str_lt e.term term then
            if mid + 1 < 2 ^ 31 then search_loop term_dict term fuel (mid + 1) right else none
          else search_loop term_dict term fuel left (mid - 1)
    else some (-1)

/-- The binary search of `search_term` on the member `term_dict`: the value of
`found_index` after the loop. -/
def search_term_find (term_dict : List TermInfo) (term : Str) (fuel : Nat) : Option Int :=
  search_loop term_dict term fuel 0 (int_of_size_minus_one term_dict.length)

/-- The number `i` as four bytes, most significant first. -/
def be32 (i : Nat) : Str :=
  [Fin.ofNat (i / 2 ^ 24 % 256), Fin.ofNat (i / 2 ^ 16 % 256), Fin.ofNat (i / 2 ^ 8 % 256),
   Fin.ofNat (i % 256)]

/-- A dictionary of `n` entries whose terms are the numbers `0, 1, ..., n - 1` written as
four bytes each. -/
def numbered_dict (n : Nat) : List TermInfo :=
  (List.range n).map (fun i => ⟨be32 i, 0, 8, 1⟩)

/-- A dictionary of `2^31 + 1` entries. -/
def huge_dict : List TermInfo := numbered_dict (2 ^ 31 + 1)

/-- The dictionary of the end-to-end example as the reader loads it. -/
def pets_dict : List TermInfo :=
  [⟨ascii "bird", 0, 12, 2⟩, ⟨ascii "cat", 12, 12, 2⟩, ⟨ascii "dog", 24, 12, 2⟩,
   ⟨ascii "fish", 36, 8, 1⟩]

end BooleanIndexReader

/-! ## Wide characters and the locale -/

/-- A `std::wstring`: the code points of its `wchar_t` elements. -/
abbrev WStr := List Nat

/-- The wide string literal with the given text. -/
def wide (s : String) : WStr := s.toList.map Char.toNat

/-- The functions of `<cwctype>` that the programs call.  Their results depend on the
locale that is in force when the program runs. -/
structure WideLocale where
  towlower : Nat → Nat
  iswalnum : Nat → Bool
  iswdigit : Nat → Bool

/-- The "C" locale: only ASCII letters and digits are classified and converted. -/
def c_locale : WideLocale where
  towlower := fun c => if 65 ≤ c ∧ c ≤ 90 then c + 32 else c
  iswalnum := fun c => decide ((48 ≤ c ∧ c ≤ 57) ∨ (65 ≤ c ∧ c ≤ 90) ∨ (97 ≤ c ∧ c ≤ 122))
  iswdigit := fun c => decide (48 ≤ c ∧ c ≤ 57)

/-- On ASCII characters the locale behaves as the "C" locale does. -/
def ascii_as_in_c (loc : WideLocale) : Prop :=
  ∀ c, c < 128 → loc.towlower c = c_locale.towlower c ∧ loc.iswalnum c = c_locale.iswalnum c ∧
    loc.iswdigit c = c_locale.iswdigit c

/-- A lower-case Russian letter: "а".."я" (1072..1103) or "ё" (1105). -/
def is_lower_cyrillic (c : Nat) : Bool := decide ((1072 ≤ c ∧ c ≤ 1103) ∨ c = 1105)

/-- The locale leaves lower-case Russian letters as they are under `towlower`. -/
def keeps_lower_cyrillic (loc : WideLocale) : Prop :=
  ∀ c, is_lower_cyrillic c = true → loc.towlower c = c

/-! ## `src/4/stemmer.cpp` -/

namespace RussianStemmer

/-- The set `exceptions` filled by the constructor. -/
def exceptions : List WStr :=
  [wide "это", wide "что", wide "как", wide "так", wide "здесь", wide "там", wide "где",
   wide "кто", wide "чем", wide "сам", wide "сама", wide "само", wide "сами"]

/-- The vector `endings` in the order in which the constructor lists it. -/
def endings : List WStr :=
  [wide "иями", wide "иях", wide "иям", wide "иев", wide "ием", wide "ию", wide "ие", wide "ий",
   wide "ия", wide "ии", wide "ями", wide "ях", wide "ям", wide "ев", wide "ем", wide "ю",
   wide "е", wide "й", wide "я", wide "и", wide "а", wide "о", wide "у", wide "ы", wide "ь"]

/-- `is_vowel`: the letters а, е, ё, и, о, у, ы, э, ю, я after `towlower`. -/
def is_vowel (loc : WideLocale) (c : Nat) : Bool :=
  let c := loc.towlower c
  decide (c = 1072 ∨ c = 1077 ∨ c = 1105 ∨ c = 1080 ∨ c = 1086 ∨ c = 1091 ∨ c = 1099 ∨ c = 1101
    ∨ c = 1102 ∨ c = 1103)

/-- `ends_with`. -/
def ends_with (word ending : WStr) : Bool :=
  if word.length < ending.length then false
  else decide (word.drop (word.length - ending.length) = ending)

/-- `count_vowels`.  The counter is an `int`, which holds the count of every word of
fewer than `2^31` characters. -/
def count_vowels (loc : WideLocale) (word : WStr) : Nat :=
  word.foldl (fun count c => if is_vowel loc c then count + 1 else count) 0

/-- The "additional rules" of `remove_endings`, applied to the candidate once an ending
has been removed: at most one of the suffixes "ость", "тель", "ник", "ок" is cut. -/
def suffix_rules (candidate : WStr) : WStr :=
  if ends_with candidate (wide "ость") ∧ candidate.length > 4 then
    candidate.take (candidate.length - 4)
  else if ends_with candidate (wide "тель") ∧ candidate.length > 4 then
    candidate.take (candidate.length - 4)
  else if ends_with candidate (wide "ник") ∧ candidate.length > 3 then
    candidate.take (candidate.length - 3)
  else if ends_with candidate (wide "ок") ∧ candidate.length > 2 then
    candidate.take (candidate.length - 2)
  else candidate

/-- The loop `for (const auto& ending : endings)` of `remove_endings` over the endings
still to be tried, followed by `return result`. -/
def remove_loop (loc : WideLocale) (result : WStr) : List WStr → WStr
  | [] => result
  | ending :: rest =>
    if ends_with result ending then
      let candidate := result.take (result.length - ending.length)
      if candidate.length ≥ 2 ∧ count_vowels loc candidate > 0 then suffix_rules candidate
      else remove_loop loc result rest
    else remove_loop loc result rest

/-- `remove_endings`. -/
def remove_endings (loc : WideLocale) (word : WStr) : WStr := remove_loop loc word endings

/-- `stem(const std::wstring&)`. -/
def stem (loc : WideLocale) (word : WStr) : WStr :=
  if word.length ≤ 3 ∨ word ∈ exceptions then word
  else
    let stemmed := remove_endings loc word
    if stemmed.length < 2 then word else stemmed

/-- The ending can be removed from the word: the word ends with it and what is left has
at least two characters and a vowel (the condition tested inside the loop). -/
def removable (loc : WideLocale) (word ending : WStr) : Bool :=
  ends_with word ending &&
    (decide ((word.take (word.length - ending.length)).length ≥ 2) &&
      decide (count_vowels loc (word.take (word.length - ending.length)) > 0))

/-- An ending `b` that comes later in the list than `a` is not longer than `a`, unless
`a` is not an ending of `b`. -/
def later_not_longer (a b : WStr) : Bool := decide (b.length ≤ a.length) || !ends_with b a

end RussianStemmer

/-! ## `src/3/tokenizer/src/tokenizer.cpp` -/

namespace Tokenizer

/-- The members `tokens` and `total_chars` of `class Tokenizer` (the frequency map
`token_freq` is left out: nothing else reads it while a text is processed). -/
structure State where
  tokens : List WStr
  total_chars : Nat
deriving DecidableEq, Repr

/-- A freshly constructed tokenizer. -/
def State.fresh : State := ⟨[], 0⟩

/-- `is_digit_or_letter`: `iswalnum` or a Russian letter ("а".."я", "ё", "А".."Я", "Ё"). -/
def is_digit_or_letter (loc : WideLocale) (c : Nat) : Bool :=
  loc.iswalnum c || decide (1072 ≤ c ∧ c ≤ 1103) || decide (c = 1105)
    || decide (1040 ≤ c ∧ c ≤ 1071) || decide (c = 1025)

/-- `is_word_char(c, prev_c, next_c)`. -/
def is_word_char (loc : WideLocale) (c prev_c next_c : Nat) : Bool :=
  if is_digit_or_letter loc c then true
  else if c = 45 ∧ prev_c ≠ 0 ∧ next_c ≠ 0 ∧ is_digit_or_letter loc prev_c = true
      ∧ is_digit_or_letter loc next_c = true then true
  else if c = 39 ∧ prev_c ≠ 0 ∧ next_c ≠ 0 ∧ is_digit_or_letter loc prev_c = true
      ∧ is_digit_or_letter loc next_c = true then true
  else if c = 38 ∧ prev_c ≠ 0 ∧ next_c ≠ 0 ∧ is_digit_or_letter loc prev_c = true
      ∧ is_digit_or_letter loc next_c = true then true
  else if c = 46 ∧ prev_c ≠ 0 ∧ next_c ≠ 0 ∧ loc.iswdigit prev_c = true
      ∧ loc.iswdigit next_c = true then true
  else if c = 43 ∧ prev_c = 67 ∧ next_c = 43 then true
  else false

/-- Local variables of the loop of `process_text` together with the two members. -/
structure Scan where
  st : State
  current_token : WStr
  in_token : Bool
deriving DecidableEq, Repr

/-- The statements that store `current_token` as a token. -/
def push_token (s : Scan) : State :=
  ⟨s.st.tokens ++ [s.current_token], s.st.total_chars + s.current_token.length⟩

/-- The loop `for (size_t i = 0; i < len; i++)` of `process_text` from index `i` on:
`prev_c` is `wtext[i-1]` (0 when `i = 0`) and the list holds `wtext[i], wtext[i+1], ...`;
`next_c` is the character after `wtext[i]`, or 0 at the end. -/
def scan_loop (loc : WideLocale) : Nat → WStr → Scan → Scan
  | _, [], s => s
  | prev_c, c :: rest, s =>
    let next_c := rest.headD 0
    let s1 : Scan :=
      if is_word_char loc c prev_c next_c then
        { s with current_token := s.current_token ++ [loc.towlower c], in_token := true }
      else if s.in_token then
        if s.current_token ≠ [] then ⟨push_token s, [], false⟩
        else { s with in_token := false }
      else s
    scan_loop loc c rest s1

/-- `process_text`, given the wide string `wtext` that `converter.from_bytes(text)`
returns (for an ASCII text, the same characters). -/
def process_text (loc : WideLocale) (t : State) (wtext : WStr) : State :=
  let s := scan_loop loc 0 wtext ⟨t, [], false⟩
  if s.current_token ≠ [] then push_token s else s.st

end Tokenizer

namespace BoolSearch

/-- The expression is made only of ASCII letters and digits, spaces, "&&", "||", "!" and
parentheses: every "&" and every "|" stands in a pair. -/
def tokens_ok : Str → Bool
  | [] => true
  | [c] => isalnum c || decide (c = 32) || decide (c = 33) || decide (c = 40) || decide (c = 41)
  | c :: c2 :: rest =>
    if c = 38 ∨ c = 124 then decide (c2 = c) && tokens_ok rest
    else (isalnum c || decide (c = 32) || decide (c = 33) || decide (c = 40) || decide (c = 41))
      && tokens_ok (c2 :: rest)

end BoolSearch

namespace BooleanIndexBuilder

/-- State of the builder when the document loop of `build_index` has ended, before
`prepare_term_dictionary` runs. -/
def processed (files : List CorpusFile) : Builder :=
  process_all (scan_directory Builder.fresh files).2 (files.map (fun f => f.content)) 0

/-- The loop of `print_statistics` that fills `top_terms` from the given terms: each term
with `info.doc_ids.size()`.  `none` when `term_index.at` throws. -/
def collect_top (term_index : UMap TermInfo) : List Str → Option (List (Str × Nat))
  | [] => some []
  | term :: rest =>
    match mapFind term_index term with
    | none => none
    | some info =>
      match collect_top term_index rest with
      | none => none
      | some l => some ((term, info.doc_ids.length) :: l)

/-- The vector `top_terms` that `print_statistics` prints under "Топ-10 самых частых
термов": the first `min(10, sorted_terms.size())` entries of `sorted_terms`, sorted by
descending document count (`std::sort`, here with equal counts kept in their order). -/
def top_terms (b : Builder) : Option (List (Str × Nat)) :=
  let count := min 10 b.sorted_terms.length
  match collect_top b.term_index (b.sorted_terms.take count) with
  | none => none
  | some l => some (l.insertionSort (fun x y => x.2 ≥ y.2))

/-- A corpus of two documents with eleven terms: "zz" is in both documents, the ten
terms "aa" .. "aj" are in the first one only. -/
def freq_corpus : List CorpusFile :=
  [⟨ascii "f0.txt", ascii "f0", 32, some (ascii "aa ab ac ad ae af ag ah ai aj zz")⟩,
   ⟨ascii "f1.txt", ascii "f1", 2, some (ascii "zz")⟩]

end BooleanIndexBuilder

namespace BooleanIndexBuilder

/-- Sum over all terms of the index of `total_occurrences`. -/
def sum_total_occurrences (b : Builder) : Nat :=
  (b.term_index.map (fun p => p.2.total_occurrences)).sum

/-- Sum over all documents of `token_count`. -/
def sum_token_count (b : Builder) : Nat := (b.documents.map (fun d => d.token_count)).sum

/-- The three token counts agree, and the documents from `d` on have not been counted. -/
def counts_agree (b : Builder) (d : Nat) : Prop :=
  sum_total_occurrences b = b.stats.total_tokens ∧ sum_token_count b = b.stats.total_tokens ∧
    ∀ j doc, d ≤ j → b.documents[j]? = some doc → doc.token_count = 0

end BooleanIndexBuilder

namespace BoolSearch

end BoolSearch

/-! # Theorems -/

namespace BoolSearch

theorem apply_op_empty (g : Globals) (st : List DocSet) :
    apply_op g st Op.empty = (st, Op.empty) := by
  simp [apply_op]

theorem apply_op_and (g : Globals) (a b : DocSet) (rest : List DocSet) :
    apply_op g (b :: a :: rest) Op.and = ((a ∩ b) :: rest, Op.empty) := by
  have h : a.filter (fun x => x ∈ b) = a ∩ b := by
    ext x
    simp [Finset.mem_filter, Finset.mem_inter]
  simp only [apply_op, h]

theorem apply_op_or (g : Globals) (a b : DocSet) (rest : List DocSet) :
    apply_op g (b :: a :: rest) Op.or = ((a ∪ b) :: rest, Op.empty) := rfl

theorem apply_op_single (g : Globals) (a : DocSet) (o : BinOp) :
    apply_op g [a] o.toOp = ([a], o.toOp) := by
  cases o <;> rfl

theorem apply_op_binop (g : Globals) (a b : DocSet) (rest : List DocSet) (o : BinOp) :
    apply_op g (b :: a :: rest) o.toOp = (o.apply a b :: rest, Op.empty) := by
  cases o
  · exact apply_op_and g a b rest
  · exact apply_op_or g a b rest

theorem apply_op_not (g : Globals) (a : DocSet) (rest : List DocSet) :
    apply_op g (a :: rest) Op.not = ((g.all_docs \ a) :: rest, Op.empty) := by
  have h : g.all_docs.filter (fun x => x ∉ a) = g.all_docs \ a := by
    ext x
    simp [Finset.mem_filter, Finset.mem_sdiff]
  simp only [apply_op, h]

/-- More fuel never changes a result already obtained. -/
theorem eval_loop_mono (g : Globals) :
    ∀ (fuel : Nat) (e : Str) (st : List DocSet) (op : Op) (r : DocSet),
      eval_loop g fuel e st op = some r →
      ∀ fuel2, fuel ≤ fuel2 → eval_loop g fuel2 e st op = some r := by
  intro fuel
  induction fuel with
  | zero => intro e st op r h; simp [eval_loop] at h
  | succ n ih =>
    intro e st op r h fuel2 hle
    obtain ⟨m, rfl⟩ : ∃ m, fuel2 = m + 1 := ⟨fuel2 - 1, by omega⟩
    have hnm : n ≤ m := by omega
    cases e with
    | nil => simpa [eval_loop] using h
    | cons c cs =>
      rw [eval_loop] at h ⊢
      split_ifs at h ⊢ with h1 h2 h3 h4 h5 h6
      · exact ih _ _ _ _ h _ hnm
      · dsimp only at h ⊢
        cases hin : eval_loop g n (List.take ((scan_paren cs 1 + 2 ^ 64 - 1) % 2 ^ 64) cs) []
            Op.empty with
        | none => rw [hin] at h; simp at h
        | some res =>
          rw [hin] at h
          rw [ih _ _ _ _ hin _ hnm]
          exact ih _ _ _ _ h _ hnm
      · exact ih _ _ _ _ h _ hnm
      · exact ih _ _ _ _ h _ hnm
      · exact ih _ _ _ _ h _ hnm
      · exact ih _ _ _ _ h _ hnm
      · exact ih _ _ _ _ h _ hnm

theorem isalnum_ne {c : Byte} (h : isalnum c = true) :
    c ≠ 32 ∧ c ≠ 40 ∧ c ≠ 41 ∧ c ≠ 38 ∧ c ≠ 124 ∧ c ≠ 33 := by
  refine ⟨?_, ?_, ?_, ?_, ?_, ?_⟩ <;> (rintro rfl; exact absurd h (by decide))

theorem is_word_char_of_isalnum {c : Byte} (h : isalnum c = true) : is_word_char c = true := by
  simp [is_word_char, h]

theorem takeWhile_word (w rest : Str) (hw : ∀ c ∈ w, isalnum c = true) (hr : ends_word rest) :
    (w ++ rest).takeWhile is_word_char = w ∧ (w ++ rest).dropWhile is_word_char = rest := by
  induction w with
  | nil =>
    cases rest with
    | nil => simp
    | cons c cs =>
      have : is_word_char c = false := hr c (by simp)
      simp [List.takeWhile, List.dropWhile, this]
  | cons a w ih =>
    have ha : is_word_char a = true := is_word_char_of_isalnum (hw a (by simp))
    have := ih (fun c hc => hw c (by simp [hc]))
    simp [List.takeWhile, List.dropWhile, ha, this]

theorem eval_loop_nil (g : Globals) (fuel : Nat) (st : List DocSet) (op : Op) :
    eval_loop g (fuel + 1) [] st op = some (st.headD ∅) := by
  simp [eval_loop]

theorem eval_loop_space (g : Globals) (fuel : Nat) (cs : Str) (st : List DocSet) (op : Op) :
    eval_loop g (fuel + 1) (32 :: cs) st op = eval_loop g fuel cs st op := by
  simp [eval_loop]

theorem eval_loop_spaces (g : Globals) (fuel n : Nat) (rest : Str) (st : List DocSet) (op : Op) :
    eval_loop g (fuel + n) (spaces n ++ rest) st op = eval_loop g fuel rest st op := by
  induction n with
  | zero => simp [spaces]
  | succ n ih =>
    have : spaces (n + 1) ++ rest = 32 :: (spaces n ++ rest) := by
      simp [spaces, List.replicate_succ]
    rw [this, ← Nat.add_assoc, eval_loop_space, ih]

theorem eval_loop_binop (g : Globals) (fuel : Nat) (o : BinOp) (rest : Str) (st : List DocSet)
    (op : Op) :
    eval_loop g (fuel + 1) (o.text ++ rest) st op
      = eval_loop g fuel rest (apply_op g st o.toOp).1 (apply_op g st o.toOp).2 := by
  cases o <;> simp [BinOp.text, BinOp.toOp, eval_loop]

theorem eval_loop_word (g : Globals) (fuel : Nat) (w rest : Str) (st : List DocSet) (op : Op)
    (hw : is_word w) (hr : ends_word rest) :
    eval_loop g (fuel + 1) (w ++ rest) st op
      = eval_loop g fuel rest (apply_op g (postings g (w.map tolower) :: st) op).1
          (apply_op g (postings g (w.map tolower) :: st) op).2 := by
  obtain ⟨hne, hall⟩ := hw
  rw [List.all_eq_true] at hall
  obtain ⟨h1, h2⟩ := takeWhile_word w rest hall hr
  cases w with
  | nil => exact absurd rfl hne
  | cons c w =>
    have hc := isalnum_ne (hall c (by simp))
    obtain ⟨c1, c2, c3, c4, c5, c6⟩ := hc
    rw [List.cons_append] at h1 h2 ⊢
    rw [eval_loop]
    rw [if_neg c1, if_neg c2, if_neg (by intro h; simp at h; exact c4 h.1),
      if_neg (by intro h; simp at h; exact c5 h.1), if_neg c6]
    simp only [h1, h2, postings]
    simp

theorem ends_word_nil : ends_word [] := by
  intro c hc; simp at hc

theorem ends_word_spaces_append (n : Nat) (rest : Str) (h : ends_word rest) :
    ends_word (spaces n ++ rest) := by
  cases n with
  | zero => simpa [spaces] using h
  | succ n =>
    intro c hc
    simp [spaces, List.replicate_succ] at hc
    subst hc
    decide

theorem ends_word_binop (o : BinOp) (rest : Str) : ends_word (o.text ++ rest) := by
  intro c hc
  cases o <;> (simp [BinOp.text] at hc; subst hc; decide)

theorem ends_word_chain_tail (tail : List ChainItem) : ends_word (chain_tail tail) := by
  cases tail with
  | nil => exact ends_word_nil
  | cons it rest =>
    simp only [chain_tail, List.append_assoc]
    exact ends_word_spaces_append _ _ (ends_word_binop _ _)

theorem spaces_length (n : Nat) : (spaces n).length = n := by simp [spaces]

theorem binop_text_length (o : BinOp) : o.text.length = 2 := by cases o <;> rfl

/-- The loop on the steps of a chain, entered with the value so far on the stack. -/
theorem eval_loop_chain_tail (g : Globals) :
    ∀ (tail : List ChainItem) (acc : DocSet) (fuel : Nat),
      (∀ it ∈ tail, is_word it.word) → (chain_tail tail).length < fuel →
      eval_loop g fuel (chain_tail tail) [acc] Op.empty = some (left_fold g acc tail) := by
  intro tail
  induction tail with
  | nil =>
    intro acc fuel _ hf
    obtain ⟨m, rfl⟩ : ∃ m, fuel = m + 1 := ⟨fuel - 1, by omega⟩
    simp [chain_tail, left_fold, eval_loop]
  | cons it rest ih =>
    intro acc fuel hw hf
    have hwit : is_word it.word := hw it (by simp)
    have hlen : 0 < it.word.length := List.length_pos.mpr hwit.1
    simp only [chain_tail, List.length_append, spaces_length, binop_text_length] at hf
    obtain ⟨m, rfl⟩ : ∃ m, fuel = m + 1 + it.after + 1 + it.before :=
      ⟨fuel - (it.before + it.after + 2), by omega⟩
    simp only [chain_tail, List.append_assoc, left_fold]
    rw [eval_loop_spaces, eval_loop_binop, apply_op_single, eval_loop_spaces,
      eval_loop_word g m it.word (chain_tail rest) _ _ hwit (ends_word_chain_tail rest),
      apply_op_binop]
    exact ih _ m (fun x hx => hw x (by simp [hx])) (by omega)

/-- Evaluation of a chain of words and binary operators. -/
theorem eval_chain_fold (g : Globals) (w1 : Str) (tail : List ChainItem) (fuel : Nat)
    (h1 : is_word w1) (ht : ∀ it ∈ tail, is_word it.word)
    (hf : (chain w1 tail).length < fuel) :
    eval g fuel (chain w1 tail) = some (left_fold g (postings g (w1.map tolower)) tail) := by
  have hlen : 0 < w1.length := List.length_pos.mpr h1.1
  simp only [chain, List.length_append] at hf
  obtain ⟨m, rfl⟩ : ∃ m, fuel = m + 1 := ⟨fuel - 1, by omega⟩
  rw [eval, chain, eval_loop_word g m w1 (chain_tail tail) _ _ h1 (ends_word_chain_tail tail),
    apply_op_empty]
  exact eval_loop_chain_tail g tail _ m ht (by omega)

theorem scan_paren_balanced :
    ∀ (q : Str) (d base : Nat) (rest : Str), balanced d q = true → 0 < base →
      scan_paren (q ++ rest) (base + d) = q.length + scan_paren rest base := by
  intro q
  induction q with
  | nil =>
    intro d base rest h _
    simp [balanced] at h
    simp [h]
  | cons c cs ih =>
    intro d base rest h hb
    rw [balanced] at h
    rw [List.cons_append, scan_paren, if_neg (by omega)]
    split_ifs at h ⊢ with h1 h2
    · rw [Nat.add_assoc, ih (d + 1) base rest h hb, List.length_cons]; omega
    · simp at h
      have : base + d - 1 = base + (d - 1) := by omega
      rw [this, ih (d - 1) base rest h.2 hb, List.length_cons]; omega
    · rw [ih d base rest h hb, List.length_cons]; omega

theorem balanced_append :
    ∀ (q : Str) (d e : Nat) (r : Str), balanced d q = true →
      balanced (d + e) (q ++ r) = balanced e r := by
  intro q
  induction q with
  | nil =>
    intro d e r h
    simp [balanced] at h
    simp [h]
  | cons c cs ih =>
    intro d e r h
    rw [balanced] at h
    rw [List.cons_append, balanced]
    split_ifs at h ⊢ with h1 h2
    · have := ih (d + 1) e r h
      rw [← this]; congr 1; omega
    · simp at h
      have := ih (d - 1) e r h.2
      rw [← this]
      have h3 : d + e - 1 = d - 1 + e := by omega
      have h4 : 0 < d + e := by omega
      simp [h3, h4]
    · exact ih d e r h

/-- A parenthesised balanced sub-expression: the recursive call gets exactly the text between
the parentheses and the loop goes on after the closing one. -/
theorem eval_loop_paren (g : Globals) (fuel : Nat) (q rest : Str) (st : List DocSet) (op : Op)
    (hb : balanced 0 q = true) (hlen : q.length + 1 < 2 ^ 64) :
    eval_loop g (fuel + 1) (40 :: (q ++ 41 :: rest)) st op
      = match eval_loop g fuel q [] Op.empty with
        | none => none
        | some res =>
          eval_loop g fuel rest (apply_op g (res :: st) op).1 (apply_op g (res :: st) op).2 := by
  have hk : scan_paren (q ++ 41 :: rest) 1 = q.length + 1 := by
    have := scan_paren_balanced q 0 1 (41 :: rest) hb (by omega)
    rw [Nat.add_zero] at this
    rw [this]
    cases rest <;> simp [scan_paren]
  have hm : (q.length + 1 + 2 ^ 64 - 1) % 2 ^ 64 = q.length := by omega
  rw [eval_loop]
  simp only [hk, hm]
  simp

theorem eval_loop_bang_skip (g : Globals) (fuel : Nat) (c : Byte) (cs : Str) (st : List DocSet)
    (op : Op) (hc : isalnum c = true ∨ c = 40) :
    eval_loop g (fuel + 1) (33 :: c :: cs) st op = eval_loop g fuel (c :: cs) st op := by
  rw [eval_loop]
  simp [hc]

theorem eval_loop_single (g : Globals) (fuel : Nat) (q : Str) (res : DocSet)
    (h : eval_loop g fuel q [] Op.empty = some res) :
    eval_loop g fuel [] [res] Op.empty = some res := by
  cases fuel with
  | zero => simp [eval_loop] at h
  | succ n => simp [eval_loop]

/-- C10. Double negation written "!(!(Q))": for every query Q with balanced parentheses
(shorter than `2^64` bytes, as every `std::string` is), running `eval` on "!(!(Q))" with four
more units of fuel gives exactly what `eval` gives on Q: the same set when Q returns one, and
no result when Q has none. -/
theorem eval_not_not (g : Globals) (q : Str) (fuel : Nat) (hb : balanced 0 q = true)
    (hlen : q.length + 6 < 2 ^ 64) :
    eval g (fuel + 4) (not_not q) = eval g fuel q := by
  have hb1 : balanced 0 (33 :: 40 :: (q ++ [41])) = true := by
    have := balanced_append q 0 1 [41] hb
    simp only [balanced] at this ⊢
    simpa using this
  have e1 : not_not q = 33 :: 40 :: ((33 :: 40 :: (q ++ [41])) ++ 41 :: []) := by
    simp [not_not]
  have inner : eval_loop g (fuel + 2) (33 :: 40 :: (q ++ [41])) [] Op.empty = eval g fuel q := by
    rw [eval_loop_bang_skip g _ 40 _ _ _ (Or.inr rfl),
      eval_loop_paren g fuel q [] [] Op.empty hb (by omega), eval]
    cases h : eval_loop g fuel q [] Op.empty with
    | none => rfl
    | some res =>
      simp only [apply_op_empty]
      exact eval_loop_single g fuel q res h
  rw [eval, e1, eval_loop_bang_skip g _ 40 _ _ _ (Or.inr rfl),
    eval_loop_paren g (fuel + 2) _ [] [] Op.empty hb1 (by simp; omega), inner]
  cases h : eval g fuel q with
  | none => rfl
  | some res =>
    simp only [apply_op_empty]
    simp [eval_loop]

/-- Witness for `eval_not_not`: with the index `a:{1,2}`, `b:{2,3}`, `c:{3,4}`, the query
"!(!(a || b))" returns `{1,2,3}`, which is what "a || b" returns. -/
theorem eval_not_not_witness :
    balanced 0 (ascii "a || b") = true ∧
    eval abc 14 (ascii "!(!(a || b))") = eval abc 10 (ascii "a || b") ∧
    eval abc 10 (ascii "a || b") = some {1, 2, 3} :=
  ⟨by decide, eval_not_not abc (ascii "a || b") 10 (by decide) (by decide), by decide⟩

/-- C4. On the index `cat:{0,2}`, ... over the universe `{0,1,2}` the query "!cat" returns
`{0,2}`, the set of "cat" itself, and not the complement `{1}`: a `!` written directly in front
of a term is skipped by `eval`. -/
theorem eval_not_cat :
    eval pets 3 (ascii "cat") = some {0, 2} ∧
    eval pets 3 (ascii "!cat") = some {0, 2} ∧
    pets.all_docs \ {0, 2} = ({1} : DocSet) := by
  decide

/-- C5. A chain `t1 o1 t2 o2 ... tn` of non-empty ASCII alphanumeric words joined by "&&" and
"||", with any number of spaces around each operator, evaluates (given fuel beyond its length)
to the strict left fold of the posting sets of the lower-cased words: no precedence between
"&&" and "||". -/
theorem eval_chain_left_fold (g : Globals) (w1 : Str) (tail : List ChainItem) (fuel : Nat)
    (h1 : is_word w1) (ht : ∀ it ∈ tail, is_word it.word)
    (hf : (chain w1 tail).length < fuel) :
    eval g fuel (chain w1 tail) = some (left_fold g (postings g (w1.map tolower)) tail) :=
  eval_chain_fold g w1 tail fuel h1 ht hf

/-- Witness for `eval_chain_left_fold`: with `a:{1,2}`, `b:{2,3}`, `c:{3,4}` the query
"a || b && c" returns `{3}`, that is `(a ∪ b) ∩ c`. -/
theorem eval_chain_left_fold_witness :
    chain (ascii "a") [⟨1, BinOp.or, 1, ascii "b"⟩, ⟨1, BinOp.and, 1, ascii "c"⟩]
      = ascii "a || b && c" ∧
    eval abc 12 (ascii "a || b && c") = some {3} :=
  ⟨by decide,
   (eval_chain_left_fold abc (ascii "a")
      [⟨1, BinOp.or, 1, ascii "b"⟩, ⟨1, BinOp.and, 1, ascii "c"⟩] 12
      (by unfold is_word; decide) (by unfold is_word; decide) (by decide)).trans (by decide)⟩

/-- C6. For terms `a` and `b` (non-empty lower-case ASCII alphanumeric words), "a && b"
evaluates to the intersection of the sets stored under `a` and `b` and "a || b" to their
union (a term missing from `idx` counting as the empty set). -/
theorem eval_and_or_pair (g : Globals) (a b : Str) (fuel : Nat) (ha : is_term a) (hb : is_term b)
    (hf : a.length + b.length + 4 < fuel) :
    eval g fuel (a ++ ascii " && " ++ b) = some (postings g a ∩ postings g b) ∧
    eval g fuel (a ++ ascii " || " ++ b) = some (postings g a ∪ postings g b) := by
  have e1 : a ++ ascii " && " ++ b = chain a [⟨1, BinOp.and, 1, b⟩] := by
    have : ascii " && " = [32, 38, 38, 32] := by decide
    simp [chain, chain_tail, spaces, BinOp.text, this]
  have e2 : a ++ ascii " || " ++ b = chain a [⟨1, BinOp.or, 1, b⟩] := by
    have : ascii " || " = [32, 124, 124, 32] := by decide
    simp [chain, chain_tail, spaces, BinOp.text, this]
  have l1 : (chain a [⟨1, BinOp.and, 1, b⟩]).length < fuel := by
    simp [chain, chain_tail, spaces, BinOp.text]; omega
  have l2 : (chain a [⟨1, BinOp.or, 1, b⟩]).length < fuel := by
    simp [chain, chain_tail, spaces, BinOp.text]; omega
  constructor
  · rw [e1, eval_chain_fold g a _ fuel ha.1 (by simpa using hb.1) l1]
    simp [left_fold, BinOp.apply, ha.2, hb.2]
  · rw [e2, eval_chain_fold g a _ fuel ha.1 (by simpa using hb.1) l2]
    simp [left_fold, BinOp.apply, ha.2, hb.2]

/-- Witness for `eval_and_or_pair`: with `cat:{0,2}`, `dog:{0,1}`, `fish:{2}`,
"cat && dog" returns `{0}` and "cat || fish" returns `{0,2}`. -/
theorem eval_and_or_pair_witness :
    eval pets 11 (ascii "cat && dog") = some {0} ∧
    eval pets 12 (ascii "cat || fish") = some {0, 2} :=
  ⟨(eval_and_or_pair pets (ascii "cat") (ascii "dog") 11
      (by unfold is_term is_word; decide) (by unfold is_term is_word; decide)
      (by decide)).1.trans (by decide),
   (eval_and_or_pair pets (ascii "cat") (ascii "fish") 12
      (by unfold is_term is_word; decide) (by unfold is_term is_word; decide)
      (by decide)).2.trans (by decide)⟩

end BoolSearch

/-! ## The builder, the writer and the reader -/

theorem ofNat_val_mod (n : Nat) : ((Fin.ofNat (n % 256) : Fin 256)).val = n % 256 := by
  simp [Fin.ofNat]

theorem u32le_length (n : Nat) : (u32le n).length = 4 := rfl

theorem u16le_length (n : Nat) : (u16le n).length = 2 := rfl

theorem le32_u32le (n : Nat) (rest : List Byte) : le32 (u32le n ++ rest) = n % 2 ^ 32 := by
  simp only [le32, u32le, List.cons_append, List.getD_cons_zero, List.getD_cons_succ,
    ofNat_val_mod]
  omega

theorem le16_u16le (n : Nat) (rest : List Byte) : le16 (u16le n ++ rest) = n % 2 ^ 16 := by
  simp only [le16, u16le, List.cons_append, List.getD_cons_zero, List.getD_cons_succ,
    ofNat_val_mod]
  omega

namespace BooleanIndexReader

theorem read_u32_u32le (n : Nat) (rest : List Byte) :
    read_u32 (u32le n ++ rest) = some (n % 2 ^ 32, rest) := by
  simp [read_u32, le32_u32le, u32le_length]

theorem read_u16_u16le (n : Nat) (rest : List Byte) :
    read_u16 (u16le n ++ rest) = some (n % 2 ^ 16, rest) := by
  simp [read_u16, le16_u16le, u16le_length]

theorem read_str_append (s rest : List Byte) :
    read_str s.length (s ++ rest) = some (s, rest) := by
  simp [read_str]

end BooleanIndexReader

theorem mapFind_upsert {V : Type} (m : UMap V) (k : Str) (f : Option V → V) (key : Str) :
    mapFind (mapUpsert m k f) key
      = if k = key then some (f (mapFind m k)) else mapFind m key := by
  induction m with
  | nil => simp [mapUpsert, mapFind]
  | cons p m ih =>
    obtain ⟨k1, v1⟩ := p
    by_cases h1 : k1 = k
    · subst h1
      by_cases h2 : k1 = key <;> simp [mapUpsert, mapFind, h2]
    · by_cases h2 : k1 = key
      · subst h2
        have h3 : ¬ k = k1 := fun h => h1 h.symm
        simp [mapUpsert, mapFind, h1, h3]
      · simp [mapUpsert, mapFind, h1, h2, ih]

theorem mapFind_eq_none {V : Type} (m : UMap V) (key : Str) :
    mapFind m key = none ↔ key ∉ mapKeys m := by
  induction m with
  | nil => simp [mapFind, mapKeys]
  | cons p m ih =>
    obtain ⟨k1, v1⟩ := p
    by_cases h : k1 = key
    · simp [mapFind, mapKeys, h]
    · have h2 : ¬ key = k1 := fun e => h e.symm
      simp only [mapKeys] at ih
      simp [mapFind, mapKeys, h, h2, ih]

theorem mapKeys_upsert {V : Type} (m : UMap V) (k : Str) (f : Option V → V) :
    mapKeys (mapUpsert m k f) = if k ∈ mapKeys m then mapKeys m else mapKeys m ++ [k] := by
  induction m with
  | nil => simp [mapUpsert, mapKeys]
  | cons p m ih =>
    obtain ⟨k1, v1⟩ := p
    simp only [mapKeys] at ih
    by_cases h1 : k1 = k
    · simp [mapUpsert, mapKeys, h1]
    · have h2 : ¬ k = k1 := fun e => h1 e.symm
      by_cases h3 : k ∈ List.map Prod.fst m <;> simp_all [mapUpsert, mapKeys]

theorem mapKeys_upsert_nodup {V : Type} (m : UMap V) (k : Str) (f : Option V → V)
    (h : (mapKeys m).Nodup) : (mapKeys (mapUpsert m k f)).Nodup := by
  rw [mapKeys_upsert]
  split
  · exact h
  · rename_i hk
    rw [List.nodup_append]
    refine ⟨h, List.nodup_singleton k, ?_⟩
    intro a ha hb
    simp at hb
    subst hb
    exact hk ha

theorem mapFind_map {V W : Type} (m : UMap V) (f : V → W) (key : Str) :
    mapFind (m.map (fun p => (p.1, f p.2))) key = (mapFind m key).map f := by
  induction m with
  | nil => simp [mapFind]
  | cons p m ih =>
    obtain ⟨k1, v1⟩ := p
    by_cases h : k1 = key <;> simp [mapFind, h, ih]

theorem mapKeys_map {V W : Type} (m : UMap V) (f : V → W) :
    mapKeys (m.map (fun p => (p.1, f p.2))) = mapKeys m := by
  simp [mapKeys, List.map_map, Function.comp_def]

namespace BooleanIndexBuilder

theorem scan_content_cons (s : ScanState) (c : Byte) (cs : Str) :
    scan_content s (c :: cs) = scan_content (scan_step s c) cs := rfl

theorem count_tokens_cons (m : UMap Nat) (t : Str) (toks : List Str) :
    count_tokens m (t :: toks)
      = count_tokens (mapUpsert m t (fun o => (o.getD 0 + 1) % 2 ^ 32)) toks := rfl

/-- The tokenisation loop counts exactly the tokens of `tokens_from`. -/
theorem scan_content_spec :
    ∀ (content : Str) (s : ScanState), (s.in_token = true ↔ s.current_token ≠ []) →
      (scan_content s content).term_counts
          = count_tokens s.term_counts (tokens_from s.current_token content) ∧
      (scan_content s content).total_tokens
          = s.total_tokens + (tokens_from s.current_token content).length ∧
      (scan_content s content).token_count % 2 ^ 32
          = (s.token_count + (tokens_from s.current_token content).length) % 2 ^ 32 := by
  intro content
  induction content with
  | nil =>
    intro s hs
    by_cases h1 : s.current_token.length > 1
    · have h2 : s.in_token = true := hs.mpr (by intro h; simp [h] at h1)
      simp [scan_content, tokens_from, h1, h2, count_token, count_tokens]
    · have h3 : ¬ (s.in_token = true ∧ s.current_token.length > 1) := fun h => h1 h.2
      simp only [scan_content, List.foldl_nil, tokens_from, h1, if_false, h3]
      simp [count_tokens]
  | cons c cs ih =>
    intro s hs
    rw [scan_content_cons, tokens_from]
    cases hv : is_valid_token_char c with
    | true =>
      have e : scan_step s c
          = { s with current_token := s.current_token ++ [tolower c], in_token := true } := by
        simp [scan_step, hv]
      have := ih (scan_step s c) (by simp [e])
      rw [e] at this ⊢
      simpa using this
    | false =>
      by_cases h1 : s.current_token.length > 1
      · have h2 : s.in_token = true := hs.mpr (by intro h; simp [h] at h1)
        have e : scan_step s c
            = { current_token := [], in_token := false,
                term_counts := mapUpsert s.term_counts s.current_token
                  (fun o => (o.getD 0 + 1) % 2 ^ 32),
                total_tokens := s.total_tokens + 1,
                token_count := (s.token_count + 1) % 2 ^ 32 } := by
          simp [scan_step, hv, h2, h1, count_token]
        have := ih (scan_step s c) (by simp [e])
        rw [e] at this ⊢
        dsimp only at this
        simp only [Bool.false_eq_true, if_false, h1, if_true, count_tokens_cons,
          List.length_cons]
        refine ⟨this.1, ?_, ?_⟩
        · rw [this.2.1]; omega
        · rw [this.2.2]; omega
      · by_cases h2 : s.in_token = true
        · have e : scan_step s c = { s with current_token := [], in_token := false } := by
            simp [scan_step, hv, h2, h1]
          have := ih (scan_step s c) (by simp [e])
          rw [e] at this ⊢
          simpa [h1] using this
        · have h4 : s.current_token = [] := by
            by_contra h; exact h2 (hs.mpr h)
          have e : scan_step s c = s := by
            simp [scan_step, hv, h2]
          have := ih s hs
          rw [e]
          simpa [h1, h4] using this

theorem mapFind_count_tokens :
    ∀ (toks : List Str) (m : UMap Nat) (t : Str),
      mapFind (count_tokens m toks) t
        = if toks.count t = 0 then mapFind m t
          else some (((mapFind m t).getD 0 + toks.count t) % 2 ^ 32) := by
  intro toks
  induction toks with
  | nil => intro m t; simp [count_tokens]
  | cons x xs ih =>
    intro m t
    rw [count_tokens_cons, ih, mapFind_upsert]
    by_cases hx : x = t
    · subst hx
      by_cases hc : List.count x xs = 0
      · simp [hc]
      · simp [hc]; omega
    · have hx2 : (x == t) = false := by simpa using hx
      simp [hx, List.count_cons, hx2]

theorem count_tokens_nodup :
    ∀ (toks : List Str) (m : UMap Nat), (mapKeys m).Nodup →
      (mapKeys (count_tokens m toks)).Nodup := by
  intro toks
  induction toks with
  | nil => intro m h; simpa [count_tokens] using h
  | cons x xs ih =>
    intro m h
    rw [count_tokens_cons]
    exact ih _ (mapKeys_upsert_nodup m x _ h)

end BooleanIndexBuilder

namespace BooleanIndexBuilder

/-- The entry of a term after one document has added `ids` and `tot` to it. -/
theorem foldl_add_posting (doc_id : Nat) :
    ∀ (counts : UMap Nat) (ti : UMap TermInfo) (t : Str), (mapKeys counts).Nodup →
      mapFind (counts.foldl (add_posting doc_id) ti) t
        = match mapFind counts t with
          | none => mapFind ti t
          | some c =>
            some ⟨((mapFind ti t).getD ⟨[], 0⟩).doc_ids ++ [doc_id],
                  ((mapFind ti t).getD ⟨[], 0⟩).total_occurrences + c⟩ := by
  intro counts
  induction counts with
  | nil => intro ti t _; simp [mapFind]
  | cons p rest ih =>
    intro ti t hnd
    obtain ⟨k, c⟩ := p
    have hk : k ∉ mapKeys rest := by
      simp only [mapKeys, List.map_cons, List.nodup_cons] at hnd
      exact hnd.1
    have hrest : (mapKeys rest).Nodup := by
      simp only [mapKeys, List.map_cons, List.nodup_cons] at hnd
      exact hnd.2
    rw [List.foldl_cons, ih _ t hrest]
    by_cases h : k = t
    · subst h
      have hn : mapFind rest k = none := (mapFind_eq_none rest k).mpr hk
      simp [hn, mapFind, add_posting, mapFind_upsert]
    · simp [mapFind, h, add_posting, mapFind_upsert]

theorem process_document_length (b : Builder) (doc_id : Nat) (c : Option Str) :
    (process_document b doc_id c).2.documents.length = b.documents.length := by
  unfold process_document
  split
  · rfl
  · split
    · rfl
    · simp

theorem process_document_find (b : Builder) (doc_id : Nat) (c : Option Str) (t : Str)
    (h : doc_id < b.documents.length) :
    mapFind (process_document b doc_id c).2.term_index t
      = if t ∈ doc_tokens c then
          some ⟨((mapFind b.term_index t).getD ⟨[], 0⟩).doc_ids ++ [doc_id],
                ((mapFind b.term_index t).getD ⟨[], 0⟩).total_occurrences
                  + (doc_tokens c).count t % 2 ^ 32⟩
        else mapFind b.term_index t := by
  unfold process_document
  have hg : ∃ doc, b.documents.get? doc_id = some doc := ⟨_, List.get?_eq_get h⟩
  obtain ⟨doc, hdoc⟩ := hg
  rw [hdoc]
  cases c with
  | none => simp [doc_tokens]
  | some bytes =>
    have hs := (scan_content_spec bytes ⟨[], false, [], b.stats.total_tokens, doc.token_count⟩
      (by simp)).1
    dsimp only at hs ⊢
    rw [hs, foldl_add_posting doc_id _ _ t (count_tokens_nodup _ _ (by simp [mapKeys])),
      mapFind_count_tokens]
    simp only [doc_tokens, tokenize, mapFind, Option.getD_none, Nat.zero_add]
    by_cases hm : t ∈ tokens_from [] bytes
    · have : List.count t (tokens_from [] bytes) ≠ 0 := by
        rw [Ne, List.count_eq_zero]; exact fun h => h hm
      simp [hm, this]
    · have : List.count t (tokens_from [] bytes) = 0 := List.count_eq_zero.mpr hm
      simp [hm, this]

theorem spec_total_eq_zero (t : Str) :
    ∀ (contents : List (Option Str)) (d : Nat), spec_ids t contents d = [] →
      spec_total t contents = 0 := by
  intro contents
  induction contents with
  | nil => intro d _; rfl
  | cons c cs ih =>
    intro d h
    rw [spec_ids] at h
    split at h
    · simp at h
    · rename_i hm
      rw [spec_total, ih _ h, List.count_eq_zero.mpr hm]
      rfl

theorem process_all_length :
    ∀ (contents : List (Option Str)) (b : Builder) (d : Nat),
      (process_all b contents d).documents.length = b.documents.length := by
  intro contents
  induction contents with
  | nil => intro b d; rfl
  | cons c cs ih => intro b d; rw [process_all, ih, process_document_length]

/-- The postings after the loop of `build_index`. -/
theorem process_all_find (t : Str) :
    ∀ (contents : List (Option Str)) (b : Builder) (d : Nat),
      d + contents.length ≤ b.documents.length →
      mapFind (process_all b contents d).term_index t
        = if spec_ids t contents d = [] then mapFind b.term_index t
          else some ⟨((mapFind b.term_index t).getD ⟨[], 0⟩).doc_ids ++ spec_ids t contents d,
                     ((mapFind b.term_index t).getD ⟨[], 0⟩).total_occurrences
                       + spec_total t contents⟩ := by
  intro contents
  induction contents with
  | nil => intro b d _; simp [process_all, spec_ids]
  | cons c cs ih =>
    intro b d hd
    simp only [List.length_cons] at hd
    rw [process_all, ih _ _ (by rw [process_document_length]; omega),
      process_document_find b d c t (by omega), spec_ids, spec_total]
    by_cases hm : t ∈ doc_tokens c
    · simp only [hm, if_true, Option.getD_some]
      by_cases he : spec_ids t cs (d + 1) = []
      · simp [he, spec_total_eq_zero t cs (d + 1) he]
      · simp [he, Nat.add_assoc]
    · simp [hm, List.count_eq_zero.mpr hm]

end BooleanIndexBuilder

namespace BooleanIndexBuilder

theorem mem_unique : ∀ (l : List Nat) (x : Nat), x ∈ unique l ↔ x ∈ l
  | [], x => by simp [unique]
  | [a], x => by simp [unique]
  | a :: b :: rest, x => by
    have ih := mem_unique (b :: rest) x
    by_cases h : a = b
    · subst h
      rw [unique, if_pos rfl, ih]
      simp
    · rw [unique, if_neg h, List.mem_cons, ih]
      simp

theorem unique_length_le : ∀ (l : List Nat), (unique l).length ≤ l.length
  | [] => by simp [unique]
  | [a] => by simp [unique]
  | a :: b :: rest => by
    have ih := unique_length_le (b :: rest)
    by_cases h : a = b
    · rw [unique, if_pos h]
      simp only [List.length_cons] at ih ⊢
      omega
    · rw [unique, if_neg h]
      simp only [List.length_cons] at ih ⊢
      omega

/-- `std::unique` on a sorted vector leaves a strictly ascending one. -/
theorem unique_sorted : ∀ (l : List Nat), l.Pairwise (fun a b => a ≤ b) →
    (unique l).Pairwise (fun a b => a < b)
  | [], _ => by simp [unique]
  | [a], _ => by simp [unique]
  | a :: b :: rest, hs => by
    have ih := unique_sorted (b :: rest) (List.Pairwise.of_cons hs)
    by_cases h : a = b
    · rw [unique, if_pos h]
      exact ih
    · rw [unique, if_neg h, List.pairwise_cons]
      refine ⟨?_, ih⟩
      intro x hx
      rw [mem_unique] at hx
      rw [List.pairwise_cons] at hs
      have hab : a ≤ b := hs.1 b (by simp)
      have hab2 : a < b := lt_of_le_of_ne hab h
      rcases List.mem_cons.mp hx with rfl | hx2
      · exact hab2
      · have := hs.2
        rw [List.pairwise_cons] at this
        exact lt_of_lt_of_le hab2 (this.1 x hx2)

theorem sort_ids_perm (l : List Nat) : (sort_ids l).Perm l := List.perm_insertionSort _ l

theorem sort_ids_sorted (l : List Nat) : (sort_ids l).Pairwise (fun a b => a ≤ b) :=
  List.sorted_insertionSort (fun a b : Nat => a ≤ b) l

theorem mem_prepared_ids (l : List Nat) (x : Nat) : x ∈ unique (sort_ids l) ↔ x ∈ l := by
  rw [mem_unique, (sort_ids_perm l).mem_iff]

theorem prepared_ids_length_le (l : List Nat) : (unique (sort_ids l)).length ≤ l.length := by
  have := unique_length_le (sort_ids l)
  rwa [(sort_ids_perm l).length_eq] at this

theorem mem_sort_terms (l : List Str) (t : Str) : t ∈ sort_terms l ↔ t ∈ l :=
  (List.perm_insertionSort _ l).mem_iff

theorem mem_spec_ids (t : Str) :
    ∀ (contents : List (Option Str)) (d x : Nat),
      x ∈ spec_ids t contents d
        ↔ ∃ i c, x = d + i ∧ contents[i]? = some c ∧ t ∈ doc_tokens c := by
  intro contents
  induction contents with
  | nil => intro d x; simp [spec_ids]
  | cons c cs ih =>
    intro d x
    have key : (∃ i c1, x = d + i ∧ (c :: cs)[i]? = some c1 ∧ t ∈ doc_tokens c1)
        ↔ (x = d ∧ t ∈ doc_tokens c)
          ∨ ∃ i c1, x = d + 1 + i ∧ cs[i]? = some c1 ∧ t ∈ doc_tokens c1 := by
      constructor
      · rintro ⟨i, c1, hx, hg, hm⟩
        cases i with
        | zero =>
          simp at hg; subst hg
          exact Or.inl ⟨by omega, hm⟩
        | succ j =>
          simp at hg
          exact Or.inr ⟨j, c1, by omega, hg, hm⟩
      · rintro (⟨hx, hm⟩ | ⟨i, c1, hx, hg, hm⟩)
        · exact ⟨0, c, by omega, by simp, hm⟩
        · exact ⟨i + 1, c1, by omega, by simpa using hg, hm⟩
    rw [key, spec_ids]
    split
    · rename_i hm
      rw [List.mem_cons, ih]
      simp [hm]
    · rename_i hm
      rw [ih]
      simp [hm]

theorem spec_ids_lt (t : Str) (contents : List (Option Str)) (d x : Nat)
    (h : x ∈ spec_ids t contents d) : x < d + contents.length := by
  obtain ⟨i, c, hx, hg, _⟩ := (mem_spec_ids t contents d x).mp h
  have : i < contents.length := by
    by_contra hn
    rw [List.getElem?_eq_none (by omega)] at hg
    simp at hg
  omega

theorem spec_ids_length_le (t : Str) :
    ∀ (contents : List (Option Str)) (d : Nat),
      (∀ c ∈ contents, (doc_tokens c).length < 2 ^ 32) →
      (spec_ids t contents d).length ≤ spec_total t contents := by
  intro contents
  induction contents with
  | nil => intro d _; simp [spec_ids]
  | cons c cs ih =>
    intro d h
    have h1 := ih (d + 1) (fun c1 hc1 => h c1 (by simp [hc1]))
    rw [spec_ids, spec_total]
    split
    · rename_i hm
      have hpos : 0 < (doc_tokens c).count t := List.count_pos_iff.mpr hm
      have hle : (doc_tokens c).count t ≤ (doc_tokens c).length := List.count_le_length t _
      have hlt := h c (by simp)
      rw [Nat.mod_eq_of_lt (by omega)]
      simp only [List.length_cons]
      omega
    · omega

theorem spec_total_eq_sum (t : Str) :
    ∀ (contents : List (Option Str)),
      (∀ c ∈ contents, (doc_tokens c).length < 2 ^ 32) →
      spec_total t contents = (contents.map (fun c => (doc_tokens c).count t)).sum := by
  intro contents
  induction contents with
  | nil => intro _; rfl
  | cons c cs ih =>
    intro h
    have hle : (doc_tokens c).count t ≤ (doc_tokens c).length := List.count_le_length t _
    have hlt := h c (by simp)
    rw [spec_total, ih (fun c1 hc1 => h c1 (by simp [hc1])), Nat.mod_eq_of_lt (by omega)]
    simp

theorem prepare_find (b : Builder) (t : Str) :
    mapFind (prepare_term_dictionary b).term_index t
      = (mapFind b.term_index t).map
          (fun i : TermInfo =>
            (⟨unique (sort_ids i.doc_ids), i.total_occurrences⟩ : TermInfo)) :=
  mapFind_map b.term_index
    (fun i : TermInfo => (⟨unique (sort_ids i.doc_ids), i.total_occurrences⟩ : TermInfo)) t

theorem prepare_keys (b : Builder) :
    mapKeys (prepare_term_dictionary b).term_index = mapKeys b.term_index :=
  mapKeys_map b.term_index
    (fun i : TermInfo => (⟨unique (sort_ids i.doc_ids), i.total_occurrences⟩ : TermInfo))

theorem prepare_sorted_terms (b : Builder) :
    (prepare_term_dictionary b).sorted_terms
      = sort_terms (b.sorted_terms ++ mapKeys b.term_index) := rfl

/-- The postings of a built index. -/
theorem built_find (files : List CorpusFile) (t : Str) :
    mapFind (built files).term_index t
      = if spec_ids t (files.map (fun f => f.content)) 0 = [] then none
        else some ⟨unique (sort_ids (spec_ids t (files.map (fun f => f.content)) 0)),
                   spec_total t (files.map (fun f => f.content))⟩ := by
  have h := process_all_find t (files.map (fun f => f.content))
    (scan_directory Builder.fresh files).2 0 (by simp [scan_directory, Builder.fresh])
  unfold built
  rw [prepare_find, h]
  split
  · simp [scan_directory, Builder.fresh, mapFind]
  · simp [scan_directory, Builder.fresh, mapFind]

theorem built_sorted_terms (files : List CorpusFile) (t : Str) :
    t ∈ (built files).sorted_terms ↔ mapFind (built files).term_index t ≠ none := by
  rw [Ne, mapFind_eq_none, not_not]
  unfold built
  rw [prepare_keys, prepare_sorted_terms, mem_sort_terms]
  have : (scan_directory Builder.fresh files).2.sorted_terms = [] := rfl
  have e : ∀ (cs : List (Option Str)) (b : Builder) (d : Nat),
      (process_all b cs d).sorted_terms = b.sorted_terms := by
    intro cs
    induction cs with
    | nil => intro b d; rfl
    | cons c cs ih =>
      intro b d
      rw [process_all, ih]
      unfold process_document
      split
      · rfl
      · split <;> rfl
  rw [e, this, List.nil_append]

end BooleanIndexBuilder

namespace BooleanIndexBuilder

theorem build_index_some (files : List CorpusFile) (b : Builder)
    (h : build_index files = some b) :
    b = built files ∧ files.length < 2 ^ 32 := by
  unfold build_index at h
  split at h
  · simp at h
  · split at h
    · simp at h
    · simp only [Option.some.injEq] at h
      exact ⟨h.symm, by omega⟩

theorem read_ids_write_ids :
    ∀ (ids : List Nat) (rest : List Byte), (∀ x ∈ ids, x < 2 ^ 32) →
      BooleanIndexReader.read_ids ids.length (write_ids ids ++ rest) = some ids := by
  intro ids
  induction ids with
  | nil => intro rest _; simp [BooleanIndexReader.read_ids]
  | cons x xs ih =>
    intro rest h
    simp only [List.length_cons, write_ids, List.append_assoc, BooleanIndexReader.read_ids,
      BooleanIndexReader.read_u32_u32le, Nat.mod_eq_of_lt (h x (by simp)),
      ih rest (fun y hy => h y (by simp [hy]))]

theorem built_doc_ids_lt (files : List CorpusFile) (t : Str) (info : TermInfo)
    (h : mapFind (built files).term_index t = some info) :
    ∀ x ∈ info.doc_ids, x < files.length := by
  rw [built_find] at h
  split at h
  · simp at h
  · simp only [Option.some.injEq] at h
    subst h
    intro x hx
    rw [mem_prepared_ids] at hx
    have := spec_ids_lt t _ 0 x hx
    simpa using this

theorem ascii_ab : ascii "ab" = [97, 98] := by decide

theorem ascii_ab_space : ascii "ab " = [97, 98, 32] := by decide

theorem tokens_repeat (n : Nat) :
    tokens_from [] (repeat_str n [97, 98, 32]) = List.replicate n [97, 98] := by
  induction n with
  | zero => simp [repeat_str, tokens_from]
  | succ n ih =>
    have h1 : is_valid_token_char 97 = true := by decide
    have h2 : is_valid_token_char 98 = true := by decide
    have h3 : is_valid_token_char 32 = false := by decide
    have h4 : tolower 97 = 97 := by decide
    have h5 : tolower 98 = 98 := by decide
    simp only [repeat_str, List.cons_append, List.nil_append, tokens_from, h1, h2, h3, h4, h5,
      if_true, List.replicate_succ]
    simp [ih]

/-- The index built from one document that repeats "ab " `n` times. -/
theorem built_repeat (path title : Str) (size n : Nat) (hn : 0 < n) :
    mapFind (built [⟨path, title, size, some (repeat_str n [97, 98, 32])⟩]).term_index [97, 98]
      = some ⟨[0], n % 2 ^ 32⟩ := by
  have ht : doc_tokens (some (repeat_str n [97, 98, 32])) = List.replicate n [97, 98] :=
    tokens_repeat n
  have hm : ([97, 98] : Str) ∈ List.replicate n ([97, 98] : Str) := by
    rw [List.mem_replicate]; exact ⟨by omega, rfl⟩
  rw [built_find]
  simp only [List.map_cons, List.map_nil, spec_ids, ht, hm, if_true, spec_total,
    List.count_replicate_self]
  simp [unique, sort_ids]

/-- The index built from the repetitive corpus: the count of "ab" has wrapped to 0. -/
theorem repetitive_built :
    mapFind (built repetitive_corpus).term_index [97, 98] = some ⟨[0], 0⟩ := by
  have h := built_repeat (ascii "r.txt") (ascii "r") (3 * 2 ^ 32) (2 ^ 32) (by norm_num)
  rw [Nat.mod_self] at h
  rw [repetitive_corpus, ascii_ab_space]
  exact h

end BooleanIndexBuilder

namespace IndexFile
open BooleanIndexBuilder BooleanIndexReader

theorem read_str_take (s rest : List Byte) (k : Nat) (hk : k ≤ s.length) :
    read_str k (s.take k ++ rest) = some (s.take k, rest) := by
  have h := read_str_append (s.take k) rest
  rwa [List.length_take, Nat.min_eq_left hk] at h

theorem list_size_lt (info : BooleanIndexBuilder.TermInfo) : list_size info < 2 ^ 32 :=
  Nat.mod_lt _ (by norm_num)

theorem read_document_write (d : Document) (rest : List Byte) :
    read_document (write_document d ++ rest) = some (doc_info d, rest) := by
  simp only [write_document, List.append_assoc, read_document, read_u32_u32le, Nat.mod_mod,
    read_str_take _ _ _ (Nat.mod_le _ _), doc_info]

theorem read_documents_write (docs : List Document) (rest : List Byte) :
    read_documents docs.length (write_documents docs ++ rest)
      = some (docs.map doc_info, rest) := by
  induction docs with
  | nil => simp [read_documents, write_documents]
  | cons d ds ih =>
    simp only [List.length_cons, write_documents, List.append_assoc, read_documents,
      read_document_write, ih, List.map_cons]

theorem read_term_write (term : Str) (info : BooleanIndexBuilder.TermInfo) (offset : Nat)
    (rest : List Byte) :
    read_term (write_term term info offset ++ rest) = some (term_entry term info offset, rest) := by
  simp only [write_term, List.append_assoc, read_term, read_u16_u16le, read_u32_u32le,
    Nat.mod_mod, read_str_take _ _ _ (Nat.mod_le _ _), term_entry,
    Nat.mod_eq_of_lt (list_size_lt info)]

theorem read_terms_write (ti : UMap BooleanIndexBuilder.TermInfo) :
    ∀ (terms : List Str) (offs : List Nat) (bs rest : List Byte),
      terms.length = offs.length → write_terms ti terms offs = some bs →
      read_terms terms.length (bs ++ rest) = some (term_entries ti terms offs, rest) := by
  intro terms
  induction terms with
  | nil =>
    intro offs bs rest hl h
    cases offs <;> simp_all [write_terms, read_terms, term_entries]
  | cons t ts ih =>
    intro offs bs rest hl h
    cases offs with
    | nil => simp at hl
    | cons o os =>
      simp only [write_terms] at h
      cases hf : mapFind ti t with
      | none => simp [hf] at h
      | some info =>
        simp only [hf] at h
        cases hw : write_terms ti ts os with
        | none => simp [hw] at h
        | some bs1 =>
          simp only [hw, Option.some.injEq] at h
          subst h
          simp only [List.length_cons, List.append_assoc, read_terms, read_term_write,
            ih os bs1 rest (by simpa using hl) hw, term_entries, hf, Option.getD_some]

end IndexFile

namespace IndexFile
open BooleanIndexBuilder BooleanIndexReader

theorem header_bytes_length (b : Builder) (x y z : Nat) : (header_bytes b x y z).length = 36 := rfl

/-- Layout of the file that `save_index` produces. -/
theorem save_index_layout (b : Builder) (file : List Byte) (h : save_index b = some file) :
    ∃ offs dict posts,
      posting_offsets b.term_index b.sorted_terms 0 = some offs ∧
      write_terms b.term_index b.sorted_terms offs = some dict ∧
      write_postings b.term_index b.sorted_terms = some posts ∧
      file = header_bytes b 36 (36 + (write_documents b.documents).length)
                (36 + (write_documents b.documents).length + dict.length + posts.length)
              ++ (write_documents b.documents ++ (dict ++ posts)) := by
  simp only [save_index, write_document_table, write_term_dictionary, write_posting_lists] at h
  cases ho : posting_offsets b.term_index b.sorted_terms 0 with
  | none => simp [ho] at h
  | some offs =>
    simp only [ho] at h
    cases hd : write_terms b.term_index b.sorted_terms offs with
    | none => simp [hd] at h
    | some dict =>
      simp only [hd] at h
      cases hp : write_postings b.term_index b.sorted_terms with
      | none => simp [hp] at h
      | some posts =>
        simp only [hp, Option.some.injEq] at h
        refine ⟨offs, dict, posts, rfl, hd, rfl, ?_⟩
        rw [← h]
        have hl : (write_file_header b []).length = 36 := by
          simp [write_file_header, FILE_MAGIC, u32le_length]
        have e1 : write_file_header b [] ++ write_documents b.documents ++ dict ++ posts
            = (FILE_MAGIC ++ u32le FILE_FORMAT_VERSION ++ u32le (b.documents.length % 2 ^ 32)
                ++ u32le (b.sorted_terms.length % 2 ^ 32))
              ++ ((u32le 0 ++ u32le 0 ++ u32le 0 ++ u32le 0 ++ u32le 0)
              ++ (write_documents b.documents ++ (dict ++ posts))) := by
          simp [write_file_header]
        have e2 : write_file_header b [] ++ write_documents b.documents ++ dict ++ posts
            = write_file_header b [] ++ (write_documents b.documents ++ (dict ++ posts)) := by
          simp
        have hlen : (write_file_header b [] ++ write_documents b.documents ++ dict
            ++ posts).length
            = 36 + (write_documents b.documents).length + dict.length + posts.length := by
          simp only [List.length_append, hl]
        have hlen2 : (write_file_header b [] ++ write_documents b.documents).length
            = 36 + (write_documents b.documents).length := by
          simp only [List.length_append, hl]
        have hT : List.take 16 (write_file_header b [] ++ write_documents b.documents ++ dict
            ++ posts)
            = FILE_MAGIC ++ u32le FILE_FORMAT_VERSION ++ u32le (b.documents.length % 2 ^ 32)
                ++ u32le (b.sorted_terms.length % 2 ^ 32) := by
          rw [e1]; exact List.take_left' (by simp [FILE_MAGIC, u32le_length])
        have hD : List.drop 36 (write_file_header b [] ++ write_documents b.documents ++ dict
            ++ posts) = write_documents b.documents ++ (dict ++ posts) := by
          rw [e2]; exact List.drop_left' hl
        dsimp only [update_file_header]
        rw [hT, hD, hlen, hlen2, hl]
        simp only [header_bytes, List.append_assoc]

end IndexFile

namespace IndexFile
open BooleanIndexBuilder BooleanIndexReader

theorem header_fields (b : Builder) (x y z : Nat) (junk : List Byte) :
    header_magic (header_bytes b x y z ++ junk) = [66, 73, 78, 68] ∧
    header_doc_count (header_bytes b x y z ++ junk) = b.documents.length % 2 ^ 32 ∧
    header_term_count (header_bytes b x y z ++ junk) = b.sorted_terms.length % 2 ^ 32 ∧
    header_doc_table_offset (header_bytes b x y z ++ junk) = x % 2 ^ 32 ∧
    header_term_dict_offset (header_bytes b x y z ++ junk) = y % 2 ^ 32 ∧
    header_posting_offset (header_bytes b x y z ++ junk)
      = (y + calculate_term_dict_size b.sorted_terms) % 2 ^ 32 ∧
    header_file_size (header_bytes b x y z ++ junk) = z % 2 ^ 32 := by
  refine ⟨rfl, ?_, ?_, ?_, ?_, ?_, ?_⟩
  · have := le32_u32le (b.documents.length % 2 ^ 32) (u32le (b.sorted_terms.length % 2 ^ 32)
      ++ (u32le (x % 2 ^ 32) ++ (u32le (y % 2 ^ 32)
      ++ (u32le ((y + calculate_term_dict_size b.sorted_terms) % 2 ^ 32)
      ++ (u32le (HEADER_SIZE % 2 ^ 32) ++ u32le (z % 2 ^ 32)))) ++ junk))
    rw [Nat.mod_mod] at this
    exact this
  · have := le32_u32le (b.sorted_terms.length % 2 ^ 32)
      ((u32le (x % 2 ^ 32) ++ (u32le (y % 2 ^ 32)
      ++ (u32le ((y + calculate_term_dict_size b.sorted_terms) % 2 ^ 32)
      ++ (u32le (HEADER_SIZE % 2 ^ 32) ++ u32le (z % 2 ^ 32)))) ++ junk))
    rw [Nat.mod_mod] at this
    exact this
  · have := le32_u32le (x % 2 ^ 32) ((u32le (y % 2 ^ 32)
      ++ (u32le ((y + calculate_term_dict_size b.sorted_terms) % 2 ^ 32)
      ++ (u32le (HEADER_SIZE % 2 ^ 32) ++ u32le (z % 2 ^ 32))) ++ junk))
    rw [Nat.mod_mod] at this
    exact this
  · have := le32_u32le (y % 2 ^ 32)
      ((u32le ((y + calculate_term_dict_size b.sorted_terms) % 2 ^ 32)
      ++ (u32le (HEADER_SIZE % 2 ^ 32) ++ u32le (z % 2 ^ 32)) ++ junk))
    rw [Nat.mod_mod] at this
    exact this
  · have := le32_u32le ((y + calculate_term_dict_size b.sorted_terms) % 2 ^ 32)
      (((u32le (HEADER_SIZE % 2 ^ 32) ++ u32le (z % 2 ^ 32)) ++ junk))
    rw [Nat.mod_mod] at this
    exact this
  · have := le32_u32le (z % 2 ^ 32) junk
    rw [Nat.mod_mod] at this
    exact this

end IndexFile

namespace IndexFile
open BooleanIndexBuilder BooleanIndexReader

theorem posting_offsets_length (ti : UMap BooleanIndexBuilder.TermInfo) :
    ∀ (terms : List Str) (cur : Nat) (offs : List Nat),
      posting_offsets ti terms cur = some offs → offs.length = terms.length := by
  intro terms
  induction terms with
  | nil => intro cur offs h; simp [posting_offsets] at h; simp [← h]
  | cons t ts ih =>
    intro cur offs h
    rw [posting_offsets] at h
    split at h
    · simp at h
    · split at h
      · simp at h
      · rename_i os hp
        simp only [Option.some.injEq] at h
        subst h
        simp [ih _ _ hp]

/-- What `load_index` does with a file laid out as `save_index` writes it, when the counts
and the dictionary offset fit their 32-bit header fields. -/
theorem load_index_layout (b : Builder) (r0 : Reader) (offs : List Nat)
    (dict posts : List Byte) (y z : Nat)
    (hy : y = 36 + (write_documents b.documents).length)
    (hdc : b.documents.length < 2 ^ 32) (htc : b.sorted_terms.length < 2 ^ 32)
    (hy32 : y < 2 ^ 32) (hoffs : b.sorted_terms.length = offs.length)
    (hd : write_terms b.term_index b.sorted_terms offs = some dict) :
    load_index r0 (some (header_bytes b 36 y z ++ (write_documents b.documents ++ (dict ++ posts))))
      = some (true,
          ⟨header_bytes b 36 y z ++ r0.header.drop 36,
           r0.documents ++ b.documents.map doc_info,
           r0.term_dict ++ term_entries b.term_index b.sorted_terms offs⟩) := by
  obtain ⟨hm, h1, h2, h3, h4, _, _⟩ := header_fields b 36 y z (r0.header.drop 36)
  have hlen := header_bytes_length b 36 y z
  have htake : List.take SIZEOF_FILE_HEADER
      (header_bytes b 36 y z ++ (write_documents b.documents ++ (dict ++ posts)))
      = header_bytes b 36 y z := List.take_left' hlen
  have hdrop1 : List.drop 36
      (header_bytes b 36 y z ++ (write_documents b.documents ++ (dict ++ posts)))
      = write_documents b.documents ++ (dict ++ posts) := List.drop_left' hlen
  have hdrop2 : List.drop y
      (header_bytes b 36 y z ++ (write_documents b.documents ++ (dict ++ posts)))
      = dict ++ posts := by
    rw [← List.append_assoc]
    exact List.drop_left' (by rw [List.length_append, hlen, hy])
  have hnl : ¬ (header_bytes b 36 y z
      ++ (write_documents b.documents ++ (dict ++ posts))).length < SIZEOF_FILE_HEADER := by
    rw [List.length_append, hlen]; unfold SIZEOF_FILE_HEADER; omega
  simp only [load_index, htake, hlen, hm, h1, h2, h3, h4, ne_eq, not_true_eq_false, if_false,
    hnl, Nat.mod_eq_of_lt hdc, Nat.mod_eq_of_lt htc, Nat.mod_eq_of_lt hy32]
  rw [show (36 : Nat) % 2 ^ 32 = 36 from rfl, hdrop1, hdrop2, read_documents_write,
    read_terms_write b.term_index b.sorted_terms offs dict posts hoffs hd]

end IndexFile

namespace IndexFile
open BooleanIndexBuilder BooleanIndexReader

theorem write_document_length (d : Document) : 16 ≤ (write_document d).length := by
  simp only [write_document, List.length_append, u32le_length]
  omega

theorem write_documents_length (docs : List Document) :
    16 * docs.length ≤ (write_documents docs).length := by
  induction docs with
  | nil => simp [write_documents]
  | cons d ds ih =>
    have := write_document_length d
    simp only [write_documents, List.length_append, List.length_cons]
    omega

theorem write_term_length (term : Str) (info : BooleanIndexBuilder.TermInfo) (offset : Nat) :
    (write_term term info offset).length = 14 + min (term.length % 2 ^ 16) term.length := by
  simp only [write_term, List.length_append, u32le_length, u16le_length, List.length_take]
  omega

theorem write_terms_length (ti : UMap BooleanIndexBuilder.TermInfo) :
    ∀ (terms : List Str) (offs : List Nat) (bs : List Byte),
      terms.length = offs.length → write_terms ti terms offs = some bs →
      14 * terms.length ≤ bs.length := by
  intro terms
  induction terms with
  | nil => intro offs bs _ _; simp
  | cons t ts ih =>
    intro offs bs hl h
    cases offs with
    | nil => simp at hl
    | cons o os =>
      rw [write_terms] at h
      split at h
      · simp at h
      · split at h
        · simp at h
        · rename_i info _ _ bs1 hw
          simp only [Option.some.injEq] at h
          subst h
          have := ih os bs1 (by simpa using hl) hw
          have := write_term_length t info o
          simp only [List.length_append, List.length_cons]
          omega

theorem posting_offsets_some (ti : UMap BooleanIndexBuilder.TermInfo) :
    ∀ (terms : List Str) (cur : Nat), (∀ t ∈ terms, mapFind ti t ≠ none) →
      ∃ offs, posting_offsets ti terms cur = some offs := by
  intro terms
  induction terms with
  | nil => intro cur _; exact ⟨[], rfl⟩
  | cons t ts ih =>
    intro cur h
    obtain ⟨info, hi⟩ := Option.ne_none_iff_exists'.mp (h t (by simp))
    obtain ⟨offs, ho⟩ := ih ((cur + list_size info) % 2 ^ 32) (fun x hx => h x (by simp [hx]))
    exact ⟨cur :: offs, by rw [posting_offsets, hi]; dsimp only; rw [ho]⟩

theorem write_terms_some (ti : UMap BooleanIndexBuilder.TermInfo) :
    ∀ (terms : List Str) (offs : List Nat), (∀ t ∈ terms, mapFind ti t ≠ none) →
      ∃ bs, write_terms ti terms offs = some bs := by
  intro terms
  induction terms with
  | nil => intro offs _; exact ⟨[], by simp [write_terms]⟩
  | cons t ts ih =>
    intro offs h
    cases offs with
    | nil => exact ⟨[], by simp [write_terms]⟩
    | cons o os =>
      obtain ⟨info, hi⟩ := Option.ne_none_iff_exists'.mp (h t (by simp))
      obtain ⟨bs, hbs⟩ := ih os (fun x hx => h x (by simp [hx]))
      exact ⟨write_term t info o ++ bs, by rw [write_terms, hi]; dsimp only; rw [hbs]⟩

theorem write_postings_some (ti : UMap BooleanIndexBuilder.TermInfo) :
    ∀ (terms : List Str), (∀ t ∈ terms, mapFind ti t ≠ none) →
      ∃ bs, write_postings ti terms = some bs := by
  intro terms
  induction terms with
  | nil => intro _; exact ⟨[], rfl⟩
  | cons t ts ih =>
    intro h
    obtain ⟨info, hi⟩ := Option.ne_none_iff_exists'.mp (h t (by simp))
    obtain ⟨bs, hbs⟩ := ih (fun x hx => h x (by simp [hx]))
    exact ⟨write_posting info ++ bs, by rw [write_postings, hi]; dsimp only; rw [hbs]⟩

/-- `save_index` returns `true` on every built index. -/
theorem save_index_built (files : List CorpusFile) :
    ∃ file, save_index (built files) = some file := by
  have hall : ∀ t ∈ (built files).sorted_terms, mapFind (built files).term_index t ≠ none :=
    fun t ht => (built_sorted_terms files t).mp ht
  obtain ⟨offs, ho⟩ := posting_offsets_some _ _ 0 hall
  obtain ⟨dict, hd⟩ := write_terms_some _ _ offs hall
  obtain ⟨posts, hp⟩ := write_postings_some _ _ hall
  simp only [save_index, write_document_table, write_term_dictionary, write_posting_lists, ho,
    hd, hp]
  exact ⟨_, rfl⟩

end IndexFile

namespace BooleanIndexBuilder

theorem scan_step_token_count (s : ScanState) (c : Byte) (h : s.token_count < 2 ^ 32) :
    (scan_step s c).token_count < 2 ^ 32 := by
  unfold scan_step
  split
  · exact h
  · split
    · split
      · exact Nat.mod_lt _ (by norm_num)
      · exact h
    · exact h

theorem scan_content_token_count :
    ∀ (content : Str) (s : ScanState), s.token_count < 2 ^ 32 →
      (scan_content s content).token_count < 2 ^ 32 := by
  intro content
  induction content with
  | nil =>
    intro s h
    unfold scan_content
    dsimp only [List.foldl_nil]
    split
    · exact Nat.mod_lt _ (by norm_num)
    · exact h
  | cons c cs ih =>
    intro s h
    rw [scan_content_cons]
    exact ih _ (scan_step_token_count s c h)

theorem process_document_token_count (b : Builder) (doc_id : Nat) (c : Option Str)
    (h : ∀ d ∈ b.documents, d.token_count < 2 ^ 32) :
    ∀ d ∈ (process_document b doc_id c).2.documents, d.token_count < 2 ^ 32 := by
  unfold process_document
  split
  · exact h
  · rename_i doc hdoc
    split
    · exact h
    · intro d hd
      dsimp only at hd
      rcases List.mem_or_eq_of_mem_set hd with h1 | h1
      · exact h d h1
      · subst h1
        exact scan_content_token_count _ _ (h doc (List.get?_mem hdoc))

theorem process_all_token_count :
    ∀ (contents : List (Option Str)) (b : Builder) (doc_id : Nat),
      (∀ d ∈ b.documents, d.token_count < 2 ^ 32) →
      ∀ d ∈ (process_all b contents doc_id).documents, d.token_count < 2 ^ 32 := by
  intro contents
  induction contents with
  | nil => intro b _ h; exact h
  | cons c cs ih =>
    intro b doc_id h
    rw [process_all]
    exact ih _ _ (process_document_token_count b doc_id c h)

theorem built_token_count (files : List CorpusFile) :
    ∀ d ∈ (built files).documents, d.token_count < 2 ^ 32 := by
  unfold built
  have : ∀ b : Builder, (prepare_term_dictionary b).documents = b.documents := fun _ => rfl
  rw [this]
  apply process_all_token_count
  intro d hd
  simp only [scan_directory, Builder.fresh, List.nil_append, List.mem_map] at hd
  obtain ⟨f, _, rfl⟩ := hd
  norm_num

end BooleanIndexBuilder

namespace IndexFile
open BooleanIndexBuilder BooleanIndexReader

/-- Loading the file written by `save_index`, when the file is shorter than `2^32` bytes. -/
theorem load_saved (b : Builder) (file h : List Byte) (hs : save_index b = some file)
    (hsz : file.length < 2 ^ 32) :
    ∃ offs dict posts,
      posting_offsets b.term_index b.sorted_terms 0 = some offs ∧
      write_terms b.term_index b.sorted_terms offs = some dict ∧
      write_postings b.term_index b.sorted_terms = some posts ∧
      file = header_bytes b 36 (36 + (write_documents b.documents).length)
                (36 + (write_documents b.documents).length + dict.length + posts.length)
              ++ (write_documents b.documents ++ (dict ++ posts)) ∧
      load_index (fresh_reader h) (some file)
        = some (true,
            ⟨header_bytes b 36 (36 + (write_documents b.documents).length)
                (36 + (write_documents b.documents).length + dict.length + posts.length)
              ++ h.drop 36,
             b.documents.map doc_info,
             term_entries b.term_index b.sorted_terms offs⟩) := by
  obtain ⟨offs, dict, posts, ho, hd, hp, hfile⟩ := save_index_layout b file hs
  refine ⟨offs, dict, posts, ho, hd, hp, hfile, ?_⟩
  have hol := posting_offsets_length _ _ _ _ ho
  have hlen : file.length = 36 + (write_documents b.documents).length + dict.length
      + posts.length := by
    rw [hfile]
    simp only [List.length_append, header_bytes_length]
    omega
  have h1 := write_documents_length b.documents
  have h2 := write_terms_length _ _ _ _ hol.symm hd
  have := load_index_layout b (fresh_reader h) offs dict posts
    (36 + (write_documents b.documents).length)
    (36 + (write_documents b.documents).length + dict.length + posts.length) rfl
    (by omega) (by omega) (by omega) hol.symm hd
  rw [hfile, this]
  simp [fresh_reader]

end IndexFile

namespace IndexFile
open BooleanIndexBuilder BooleanIndexReader

theorem term_entries_get (ti : UMap BooleanIndexBuilder.TermInfo) :
    ∀ (terms : List Str) (offs : List Nat) (i : Nat) (t : Str) (o : Nat),
      terms[i]? = some t → offs[i]? = some o →
      (term_entries ti terms offs)[i]?
        = some (term_entry t ((mapFind ti t).getD ⟨[], 0⟩) o) := by
  intro terms
  induction terms with
  | nil => intro offs i t o hi; simp at hi
  | cons t0 ts ih =>
    intro offs i t o hi ho
    cases offs with
    | nil => simp at ho
    | cons o0 os =>
      cases i with
      | zero =>
        simp only [List.getElem?_cons_zero, Option.some.injEq] at hi ho
        subst hi ho
        simp [term_entries]
      | succ j =>
        simp only [List.getElem?_cons_succ] at hi ho
        simpa [term_entries] using ih os j t o hi ho

theorem term_entries_terms (ti : UMap BooleanIndexBuilder.TermInfo) (total : Str → Nat)
    (htot : ∀ t, total t = ((mapFind ti t).getD ⟨[], 0⟩).total_occurrences % 2 ^ 32) :
    ∀ (terms : List Str) (offs : List Nat), terms.length = offs.length →
      (∀ t ∈ terms, t.length < 2 ^ 16) →
      (term_entries ti terms offs).map (fun e => (e.term, e.total_occurrences))
        = terms.map (fun t => (t, total t)) := by
  intro terms
  induction terms with
  | nil => intro offs _ _; cases offs <;> simp [term_entries]
  | cons t0 ts ih =>
    intro offs hl hlen
    cases offs with
    | nil => simp at hl
    | cons o0 os =>
      have h0 := hlen t0 (by simp)
      simp only [term_entries, List.map_cons, term_entry, Nat.mod_eq_of_lt h0, List.take_length,
        ih os (by simpa using hl) (fun x hx => hlen x (by simp [hx])), htot t0]

end IndexFile

namespace BooleanIndexBuilder

theorem foldl_scan_letters (n : Nat) :
    ∀ s : ScanState, (List.replicate (n + 1) (97 : Byte)).foldl scan_step s
      = { s with current_token := s.current_token ++ List.replicate (n + 1) 97,
                 in_token := true } := by
  have h1 : is_valid_token_char 97 = true := by decide
  have h4 : tolower 97 = 97 := by decide
  induction n with
  | zero => intro s; simp [scan_step, h1, h4]
  | succ n ih =>
    intro s
    rw [List.replicate_succ, List.foldl_cons, ih]
    simp [scan_step, h1, h4, List.replicate_succ]

/-- The index built from one document that is a single run of `n + 2` letters "a". -/
theorem built_letters (path title : Str) (size n : Nat) :
    built [⟨path, title, size, some (List.replicate (n + 2) 97)⟩]
      = { documents := [⟨title, path, size, 1⟩],
          term_index := [(List.replicate (n + 2) 97, ⟨[0], 1⟩)],
          sorted_terms := [List.replicate (n + 2) 97],
          stats := ⟨1, 1, 1, n + 2⟩ } := by
  have hs : scan_content ⟨[], false, [], 0, 0⟩ (List.replicate (n + 2) 97)
      = ⟨List.replicate (n + 2) 97, true, [(List.replicate (n + 2) 97, 1)], 1, 1⟩ := by
    unfold scan_content
    rw [foldl_scan_letters (n + 1)]
    simp [count_token, mapUpsert]
  simp only [built, scan_directory, Builder.fresh, List.nil_append, List.map_cons, List.map_nil,
    process_all, process_document, List.get?_cons_zero, List.length_cons, List.length_nil,
    hs, List.foldl_cons, List.foldl_nil, add_posting, mapUpsert, prepare_term_dictionary,
    mapKeys, sort_terms, sort_ids, unique, List.set_cons_zero, List.length_replicate]
  simp [List.insertionSort, List.orderedInsert, unique]

theorem long_term_built :
    built long_term_corpus
      = { documents := [⟨ascii "l", ascii "l.txt", 65536, 1⟩],
          term_index := [(List.replicate 65536 97, ⟨[0], 1⟩)],
          sorted_terms := [List.replicate 65536 97],
          stats := ⟨1, 1, 1, 65536⟩ } :=
  built_letters (ascii "l.txt") (ascii "l") 65536 65534

end BooleanIndexBuilder

namespace BooleanIndexBuilder

theorem repetitive_build : build_index repetitive_corpus = some (built repetitive_corpus) := by
  rfl

theorem repetitive_count :
    (repetitive_corpus.map (fun f => (doc_tokens f.content).count (ascii "ab"))).sum = 2 ^ 32 := by
  have ht : doc_tokens (some (repeat_str (2 ^ 32) [97, 98, 32]))
      = List.replicate (2 ^ 32) [97, 98] := tokens_repeat _
  rw [repetitive_corpus, ascii_ab_space, ascii_ab]
  simp only [List.map_cons, List.map_nil, ht, List.count_replicate_self, List.sum_cons,
    List.sum_nil, Nat.add_zero]

/-- C7, as stated, fails. The corpus of one readable document that repeats "ab " `2^32`
times is built into an index; the term "ab" occurs `2^32` times in the document, but
`total_occurrences("ab")` is 0, because the per-document count is a `uint32_t`. -/
theorem total_occurrences_wraps :
    build_index repetitive_corpus = some (built repetitive_corpus) ∧
    (repetitive_corpus.map (fun f => (doc_tokens f.content).count (ascii "ab"))).sum = 2 ^ 32 ∧
    total_occurrences_of (built repetitive_corpus) (ascii "ab") = 0 := by
  refine ⟨repetitive_build, repetitive_count, ?_⟩
  rw [total_occurrences_of, ascii_ab, repetitive_built]

/-- C7, amended. After `build_index`, for every term `t`: a document id `d` is in
`doc_ids(t)` exactly when `t` occurs in the term sequence of document `d` (a document
that cannot be read has the empty sequence); and, when every document has fewer than
`2^32` tokens, `total_occurrences(t)` is the sum over all documents of the number of
occurrences of `t` in the document. -/
theorem postings_match_documents (files : List CorpusFile) (b : Builder)
    (hb : build_index files = some b) (t : Str) :
    (∀ d, d ∈ doc_ids_of b t ↔ ∃ f, files[d]? = some f ∧ t ∈ doc_tokens f.content) ∧
    ((∀ f ∈ files, (doc_tokens f.content).length < 2 ^ 32) →
      total_occurrences_of b t
        = (files.map (fun f => (doc_tokens f.content).count t)).sum) := by
  obtain ⟨rfl, _⟩ := build_index_some files b hb
  have hfind := built_find files t
  constructor
  · intro d
    have hmem := mem_spec_ids t (files.map (fun f => f.content)) 0 d
    have e : d ∈ doc_ids_of (built files) t
        ↔ d ∈ spec_ids t (files.map (fun f => f.content)) 0 := by
      rw [doc_ids_of, hfind]
      by_cases he : spec_ids t (files.map (fun f => f.content)) 0 = []
      · simp [he]
      · simp [he, mem_prepared_ids]
    rw [e, hmem]
    constructor
    · rintro ⟨i, c, hi, hg, hm⟩
      have hd : d = i := by omega
      subst hd
      rw [List.getElem?_map] at hg
      cases hf : files[d]? with
      | none => simp [hf] at hg
      | some f =>
        simp only [hf, Option.map_some', Option.some.injEq] at hg
        exact ⟨f, rfl, by rw [hg]; exact hm⟩
    · rintro ⟨f, hf, hm⟩
      exact ⟨d, f.content, by omega, by simp [List.getElem?_map, hf], hm⟩
  · intro hsmall
    have hs : ∀ c ∈ files.map (fun f => f.content), (doc_tokens c).length < 2 ^ 32 := by
      intro c hc
      obtain ⟨f, hf, rfl⟩ := List.mem_map.mp hc
      exact hsmall f hf
    rw [total_occurrences_of, hfind]
    have hsum := spec_total_eq_sum t _ hs
    rw [List.map_map] at hsum
    have hsum2 : spec_total t (files.map (fun f => f.content))
        = (files.map (fun f => (doc_tokens f.content).count t)).sum := hsum
    by_cases he : spec_ids t (files.map (fun f => f.content)) 0 = []
    · rw [if_pos he, ← hsum2, spec_total_eq_zero t _ 0 he]
    · rw [if_neg he]
      exact hsum2

/-- Witness for `postings_match_documents`: the corpus doc0 "cat dog", doc1 "dog bird",
doc2 "cat bird fish" gives the postings `cat:{0,2}`, `dog:{0,1}`, `bird:{1,2}`, `fish:{2}`. -/
theorem postings_match_documents_witness :
    build_index pets_corpus = some (built pets_corpus) ∧
    (∀ d, d ∈ doc_ids_of (built pets_corpus) (ascii "cat")
        ↔ ∃ f, pets_corpus[d]? = some f ∧ ascii "cat" ∈ doc_tokens f.content) ∧
    total_occurrences_of (built pets_corpus) (ascii "cat") = 2 ∧
    doc_ids_of (built pets_corpus) (ascii "cat") = [0, 2] ∧
    doc_ids_of (built pets_corpus) (ascii "dog") = [0, 1] ∧
    doc_ids_of (built pets_corpus) (ascii "bird") = [1, 2] ∧
    doc_ids_of (built pets_corpus) (ascii "fish") = [2] :=
  ⟨by decide,
   (postings_match_documents pets_corpus (built pets_corpus) (by decide) (ascii "cat")).1,
   ((postings_match_documents pets_corpus (built pets_corpus) (by decide) (ascii "cat")).2
      (by decide)).trans (by decide),
   by decide, by decide, by decide, by decide⟩

/-- C8. In a built index the doc ids of every term are strictly ascending, hence without
duplicates, and the bytes that `write_posting_lists` emits for them read back as the same
ids. -/
theorem posting_lists_strictly_ascending (files : List CorpusFile) (b : Builder)
    (hb : build_index files = some b) (t : Str) (info : TermInfo)
    (hf : mapFind b.term_index t = some info) (rest : List Byte) :
    info.doc_ids.Pairwise (fun x y => x < y) ∧ info.doc_ids.Nodup ∧
    BooleanIndexReader.read_ids info.doc_ids.length (write_ids info.doc_ids ++ rest)
      = some info.doc_ids := by
  obtain ⟨rfl, hN⟩ := build_index_some files b hb
  have hlt := built_doc_ids_lt files t info hf
  have hp : info.doc_ids.Pairwise (fun x y => x < y) := by
    rw [built_find] at hf
    split at hf
    · simp at hf
    · simp only [Option.some.injEq] at hf
      subst hf
      exact unique_sorted _ (sort_ids_sorted _)
  refine ⟨hp, hp.imp (fun h => Nat.ne_of_lt h), ?_⟩
  exact read_ids_write_ids _ rest (fun x hx => lt_trans (hlt x hx) hN)

/-- Witness for `posting_lists_strictly_ascending`: the posting list `[0, 2]` of "cat"
in the end-to-end corpus. -/
theorem posting_lists_strictly_ascending_witness :
    mapFind (built pets_corpus).term_index (ascii "cat") = some ⟨[0, 2], 2⟩ ∧
    ([0, 2] : List Nat).Pairwise (fun x y => x < y) :=
  ⟨by decide,
   (posting_lists_strictly_ascending pets_corpus (built pets_corpus) (by decide) (ascii "cat")
      ⟨[0, 2], 2⟩ (by decide) []).1⟩

/-- C9, as stated, fails. In the index built from the document that repeats "ab " `2^32`
times the term "ab" has one doc id and `total_occurrences = 0`. -/
theorem total_occurrences_below_doc_ids :
    build_index repetitive_corpus = some (built repetitive_corpus) ∧
    ∃ info, mapFind (built repetitive_corpus).term_index (ascii "ab") = some info ∧
      info.total_occurrences < info.doc_ids.length := by
  refine ⟨repetitive_build, ⟨[0], 0⟩, ?_, by decide⟩
  rw [ascii_ab, repetitive_built]

/-- C9, amended. When every document of the corpus has fewer than `2^32` tokens, every
term of the built index has `total_occurrences ≥ |doc_ids|`. -/
theorem total_occurrences_ge_doc_ids (files : List CorpusFile) (b : Builder)
    (hb : build_index files = some b)
    (hsmall : ∀ f ∈ files, (doc_tokens f.content).length < 2 ^ 32)
    (t : Str) (info : TermInfo) (hf : mapFind b.term_index t = some info) :
    info.doc_ids.length ≤ info.total_occurrences := by
  obtain ⟨rfl, _⟩ := build_index_some files b hb
  have hs : ∀ c ∈ files.map (fun f => f.content), (doc_tokens c).length < 2 ^ 32 := by
    intro c hc
    obtain ⟨f, hf, rfl⟩ := List.mem_map.mp hc
    exact hsmall f hf
  rw [built_find] at hf
  split at hf
  · simp at hf
  · simp only [Option.some.injEq] at hf
    subst hf
    exact le_trans (prepared_ids_length_le _) (spec_ids_length_le t _ 0 hs)

/-- Witness for `total_occurrences_ge_doc_ids`: "dog" in the end-to-end corpus has
two doc ids and two occurrences. -/
theorem total_occurrences_ge_doc_ids_witness :
    mapFind (built pets_corpus).term_index (ascii "dog") = some ⟨[0, 1], 2⟩ ∧
    ([0, 1] : List Nat).length ≤ 2 :=
  ⟨by decide,
   total_occurrences_ge_doc_ids pets_corpus (built pets_corpus) (by decide) (by decide)
     (ascii "dog") ⟨[0, 1], 2⟩ (by decide)⟩

end BooleanIndexBuilder

namespace IndexFile
open BooleanIndexBuilder BooleanIndexReader

set_option maxRecDepth 100000 in
theorem pets_file_saved : save_index (built pets_corpus) = some pets_file := by
  decide

set_option maxRecDepth 100000 in
theorem pets_file_length : pets_file.length = 222 := by
  decide

/-- C1, as stated, fails. A corpus with one file of `2^32` bytes: the builder records the
byte size `2^32`, the file written by `save_index` loads successfully, and the loaded
document has byte size 0. -/
theorem byte_size_not_reproduced :
    build_index big_file_corpus = some (built big_file_corpus) ∧
    (built big_file_corpus).documents.map (fun d => d.file_size) = [2 ^ 32] ∧
    ((save_index (built big_file_corpus)).bind
        (fun file => load_index (fresh_reader []) (some file))).map
      (fun p => (p.1, p.2.documents.map (fun d => d.file_size))) = some (true, [0]) := by
  decide

/-- C1, amended. For every corpus, when the index file written by `save_index` is shorter
than `2^32` bytes and every title and path is shorter than `2^32` bytes, `load_index`
succeeds on that file and the loaded document table has, position by position, the
builder's title, path and token_count, and the builder's byte size modulo `2^32`. -/
theorem load_reproduces_documents (files : List CorpusFile) (b : Builder) (file h : List Byte)
    (hb : build_index files = some b) (hs : save_index b = some file)
    (hsz : file.length < 2 ^ 32)
    (hnames : ∀ d ∈ b.documents, d.title.length < 2 ^ 32 ∧ d.path.length < 2 ^ 32) :
    ∃ r, load_index (fresh_reader h) (some file) = some (true, r) ∧
      r.documents
        = b.documents.map (fun d => ⟨d.title, d.path, d.file_size % 2 ^ 32, d.token_count⟩) := by
  obtain ⟨rfl, _⟩ := build_index_some files b hb
  obtain ⟨offs, dict, posts, _, _, _, _, hload⟩ := load_saved _ file h hs hsz
  refine ⟨_, hload, ?_⟩
  dsimp only
  apply List.map_congr_left
  intro d hd
  have h1 := hnames d hd
  have h2 := built_token_count files d hd
  simp only [doc_info, Nat.mod_eq_of_lt h1.1, Nat.mod_eq_of_lt h1.2, Nat.mod_eq_of_lt h2,
    List.take_length]

/-- Witness for `load_reproduces_documents`: the three documents of the end-to-end corpus. -/
theorem load_reproduces_documents_witness :
    ∃ r, load_index (fresh_reader []) (some pets_file) = some (true, r) ∧
      r.documents = [⟨ascii "d0", ascii "d0.txt", 7, 2⟩, ⟨ascii "d1", ascii "d1.txt", 8, 2⟩,
                     ⟨ascii "d2", ascii "d2.txt", 13, 3⟩] := by
  obtain ⟨r, h1, h2⟩ := load_reproduces_documents pets_corpus (built pets_corpus) pets_file []
    (by decide) pets_file_saved (by rw [pets_file_length]; norm_num) (by decide)
  exact ⟨r, h1, h2.trans (by decide)⟩

theorem total_occurrences_of_eq (b : Builder) (t : Str) :
    total_occurrences_of b t = ((mapFind b.term_index t).getD ⟨[], 0⟩).total_occurrences := by
  unfold total_occurrences_of
  cases mapFind b.term_index t <;> rfl

/-- C2, amended. For every state `b` of the builder (in particular every built index),
when the index file written by `save_index` is shorter than `2^32` bytes and every term is
shorter than `2^16` bytes, `load_index` succeeds on that file and the loaded dictionary lists
exactly the builder's sorted terms, in the same order, each with the builder's
`total_occurrences` modulo `2^32`. -/
theorem load_reproduces_terms (b : Builder) (file h : List Byte)
    (hs : save_index b = some file)
    (hsz : file.length < 2 ^ 32) (hterms : ∀ t ∈ b.sorted_terms, t.length < 2 ^ 16) :
    ∃ r, load_index (fresh_reader h) (some file) = some (true, r) ∧
      r.term_dict.map (fun e => (e.term, e.total_occurrences))
        = b.sorted_terms.map (fun t => (t, total_occurrences_of b t % 2 ^ 32)) := by
  obtain ⟨offs, dict, posts, ho, _, _, _, hload⟩ := load_saved b file h hs hsz
  refine ⟨_, hload, ?_⟩
  dsimp only
  exact term_entries_terms b.term_index (fun t => total_occurrences_of b t % 2 ^ 32)
    (fun t => by dsimp only; rw [total_occurrences_of_eq]) b.sorted_terms offs
    (posting_offsets_length _ _ _ _ ho).symm hterms

/-- Witness for `load_reproduces_terms`: the dictionary of the end-to-end corpus. -/
theorem load_reproduces_terms_witness :
    ∃ r, load_index (fresh_reader []) (some pets_file) = some (true, r) ∧
      r.term_dict.map (fun e => (e.term, e.total_occurrences))
        = [(ascii "bird", 2), (ascii "cat", 2), (ascii "dog", 2), (ascii "fish", 1)] := by
  obtain ⟨r, h1, h2⟩ := load_reproduces_terms (built pets_corpus) pets_file []
    pets_file_saved (by rw [pets_file_length]; norm_num) (by decide)
  exact ⟨r, h1, h2.trans (by decide)⟩

/-- Loading the index of one document whose only term is 65536 bytes long: the only
dictionary entry has the empty term, and the posting offset of the header points past the
end of the file. -/
theorem long_term_load_aux (term file : List Byte) (hl : term.length = 65536)
    (hs : save_index ⟨[⟨ascii "l", ascii "l.txt", 65536, 1⟩], [(term, ⟨[0], 1⟩)], [term],
      ⟨1, 1, 1, 65536⟩⟩ = some file) :
    file.length = 80 ∧
    ∃ hdr, load_index (fresh_reader []) (some file)
        = some (true, ⟨hdr, [⟨ascii "l", ascii "l.txt", 65536, 1⟩], [⟨[], 0, 8, 1⟩]⟩) ∧
      header_posting_offset hdr = 65608 := by
  have hD : (write_documents [(⟨ascii "l", ascii "l.txt", 65536, 1⟩ : Document)]).length = 22 := by
    decide
  have hdoc : doc_info ⟨ascii "l", ascii "l.txt", 65536, 1⟩
      = ⟨ascii "l", ascii "l.txt", 65536, 1⟩ := by decide
  obtain ⟨offs, dict, posts, ho, hd, hp, hfile⟩ := save_index_layout _ file hs
  dsimp only at ho hd hp hfile
  simp only [posting_offsets, mapFind, if_true, Option.some.injEq] at ho
  subst ho
  simp only [write_terms, mapFind, if_true, Option.some.injEq, List.append_nil] at hd
  simp only [write_postings, mapFind, if_true, Option.some.injEq, List.append_nil] at hp
  have hdl : dict.length = 14 := by
    rw [← hd, write_term_length, hl]; rfl
  have hpl : posts.length = 8 := by
    rw [← hp]; rfl
  have hlen : file.length = 80 := by
    rw [hfile]
    simp only [List.length_append, header_bytes_length, hD, hdl, hpl]
  refine ⟨hlen, ?_⟩
  have hload := load_index_layout
    { documents := [⟨ascii "l", ascii "l.txt", 65536, 1⟩],
      term_index := [(term, ⟨[0], 1⟩)],
      sorted_terms := [term],
      stats := ⟨1, 1, 1, 65536⟩ }
    (fresh_reader []) [0] dict posts
    (36 + (write_documents [(⟨ascii "l", ascii "l.txt", 65536, 1⟩ : Document)]).length)
    (36 + (write_documents [(⟨ascii "l", ascii "l.txt", 65536, 1⟩ : Document)]).length
      + dict.length + posts.length) rfl
    (by norm_num) (by norm_num) (by rw [hD]; norm_num) rfl
    (by simp only [write_terms, mapFind, if_true, List.append_nil, hd])
  rw [← hfile] at hload
  have hpo := (header_fields
    ({ documents := [⟨ascii "l", ascii "l.txt", 65536, 1⟩],
       term_index := [(term, ⟨[0], 1⟩)],
       sorted_terms := [term],
       stats := ⟨1, 1, 1, 65536⟩ } : Builder) 36
    (36 + (write_documents [(⟨ascii "l", ascii "l.txt", 65536, 1⟩ : Document)]).length)
    (36 + (write_documents [(⟨ascii "l", ascii "l.txt", 65536, 1⟩ : Document)]).length
      + dict.length + posts.length) (List.drop 36 (fresh_reader []).header)).2.2.2.2.2.1
  simp only [hD, calculate_term_dict_size, hl] at hpo
  refine ⟨_, ?_, hpo⟩
  rw [hload]
  simp only [List.map_cons, List.map_nil, hdoc, term_entries, mapFind, if_true,
    Option.getD_some, term_entry, hl, fresh_reader, List.nil_append, hD]
  rfl

/-- What loading the index of the long-term corpus gives. -/
theorem long_term_load (file : List Byte) (hs : save_index (built long_term_corpus) = some file) :
    file.length = 80 ∧
    ∃ hdr, load_index (fresh_reader []) (some file)
        = some (true, ⟨hdr, [⟨ascii "l", ascii "l.txt", 65536, 1⟩], [⟨[], 0, 8, 1⟩]⟩) ∧
      header_posting_offset hdr = 65608 := by
  rw [long_term_built] at hs
  exact long_term_load_aux _ file (List.length_replicate _ _) hs

/-- C2, as stated, fails. A corpus of one document holding the letter "a" 65536 times is
built into an index whose only term is that run of 65536 letters; the file written by
`save_index` loads successfully, and the only term of the loaded dictionary is the empty
string. -/
theorem long_term_not_reproduced :
    build_index long_term_corpus = some (built long_term_corpus) ∧
    (built long_term_corpus).sorted_terms = [List.replicate 65536 97] ∧
    ∃ file r, save_index (built long_term_corpus) = some file ∧
      load_index (fresh_reader []) (some file) = some (true, r) ∧
      r.term_dict.map (fun e => e.term) = [[]] := by
  refine ⟨rfl, by rw [long_term_built], ?_⟩
  obtain ⟨file, hs⟩ := save_index_built long_term_corpus
  obtain ⟨_, hdr, hload, _⟩ := long_term_load file hs
  exact ⟨file, _, hs, hload, rfl⟩

end IndexFile

/-! ## Malformed queries, parentheses and the empty index -/

namespace BoolSearch

theorem apply_op_nil_binop (g : Globals) (o : BinOp) :
    apply_op g [] o.toOp = ([], o.toOp) := by
  cases o <;> rfl

theorem ends_word_append_nonempty (a b : Str) (h : ends_word a) (ha : a ≠ []) :
    ends_word (a ++ b) := by
  cases a with
  | nil => exact absurd rfl ha
  | cons c cs => simpa [ends_word] using h

theorem eval_loop_word_last (g : Globals) (fuel : Nat) (w : Str) (st : List DocSet) (op : Op)
    (hw : is_word w) :
    eval_loop g (fuel + 1) w st op
      = eval_loop g fuel [] (apply_op g (postings g (w.map tolower) :: st) op).1
          (apply_op g (postings g (w.map tolower) :: st) op).2 := by
  have := eval_loop_word g fuel w [] st op hw ends_word_nil
  rwa [List.append_nil] at this

theorem eval_loop_binop_last (g : Globals) (fuel : Nat) (o : BinOp) (st : List DocSet)
    (op : Op) :
    eval_loop g (fuel + 1) o.text st op
      = eval_loop g fuel [] (apply_op g st o.toOp).1 (apply_op g st o.toOp).2 := by
  have := eval_loop_binop g fuel o [] st op
  rwa [List.append_nil] at this

/-- A character that starts no token: the loop of `eval` stays on it for ever. -/
theorem eval_loop_stuck (g : Globals) (c : Byte) (cs : Str)
    (h1 : c ≠ 32) (h2 : c ≠ 40) (h3 : c ≠ 38) (h4 : c ≠ 124) (h5 : c ≠ 33)
    (h6 : is_word_char c = false) :
    ∀ (fuel : Nat) (st : List DocSet) (op : Op), eval_loop g fuel (c :: cs) st op = none := by
  intro fuel
  induction fuel with
  | zero => intro st op; rfl
  | succ n ih =>
    intro st op
    rw [eval_loop, if_neg h1, if_neg h2, if_neg (by intro h; simp at h; exact h3 h.1),
      if_neg (by intro h; simp at h; exact h4 h.1), if_neg h5]
    simp only [List.takeWhile, List.dropWhile, h6, List.map_nil, ne_eq, not_true_eq_false,
      if_false]
    exact ih _ _

/-- C13. `eval` does not return on the expression "a)": after the word `a` the loop
reaches `)`, which starts no token, and never moves past it, whatever the fuel. -/
theorem eval_never_returns (g : Globals) (fuel : Nat) : eval g fuel (ascii "a)") = none := by
  cases fuel with
  | zero => rfl
  | succ n =>
    have e : ascii "a)" = [97] ++ [41] := by decide
    rw [eval, e, eval_loop_word g n [97] [41] _ _ (by unfold is_word; decide)
      (by intro c hc; simp at hc; subst hc; decide)]
    exact eval_loop_stuck g 41 [] (by decide) (by decide) (by decide) (by decide) (by decide)
      (by decide) n _ _

/-- C11, as stated, fails. With `cat:{0,2}` the expression "cat &&", whose operator has no
right operand, evaluates to `{0,2}`, not to the empty set. -/
theorem eval_dangling_and :
    eval pets 10 (ascii "cat &&") = some {0, 2} ∧ ({0, 2} : DocSet) ≠ ∅ := by
  decide

/-- C11, amended. When a binary operator lacks an operand `eval` returns what is on top
of its stack: "a o" and "o a" evaluate to the posting set of `a`; in "a o1 o2 b" the second
operator replaces the pending one and the result is the sets of `a` and `b` combined by
`o2`; an operator alone evaluates to the empty set. -/
theorem eval_missing_operand (g : Globals) (a b : Str) (o1 o2 : BinOp) (n fuel : Nat)
    (ha : is_word a) (hb : is_word b) (hf : a.length + b.length + 3 * n + 4 < fuel) :
    eval g fuel (a ++ spaces n ++ o1.text) = some (postings g (a.map tolower)) ∧
    eval g fuel (o1.text ++ spaces n ++ a) = some (postings g (a.map tolower)) ∧
    eval g fuel (a ++ spaces n ++ o1.text ++ spaces n ++ o2.text ++ spaces n ++ b)
      = some (o2.apply (postings g (a.map tolower)) (postings g (b.map tolower))) ∧
    eval g fuel o1.text = some ∅ := by
  have hla : 0 < a.length := List.length_pos.mpr ha.1
  have hlb : 0 < b.length := List.length_pos.mpr hb.1
  have hsp : ∀ (k : Nat) (r : Str), ends_word (spaces k ++ o1.text ++ r) := by
    intro k r
    rw [List.append_assoc]
    exact ends_word_spaces_append _ _ (ends_word_binop _ _)
  refine ⟨?_, ?_, ?_, ?_⟩
  · obtain ⟨m, rfl⟩ : ∃ m, fuel = m + 1 + 1 + n + 1 := ⟨fuel - (n + 3), by omega⟩
    have := hsp n []
    rw [List.append_nil] at this
    rw [eval, List.append_assoc, eval_loop_word g _ a _ _ _ ha this, apply_op_empty,
      eval_loop_spaces]
    rw [eval_loop_binop_last, apply_op_single, eval_loop_nil]
    rfl
  · obtain ⟨m, rfl⟩ : ∃ m, fuel = m + 1 + 1 + n + 1 := ⟨fuel - (n + 3), by omega⟩
    rw [eval, List.append_assoc, eval_loop_binop, apply_op_nil_binop, eval_loop_spaces]
    rw [eval_loop_word_last g _ a _ _ ha, apply_op_single, eval_loop_nil]
    rfl
  · obtain ⟨m, rfl⟩ : ∃ m, fuel = m + 1 + 1 + n + 1 + n + 1 + n + 1 :=
      ⟨fuel - (3 * n + 5), by omega⟩
    have e : a ++ spaces n ++ o1.text ++ spaces n ++ o2.text ++ spaces n ++ b
        = a ++ (spaces n ++ (o1.text ++ (spaces n ++ (o2.text ++ (spaces n ++ b))))) := by
      simp
    have h2 : ends_word (spaces n ++ (o1.text ++ (spaces n ++ (o2.text ++ (spaces n
        ++ b))))) := ends_word_spaces_append _ _ (ends_word_binop _ _)
    rw [eval, e, eval_loop_word g _ a _ _ _ ha h2, apply_op_empty, eval_loop_spaces,
      eval_loop_binop, apply_op_single, eval_loop_spaces, eval_loop_binop, apply_op_single,
      eval_loop_spaces, eval_loop_word_last g _ b _ _ hb, apply_op_binop, eval_loop_nil]
    rfl
  · obtain ⟨m, rfl⟩ : ∃ m, fuel = m + 1 + 1 := ⟨fuel - 2, by omega⟩
    rw [eval, eval_loop_binop_last, apply_op_nil_binop, eval_loop_nil]
    rfl

/-- Witness for `eval_missing_operand`: "cat &&" and "&& cat" give `{0,2}`, and
"cat && || fish" gives `{0,2}` united with `{2}`. -/
theorem eval_missing_operand_witness :
    eval pets 20 (ascii "cat &&") = some {0, 2} ∧
    eval pets 20 (ascii "&& cat") = some {0, 2} ∧
    eval pets 20 (ascii "cat && || fish") = some {0, 2} ∧
    eval pets 20 (ascii "&&") = some ∅ := by
  have h := eval_missing_operand pets (ascii "cat") (ascii "fish") BinOp.and BinOp.or 1 20
    (by unfold is_word; decide) (by unfold is_word; decide) (by decide)
  exact ⟨h.1.trans (by decide), h.2.1.trans (by decide), h.2.2.1.trans (by decide), h.2.2.2⟩

end BoolSearch

namespace BoolSearch

/-- C15. A parenthesised sub-expression is one operand: for a term `t`, an operator `o`
and an expression `E` with balanced parentheses, "t o (E)" (any number of spaces around
the operator) evaluates to the set of `t` combined by `o` with what `E` evaluates to, and
has no result when `E` has none. -/
theorem eval_paren_operand (g : Globals) (t e : Str) (o : BinOp) (n1 n2 fuel : Nat)
    (ht : is_term t) (hb : balanced 0 e = true) (hlen : e.length + 1 < 2 ^ 64) :
    eval g (fuel + n1 + n2 + 3) (t ++ spaces n1 ++ o.text ++ spaces n2 ++ [40] ++ e ++ [41])
      = (eval g fuel e).map (fun r => o.apply (postings g t) r) := by
  have e1 : t ++ spaces n1 ++ o.text ++ spaces n2 ++ [40] ++ e ++ [41]
      = t ++ (spaces n1 ++ (o.text ++ (spaces n2 ++ (40 :: (e ++ 41 :: []))))) := by
    simp
  have h2 : ends_word (spaces n1 ++ (o.text ++ (spaces n2 ++ (40 :: (e ++ 41 :: []))))) :=
    ends_word_spaces_append _ _ (ends_word_binop _ _)
  have hf : fuel + n1 + n2 + 3 = fuel + 1 + n2 + 1 + n1 + 1 := by omega
  rw [eval, e1, hf, eval_loop_word g _ t _ _ _ ht.1 h2, apply_op_empty, eval_loop_spaces,
    eval_loop_binop, apply_op_single, eval_loop_spaces,
    eval_loop_paren g fuel e [] _ _ hb hlen, ht.2, eval]
  cases h : eval_loop g fuel e [] Op.empty with
  | none => rfl
  | some res =>
    simp only [apply_op_binop, Option.map_some']
    cases fuel with
    | zero => simp [eval_loop] at h
    | succ n => simp [eval_loop]

/-- Witness for `eval_paren_operand`: with `a:{1,2}`, `b:{2,3}`, `c:{3,4}`,
"a || (b && c)" is `{1,2}` united with `{3}`. -/
theorem eval_paren_operand_witness :
    eval abc 15 (ascii "a || (b && c)") = some ({1, 2} ∪ {3}) ∧
    eval abc 10 (ascii "b && c") = some {3} := by
  have h := eval_paren_operand abc (ascii "a") (ascii "b && c") BinOp.or 1 1 10
    (by unfold is_term is_word; decide) (by decide) (by decide)
  exact ⟨h.trans (by decide), by decide⟩

theorem apply_op_all_empty (g : Globals) (hu : g.all_docs = ∅) (st : List DocSet) (op : Op)
    (h : ∀ s ∈ st, s = ∅) : ∀ s ∈ (apply_op g st op).1, s = ∅ := by
  cases op with
  | empty => rw [apply_op_empty]; exact h
  | and =>
    match st, h with
    | [], h => exact h
    | [a], h => exact h
    | b :: a :: rest, h =>
      rw [apply_op_and]
      intro s hs
      rcases List.mem_cons.mp hs with rfl | hs
      · rw [h a (by simp)]; simp
      · exact h s (by simp [hs])
  | or =>
    match st, h with
    | [], h => exact h
    | [a], h => exact h
    | b :: a :: rest, h =>
      rw [apply_op_or]
      intro s hs
      rcases List.mem_cons.mp hs with rfl | hs
      · rw [h a (by simp), h b (by simp)]; simp
      · exact h s (by simp [hs])
  | not =>
    match st, h with
    | [], h => exact h
    | a :: rest, h =>
      rw [apply_op_not]
      intro s hs
      rcases List.mem_cons.mp hs with rfl | hs
      · rw [hu]; simp
      · exact h s (by simp [hs])

/-- Over an index without postings and with an empty universe every set that `eval`
handles is empty. -/
theorem eval_loop_no_docs (g : Globals) (hi : g.idx = []) (hu : g.all_docs = ∅) :
    ∀ (fuel : Nat) (e : Str) (st : List DocSet) (op : Op) (r : DocSet),
      (∀ s ∈ st, s = ∅) → eval_loop g fuel e st op = some r → r = ∅ := by
  intro fuel
  induction fuel with
  | zero => intro e st op r _ h; simp [eval_loop] at h
  | succ n ih =>
    intro e st op r hst h
    cases e with
    | nil =>
      simp only [eval_loop, Option.some.injEq] at h
      subst h
      cases st with
      | nil => rfl
      | cons s rest => exact hst s (by simp)
    | cons c cs =>
      rw [eval_loop] at h
      split_ifs at h with h1 h2 h3 h4 h5 h6
      · exact ih _ _ _ _ hst h
      · dsimp only at h
        cases hin : eval_loop g n (List.take ((scan_paren cs 1 + 2 ^ 64 - 1) % 2 ^ 64) cs) []
            Op.empty with
        | none => rw [hin] at h; simp at h
        | some res =>
          rw [hin] at h
          have hres : res = ∅ := ih _ _ _ _ (by simp) hin
          refine ih _ _ _ _ (apply_op_all_empty g hu _ _ ?_) h
          intro s hs
          rcases List.mem_cons.mp hs with rfl | hs
          · exact hres
          · exact hst s hs
      · exact ih _ _ _ _ (apply_op_all_empty g hu _ _ hst) h
      · exact ih _ _ _ _ (apply_op_all_empty g hu _ _ hst) h
      · exact ih _ _ _ _ hst h
      · exact ih _ _ _ _ (apply_op_all_empty g hu _ _ hst) h
      · refine ih _ _ _ _ (apply_op_all_empty g hu _ _ ?_) h
        intro s hs
        split at hs
        · rcases List.mem_cons.mp hs with rfl | hs
          · rw [hi]; rfl
          · exact hst s hs
        · exact hst s hs

theorem eval_loop_bang_last (g : Globals) (fuel : Nat) (st : List DocSet) (op : Op) :
    eval_loop g (fuel + 1) [33] st op
      = eval_loop g fuel [] (apply_op g st Op.not).1 (apply_op g st Op.not).2 := by
  simp [eval_loop]

/-- C17. With an index of zero documents (no postings, empty universe): every term lookup
returns the empty set, so do the negations "!w" and "w!" of a word, and whatever the
expression, a set returned by `eval` is empty. -/
theorem eval_zero_documents (g : Globals) (hi : g.idx = []) (hu : g.all_docs = ∅)
    (w : Str) (fuel : Nat) (hw : is_word w) (hf : w.length + 1 < fuel)
    (expr : Str) (fuel2 : Nat) (r : DocSet) (hr : eval g fuel2 expr = some r) :
    eval g fuel w = some ∅ ∧ eval g fuel (33 :: w) = some ∅ ∧
    eval g fuel (w ++ [33]) = some ∅ ∧ r = ∅ := by
  have hp : postings g (w.map tolower) = ∅ := by rw [postings, hi]; rfl
  have hne : ∃ c cs, w = c :: cs ∧ isalnum c = true := by
    obtain ⟨h1, h2⟩ := hw
    cases w with
    | nil => exact absurd rfl h1
    | cons c cs =>
      rw [List.all_eq_true] at h2
      exact ⟨c, cs, rfl, h2 c (by simp)⟩
  obtain ⟨m, rfl⟩ : ∃ m, fuel = m + 1 + 1 + 1 := ⟨fuel - 3, by
    have : 0 < w.length := List.length_pos.mpr hw.1
    omega⟩
  refine ⟨?_, ?_, ?_, eval_loop_no_docs g hi hu fuel2 expr [] Op.empty r (by simp) hr⟩
  · rw [eval, eval_loop_word_last g _ w _ _ hw, apply_op_empty, eval_loop_nil, hp]
    rfl
  · obtain ⟨c, cs, rfl, hc⟩ := hne
    rw [eval, eval_loop_bang_skip g _ c cs _ _ (Or.inl hc), eval_loop_word_last g _ _ _ _ hw,
      apply_op_empty, eval_loop_nil, hp]
    rfl
  · have hend : ends_word [33] := by
      intro c hc; simp at hc; subst hc; decide
    rw [eval, eval_loop_word g _ w [33] _ _ hw hend, apply_op_empty, eval_loop_bang_last,
      apply_op_not, eval_loop_nil, hp, hu]
    rfl

/-- Witness for `eval_zero_documents`: over the empty index "cat", "!cat", "cat!" and
"!(cat || dog) && fish" all evaluate to the empty set. -/
theorem eval_zero_documents_witness :
    eval no_docs 6 (ascii "cat") = some ∅ ∧ eval no_docs 6 (ascii "!cat") = some ∅ ∧
    eval no_docs 6 (ascii "cat!") = some ∅ ∧
    eval no_docs 30 (ascii "!(cat || dog) && fish") = some ∅ := by
  have h := eval_zero_documents no_docs rfl rfl (ascii "cat") 6 (by unfold is_word; decide)
    (by decide) (ascii "!(cat || dog) && fish") 30 ∅ (by decide)
  exact ⟨h.1, h.2.1, h.2.2.1, by decide⟩

end BoolSearch

/-! ## Rejected and truncated index files -/

namespace BooleanIndexReader

theorem magic_of_file (r : Reader) (file : List Byte) (h4 : 4 ≤ file.length) :
    header_magic (file.take SIZEOF_FILE_HEADER
        ++ r.header.drop (file.take SIZEOF_FILE_HEADER).length) = file.take 4 := by
  unfold header_magic SIZEOF_FILE_HEADER
  rw [List.take_append_of_le_length (by rw [List.length_take]; omega), List.take_take]
  simp

/-- C18. `load_index` returns failure for every file whose first four bytes are not
"BIND". -/
theorem load_index_bad_magic (r : Reader) (file : List Byte) (h4 : 4 ≤ file.length)
    (hm : file.take 4 ≠ [66, 73, 78, 68]) :
    ∃ r2, load_index r (some file) = some (false, r2) := by
  have := magic_of_file r file h4
  simp only [load_index, this, ne_eq, hm, not_false_eq_true, if_true]
  exact ⟨_, rfl⟩

/-- Witness for `load_index_bad_magic`: the file "JUNKJUNK" is rejected. -/
theorem load_index_bad_magic_witness :
    ∃ r2, load_index (IndexFile.fresh_reader zero_header) (some junk_file) = some (false, r2) :=
  load_index_bad_magic (IndexFile.fresh_reader zero_header) junk_file (by decide) (by decide)

/-- C19, as stated, fails. A reader whose header member holds 36 zero bytes rejects the
file "JUNKJUNK" and afterwards its header member starts with the bytes "JUNKJUNK". -/
theorem rejected_file_overwrites_header :
    load_index ⟨zero_header, [], []⟩ (some junk_file)
      = some (false, ⟨junk_file ++ List.replicate 28 0, [], []⟩) ∧
    junk_file ++ List.replicate 28 0 ≠ zero_header := by
  decide

/-- C19, amended. When `load_index` rejects a file (it returns `false` on a file it could
open), the document list and the term dictionary are exactly as they were before the
call, and the header member holds the first bytes of the file (at most 36) followed by
what it held before at the remaining positions. -/
theorem rejected_file_keeps_lists (r r2 : Reader) (file : List Byte)
    (h : load_index r (some file) = some (false, r2)) :
    r2.documents = r.documents ∧ r2.term_dict = r.term_dict ∧
    r2.header = file.take 36 ++ r.header.drop (file.take 36).length := by
  unfold load_index at h
  dsimp only at h
  by_cases h1 : header_magic (List.take SIZEOF_FILE_HEADER file
      ++ List.drop (List.take SIZEOF_FILE_HEADER file).length r.header) ≠ [66, 73, 78, 68]
  · rw [if_pos h1] at h
    simp only [Option.some.injEq, Prod.mk.injEq, true_and] at h
    subst h
    exact ⟨rfl, rfl, rfl⟩
  · rw [if_neg h1] at h
    by_cases h2 : file.length < SIZEOF_FILE_HEADER
    · rw [if_pos h2] at h
      split_ifs at h
      all_goals simp at h
    · rw [if_neg h2] at h
      split at h
      · simp at h
      · split at h
        · simp at h
        · simp at h

/-- Witness for `rejected_file_keeps_lists`: rejecting "JUNKJUNK". -/
theorem rejected_file_keeps_lists_witness :
    load_index ⟨zero_header, [], []⟩ (some junk_file)
      = some (false, ⟨junk_file ++ List.replicate 28 0, [], []⟩) ∧
    (⟨junk_file ++ List.replicate 28 0, [], []⟩ : Reader).documents = [] :=
  ⟨by decide,
   (rejected_file_keeps_lists ⟨zero_header, [], []⟩ ⟨junk_file ++ List.replicate 28 0, [], []⟩
      junk_file (by decide)).1⟩

end BooleanIndexReader

/-! ## Negation written before and after an operand -/

namespace BoolSearch

theorem eval_loop_none_of_le (g : Globals) (fuel fuel2 : Nat) (e : Str) (st : List DocSet)
    (op : Op) (h : eval_loop g fuel2 e st op = none) (hle : fuel ≤ fuel2) :
    eval_loop g fuel e st op = none := by
  cases hf : eval_loop g fuel e st op with
  | none => rfl
  | some r => rw [eval_loop_mono g fuel e st op r hf fuel2 hle] at h; cases h

theorem eval_loop_zero (g : Globals) (e : Str) (st : List DocSet) (op : Op) :
    eval_loop g 0 e st op = none := by
  cases e <;> rfl

/-- The loop on a word, spaces, a binary operator and spaces in front of `rest`. -/
theorem eval_loop_operand_op (g : Globals) (a : Str) (o : BinOp) (n1 n2 fuel : Nat) (rest : Str)
    (ha : is_word a) :
    eval g (fuel + n1 + n2 + 2) (a ++ spaces n1 ++ o.text ++ spaces n2 ++ rest)
      = eval_loop g fuel rest [postings g (a.map tolower)] o.toOp := by
  have e1 : a ++ spaces n1 ++ o.text ++ spaces n2 ++ rest
      = a ++ (spaces n1 ++ (o.text ++ (spaces n2 ++ rest))) := by simp
  have f1 : fuel + n1 + n2 + 2 = (fuel + n2 + 1 + n1) + 1 := by omega
  rw [eval, e1, f1, eval_loop_word g _ a _ [] Op.empty ha
    (ends_word_spaces_append n1 _ (ends_word_binop o _)), apply_op_empty,
    eval_loop_spaces, eval_loop_binop, apply_op_single, eval_loop_spaces]

/-- C29. A "!" that is immediately followed by an alphanumeric character or by "(" is
never applied: the loop of `eval` steps over it with the stack and the pending operator
unchanged, so evaluating "!" followed by `E` gives what evaluating `E` gives (with one
loop iteration less), also after a word and a pending binary operator, as in "a && !b". -/
theorem eval_bang_not_applied (g : Globals) (c : Byte) (cs : Str)
    (hc : isalnum c = true ∨ c = 40) :
    (∀ fuel, eval g (fuel + 1) (33 :: c :: cs) = eval g fuel (c :: cs)) ∧
    (∀ fuel st op,
      eval_loop g (fuel + 1) (33 :: c :: cs) st op = eval_loop g fuel (c :: cs) st op) ∧
    (∀ (a : Str) (o : BinOp) (n1 n2 fuel : Nat), is_word a →
      eval g (fuel + 1) (a ++ spaces n1 ++ o.text ++ spaces n2 ++ 33 :: c :: cs)
        = eval g fuel (a ++ spaces n1 ++ o.text ++ spaces n2 ++ c :: cs)) := by
  refine ⟨fun fuel => eval_loop_bang_skip g fuel c cs [] Op.empty hc,
    fun fuel st op => eval_loop_bang_skip g fuel c cs st op hc, ?_⟩
  intro a o n1 n2 fuel ha
  by_cases hf : n1 + n2 + 2 ≤ fuel
  · obtain ⟨f, rfl⟩ : ∃ f, fuel = f + n1 + n2 + 2 := ⟨fuel - (n1 + n2 + 2), by omega⟩
    have f1 : f + n1 + n2 + 2 + 1 = (f + 1) + n1 + n2 + 2 := by omega
    rw [f1, eval_loop_operand_op g a o n1 n2 (f + 1) _ ha,
      eval_loop_operand_op g a o n1 n2 f _ ha, eval_loop_bang_skip g f c cs _ _ hc]
  · have h1 := eval_loop_operand_op g a o n1 n2 0 (33 :: c :: cs) ha
    have h2 := eval_loop_operand_op g a o n1 n2 0 (c :: cs) ha
    rw [eval_loop_zero] at h1 h2
    rw [eval, eval, eval_loop_none_of_le g (fuel + 1) _ _ _ _ h1 (by omega),
      eval_loop_none_of_le g fuel _ _ _ _ h2 (by omega)]

theorem eval_bang_not_applied_witness :
    eval abc 4 (ascii "!b") = eval abc 3 (ascii "b") ∧
    eval abc 10 (ascii "a && !b") = eval abc 9 (ascii "a && b") ∧
    eval abc 9 (ascii "a && b") = some {2} :=
  ⟨(eval_bang_not_applied abc 98 [] (Or.inl (by decide))).1 3,
   (eval_bang_not_applied abc 98 [] (Or.inl (by decide))).2.2 (ascii "a") BinOp.and 1 1 9
     (by unfold is_word; decide),
   by decide⟩

end BoolSearch

namespace BoolSearch

theorem eval_loop_bang_apply (g : Globals) (fuel : Nat) (rest : Str) (st : List DocSet) (op : Op)
    (hr : applies_bang rest) :
    eval_loop g (fuel + 1) (33 :: rest) st op
      = eval_loop g fuel rest (apply_op g st Op.not).1 (apply_op g st Op.not).2 := by
  have hn : ¬ (rest ≠ [] ∧ (isalnum (rest.headD 0) = true ∨ rest.headD 0 = 40)) := by
    rintro ⟨hne, h⟩
    cases rest with
    | nil => exact hne rfl
    | cons c cs =>
      have := hr c (by simp)
      simp only [List.headD_cons] at h
      rcases h with h | h
      · rw [this.1] at h; cases h
      · exact this.2 h
  have h2 : (33 :: rest).take 2 ≠ [38, 38] := by
    cases rest <;> simp
  have h3 : (33 :: rest).take 2 ≠ [124, 124] := by
    cases rest <;> simp
  rw [eval_loop]
  simp only [show (33 : Byte) ≠ 32 by decide, show (33 : Byte) ≠ 40 by decide, if_false, h2, h3,
    if_neg hn, if_true]

/-- C30, as stated, fails. With `a:{1,2}`, `b:{2,3}` the expression "&&  a b" evaluates to
`{2}`; with a "!" written after the operator, where the stack is still empty, the result
is `{2,3}`: the "!" has discarded the pending "&&". -/
theorem eval_bang_drops_operator :
    eval abc 12 (ascii "&&  a b") = some {2} ∧
    eval abc 12 (ascii "&& ! a b") = some {2, 3} := by
  decide

/-- C30, amended. A "!" at the end of the expression, or followed by a character that is
neither alphanumeric nor "(", replaces the pending operator: the set on top of the stack
is replaced by its complement in `all_docs` and no operator is pending afterwards.  On an
empty stack the stack stays empty and a pending operator is discarded all the same, so
the "!" changes nothing only when no operator is pending.  For a term `t`, "t!" evaluates
to `all_docs` minus the postings of `t`. -/
theorem eval_postfix_bang (g : Globals) (rest : Str) (hr : applies_bang rest) :
    (∀ fuel s st op,
      eval_loop g (fuel + 1) (33 :: rest) (s :: st) op
        = eval_loop g fuel rest ((g.all_docs \ s) :: st) Op.empty) ∧
    (∀ fuel op, eval_loop g (fuel + 1) (33 :: rest) [] op = eval_loop g fuel rest [] Op.empty) ∧
    (∀ fuel, eval g (fuel + 1) (33 :: rest) = eval g fuel rest) ∧
    (∀ t fuel, is_term t →
      eval g (fuel + 2) (t ++ 33 :: rest) = eval_loop g fuel rest [g.all_docs \ postings g t]
        Op.empty) ∧
    (∀ t fuel, is_term t → eval g (fuel + 3) (t ++ [33]) = some (g.all_docs \ postings g t)) := by
  have hbang : ends_word (33 :: rest) := by
    intro c hc
    simp only [List.head?_cons, Option.mem_def, Option.some.injEq] at hc
    subst hc
    decide
  refine ⟨?_, ?_, ?_, ?_, ?_⟩
  · intro fuel s st op
    rw [eval_loop_bang_apply g fuel rest _ op hr, apply_op_not]
  · intro fuel op
    rw [eval_loop_bang_apply g fuel rest _ op hr]
    rfl
  · intro fuel
    rw [eval, eval_loop_bang_apply g fuel rest _ _ hr]
    rfl
  · intro t fuel ht
    rw [eval, eval_loop_word g (fuel + 1) t _ [] Op.empty ht.1 hbang, apply_op_empty, ht.2,
      eval_loop_bang_apply g fuel rest _ _ hr, apply_op_not]
  · intro t fuel ht
    have hb : ends_word [33] := by
      intro c hc
      simp only [List.head?_cons, Option.mem_def, Option.some.injEq] at hc
      subst hc
      decide
    rw [eval, eval_loop_word g (fuel + 2) t _ [] Op.empty ht.1 hb, apply_op_empty, ht.2,
      eval_loop_bang_last, apply_op_not, eval_loop_nil]
    rfl

theorem eval_postfix_bang_witness :
    eval abc 5 (ascii "a!") = some (abc.all_docs \ postings abc (ascii "a")) ∧
    abc.all_docs \ postings abc (ascii "a") = {3, 4} ∧
    eval abc 6 (ascii "! a") = eval abc 5 (ascii " a") :=
  ⟨(eval_postfix_bang abc [] (by intro c hc; cases hc)).2.2.2.2 (ascii "a") 2
     ⟨by unfold is_word; decide, by decide⟩,
   by decide,
   (eval_postfix_bang abc (ascii " a") (by
     intro c hc
     have : c = 32 := by
       have h : (ascii " a").head? = some 32 := by decide
       rw [h] at hc
       exact (Option.some.inj hc).symm
     subst this
     decide)).2.2.1 5⟩

end BoolSearch

/-! ## The sorted term list and unreadable documents -/

namespace BooleanIndexBuilder

theorem str_lt_irrefl : ∀ a : Str, str_lt a a = false
  | [] => rfl
  | a :: as => by
    rw [str_lt]
    simp [str_lt_irrefl as]

theorem str_lt_asymm : ∀ a b : Str, str_lt a b = true → str_lt b a = false
  | [], [], h => by simp [str_lt] at h
  | [], _ :: _, _ => by simp [str_lt]
  | _ :: _, [], h => by simp [str_lt] at h
  | a :: as, b :: bs, h => by
    rw [str_lt] at h ⊢
    by_cases h1 : a.val < b.val
    · have h2 : ¬ b.val < a.val := by omega
      simp [h1, h2]
    · by_cases h2 : b.val < a.val
      · simp [h1, h2] at h
      · simp only [h1, h2, if_false] at h ⊢
        exact str_lt_asymm as bs h

theorem str_lt_connex : ∀ a b : Str, str_lt a b = false → str_lt b a = false → a = b
  | [], [], _, _ => rfl
  | [], _ :: _, h, _ => by simp [str_lt] at h
  | _ :: _, [], _, h => by simp [str_lt] at h
  | a :: as, b :: bs, h, h' => by
    rw [str_lt] at h h'
    by_cases h1 : a.val < b.val
    · simp [h1] at h
    · by_cases h2 : b.val < a.val
      · simp [h2] at h'
      · simp only [h1, h2, if_false] at h h'
        have e : a = b := Fin.ext (by omega)
        rw [e, str_lt_connex as bs h h']

theorem str_lt_trans : ∀ a b c : Str, str_lt a b = true → str_lt b c = true → str_lt a c = true
  | [], [], _, h, _ => by simp [str_lt] at h
  | [], _ :: _, [], _, h => by simp [str_lt] at h
  | [], _ :: _, _ :: _, _, _ => by simp [str_lt]
  | _ :: _, [], _, h, _ => by simp [str_lt] at h
  | _ :: _, _ :: _, [], _, h => by simp [str_lt] at h
  | a :: as, b :: bs, c :: cs, h, h' => by
    rw [str_lt] at h h' ⊢
    by_cases h1 : a.val < b.val
    · by_cases h2 : b.val < c.val
      · have : a.val < c.val := by omega
        simp [this]
      · by_cases h3 : c.val < b.val
        · simp [h2, h3] at h'
        · have : a.val < c.val := by omega
          simp [this]
    · by_cases h1' : b.val < a.val
      · simp [h1, h1'] at h
      · simp only [h1, h1', if_false] at h
        by_cases h2 : b.val < c.val
        · have : a.val < c.val := by omega
          simp [this]
        · by_cases h3 : c.val < b.val
          · simp [h2, h3] at h'
          · simp only [h2, h3, if_false] at h'
            have e1 : ¬ a.val < c.val := by omega
            have e2 : ¬ c.val < a.val := by omega
            simp only [e1, e2, if_false]
            exact str_lt_trans as bs cs h h'

/-- The order that `std::sort` leaves between neighbours: not `b < a`. -/
theorem sort_terms_sorted (l : List Str) :
    (sort_terms l).Pairwise (fun a b => str_lt b a = false) := by
  haveI : IsTotal Str (fun a b => str_lt b a = false) := ⟨fun a b => by
    cases h : str_lt b a with
    | false => exact Or.inl rfl
    | true => exact Or.inr (str_lt_asymm b a h)⟩
  haveI : IsTrans Str (fun a b => str_lt b a = false) := ⟨fun a b c hab hbc => by
    cases hca : str_lt c a with
    | false => rfl
    | true =>
      cases hab2 : str_lt a b with
      | true => rw [str_lt_trans c a b hca hab2] at hbc; cases hbc
      | false =>
        have e : a = b := str_lt_connex a b hab2 hab
        subst e
        rw [hca] at hbc; cases hbc⟩
  exact List.sorted_insertionSort (fun a b : Str => str_lt b a = false) l

theorem sort_terms_perm (l : List Str) : (sort_terms l).Perm l := List.perm_insertionSort _ l

theorem sort_terms_strict (l : List Str) (h : l.Nodup) :
    (sort_terms l).Pairwise (fun a b => str_lt a b = true) := by
  have hs := sort_terms_sorted l
  have hn : (sort_terms l).Nodup := (sort_terms_perm l).nodup_iff.mpr h
  refine (hs.and hn).imp ?_
  intro a b hab
  cases hlt : str_lt a b with
  | true => rfl
  | false => exact absurd (str_lt_connex a b hlt hab.1) hab.2

theorem foldl_add_posting_nodup (doc_id : Nat) :
    ∀ (counts : UMap Nat) (ti : UMap TermInfo), (mapKeys ti).Nodup →
      (mapKeys (counts.foldl (add_posting doc_id) ti)).Nodup := by
  intro counts
  induction counts with
  | nil => intro ti h; exact h
  | cons p ps ih =>
    intro ti h
    rw [List.foldl_cons]
    exact ih _ (mapKeys_upsert_nodup ti p.1 _ h)

theorem process_document_nodup (b : Builder) (doc_id : Nat) (c : Option Str)
    (h : (mapKeys b.term_index).Nodup) :
    (mapKeys (process_document b doc_id c).2.term_index).Nodup := by
  unfold process_document
  split
  · exact h
  · split
    · exact h
    · exact foldl_add_posting_nodup doc_id _ _ h

theorem process_all_nodup :
    ∀ (contents : List (Option Str)) (b : Builder) (d : Nat), (mapKeys b.term_index).Nodup →
      (mapKeys (process_all b contents d).term_index).Nodup := by
  intro contents
  induction contents with
  | nil => intro b d h; exact h
  | cons c cs ih =>
    intro b d h
    rw [process_all]
    exact ih _ _ (process_document_nodup b d c h)

theorem process_document_sorted_terms (b : Builder) (doc_id : Nat) (c : Option Str) :
    (process_document b doc_id c).2.sorted_terms = b.sorted_terms := by
  unfold process_document
  split
  · rfl
  · split <;> rfl

theorem process_all_sorted_terms :
    ∀ (contents : List (Option Str)) (b : Builder) (d : Nat),
      (process_all b contents d).sorted_terms = b.sorted_terms := by
  intro contents
  induction contents with
  | nil => intro b d; rfl
  | cons c cs ih =>
    intro b d
    rw [process_all, ih, process_document_sorted_terms]

theorem built_keys_nodup (files : List CorpusFile) : (mapKeys (built files).term_index).Nodup := by
  unfold built
  rw [prepare_keys]
  exact process_all_nodup _ _ _ (by simp [scan_directory, Builder.fresh, mapKeys])

theorem built_sorted_eq (files : List CorpusFile) :
    (built files).sorted_terms = sort_terms (mapKeys (built files).term_index) := by
  unfold built
  rw [prepare_sorted_terms, prepare_keys, process_all_sorted_terms]
  rfl

theorem built_sorted_strict (files : List CorpusFile) :
    (built files).sorted_terms.Pairwise (fun a b => str_lt a b = true) := by
  rw [built_sorted_eq]
  exact sort_terms_strict _ (built_keys_nodup files)

end BooleanIndexBuilder

namespace BooleanIndexBuilder

theorem list_set_self {α : Type} : ∀ (l : List α) (k : Nat) (x : α), l[k]? = some x → l.set k x = l
  | [], _, _, _ => rfl
  | a :: as, 0, x, h => by
    simp only [List.getElem?_cons_zero, Option.some.injEq] at h
    rw [List.set_cons_zero, h]
  | a :: as, k + 1, x, h => by
    simp only [List.getElem?_cons_succ] at h
    rw [List.set_cons_succ, list_set_self as k x h]

/-- Processing a readable document without bytes leaves the builder as it was. -/
theorem process_document_empty (b : Builder) (k : Nat) :
    (process_document b k (some [])).2 = b := by
  unfold process_document
  cases hd : b.documents.get? k with
  | none => rfl
  | some doc =>
    have hs : scan_content ⟨[], false, [], b.stats.total_tokens, doc.token_count⟩ []
        = ⟨[], false, [], b.stats.total_tokens, doc.token_count⟩ := by
      simp [scan_content]
    simp only [hs, List.foldl_nil, List.length_nil, Nat.add_zero]
    have hd2 : b.documents[k]? = some doc := by rw [← List.get?_eq_getElem?]; exact hd
    rw [list_set_self b.documents k doc hd2]

theorem process_document_none (b : Builder) (k : Nat) : (process_document b k none).2 = b := by
  unfold process_document
  cases b.documents.get? k <;> rfl

theorem process_all_set_empty :
    ∀ (cs : List (Option Str)) (b : Builder) (d j : Nat), cs[j]? = some none →
      process_all b (cs.set j (some [])) d = process_all b cs d
  | [], _, _, _, h => by simp at h
  | c :: cs, b, d, 0, h => by
    simp only [List.getElem?_cons_zero, Option.some.injEq] at h
    subst h
    rw [List.set_cons_zero, process_all, process_all, process_document_empty b d,
      process_document_none]
  | c :: cs, b, d, j + 1, h => by
    simp only [List.getElem?_cons_succ] at h
    rw [List.set_cons_succ, process_all, process_all, process_all_set_empty cs _ _ j h]

theorem map_set_same {α β : Type} (g : α → β) :
    ∀ (l : List α) (k : Nat) (x y : α), l[k]? = some x → g y = g x →
      (l.set k y).map g = l.map g
  | [], _, _, _, _, _ => rfl
  | a :: as, 0, x, y, h, hg => by
    simp only [List.getElem?_cons_zero, Option.some.injEq] at h
    rw [List.set_cons_zero, List.map_cons, List.map_cons, hg, h]
  | a :: as, k + 1, x, y, h, hg => by
    simp only [List.getElem?_cons_succ] at h
    rw [List.set_cons_succ, List.map_cons, List.map_cons, map_set_same g as k x y h hg]

theorem process_document_doc_other (b : Builder) (d : Nat) (c : Option Str) (k : Nat)
    (h : d ≠ k ∨ c = none) :
    (process_document b d c).2.documents[k]? = b.documents[k]? := by
  unfold process_document
  cases hd : b.documents.get? d with
  | none => rfl
  | some doc =>
    cases c with
    | none => rfl
    | some bytes =>
      rcases h with h | h
      · simp only
        rw [List.getElem?_set_ne h]
      · cases h

theorem process_all_doc (k : Nat) :
    ∀ (cs : List (Option Str)) (b : Builder) (d : Nat),
      (∀ i, d + i = k → cs[i]? = some none ∨ cs[i]? = none) →
      (process_all b cs d).documents[k]? = b.documents[k]? := by
  intro cs
  induction cs with
  | nil => intro b d _; rfl
  | cons c cs ih =>
    intro b d h
    rw [process_all, ih]
    · apply process_document_doc_other
      by_cases hdk : d = k
      · right
        have := h 0 (by omega)
        simpa using this
      · exact Or.inl hdk
    · intro i hi
      have := h (i + 1) (by omega)
      simpa using this

theorem built_set_empty (files : List CorpusFile) (k : Nat) (f : CorpusFile)
    (hk : files[k]? = some f) (hn : f.content = none) :
    built (files.set k { f with content := some [] }) = built files := by
  have hm : (files.set k { f with content := some [] }).map (fun f =>
      ({ title := f.title, path := f.path, file_size := f.file_size, token_count := 0 } : Document))
      = files.map (fun f =>
      ({ title := f.title, path := f.path, file_size := f.file_size, token_count := 0 } : Document)) :=
    map_set_same _ files k f _ hk rfl
  have hs : scan_directory Builder.fresh (files.set k { f with content := some [] })
      = scan_directory Builder.fresh files := by
    simp only [scan_directory, hm]
  have hc : (files.set k { f with content := some [] }).map (fun f => f.content)
      = (files.map (fun f => f.content)).set k (some []) := by
    rw [List.map_set]
  have hg : (files.map (fun f => f.content))[k]? = some none := by
    rw [List.getElem?_map, hk, Option.map_some', hn]
  unfold built
  rw [hs, hc, process_all_set_empty _ _ _ _ hg]

/-- C28. A document `k` that cannot be opened is skipped: `build_index` ends as it does
when document `k` is readable and empty (it succeeds whenever the scan found fewer than
`2^32` files), and the builder it leaves is the same in both cases, so every other
document has the same id and the same postings.  The document table has all `N`
entries, entry `k` has `token_count = 0`, and `k` is in no posting list. -/
theorem unreadable_document_skipped (files : List CorpusFile) (k : Nat) (f : CorpusFile)
    (hk : files[k]? = some f) (hn : f.content = none) :
    build_index files = build_index (files.set k { f with content := some [] }) ∧
    (files.length < 2 ^ 32 → ∃ b, build_index files = some b) ∧
    ∀ b, build_index files = some b →
      b.documents.length = files.length ∧
      b.documents[k]? = some ⟨f.title, f.path, f.file_size, 0⟩ ∧
      ∀ t info, mapFind b.term_index t = some info → k ∉ info.doc_ids := by
  have hklt : k < files.length := by
    by_contra hc
    rw [List.getElem?_eq_none (by omega)] at hk
    cases hk
  have hg : (files.map (fun f => f.content))[k]? = some none := by
    rw [List.getElem?_map, hk, Option.map_some', hn]
  have hdir : ∀ fs : List CorpusFile, (scan_directory Builder.fresh fs).1 = decide (fs.length > 0) := by
    intro fs
    simp [scan_directory, Builder.fresh]
  refine ⟨?_, ?_, ?_⟩
  · unfold build_index
    rw [built_set_empty files k f hk hn, hdir, hdir, List.length_set]
  · intro hN
    refine ⟨built files, ?_⟩
    unfold build_index
    rw [hdir, if_neg (by simp only [decide_eq_false_iff_not, not_not]; omega), if_neg (by omega)]
  · intro b hb
    obtain ⟨rfl, _⟩ := build_index_some files b hb
    have hdocs : (built files).documents
        = (process_all (scan_directory Builder.fresh files).2
            (files.map (fun f => f.content)) 0).documents := rfl
    refine ⟨?_, ?_, ?_⟩
    · rw [hdocs, process_all_length]
      simp [scan_directory, Builder.fresh]
    · rw [hdocs, process_all_doc k]
      · simp [scan_directory, Builder.fresh, List.getElem?_map, hk]
      · intro i hi
        have : i = k := by omega
        subst this
        exact Or.inl hg
    · intro t info hf hmem
      rw [built_find] at hf
      split at hf
      · cases hf
      · simp only [Option.some.injEq] at hf
        subst hf
        simp only at hmem
        rw [mem_prepared_ids] at hmem
        obtain ⟨i, c, hx, hc, ht⟩ := (mem_spec_ids t _ 0 k).mp hmem
        have : i = k := by omega
        subst this
        rw [hg] at hc
        simp only [Option.some.injEq] at hc
        subst hc
        simp [doc_tokens] at ht

set_option maxRecDepth 100000 in
theorem unreadable_document_skipped_witness :
    build_index gap_corpus = some (built gap_corpus) ∧
    (built gap_corpus).documents.length = 3 ∧
    (built gap_corpus).documents[1]? = some ⟨ascii "d1", ascii "d1.txt", 8, 0⟩ ∧
    (∀ t info, mapFind (built gap_corpus).term_index t = some info → 1 ∉ info.doc_ids) ∧
    mapFind (built gap_corpus).term_index (ascii "cat") = some ⟨[0, 2], 2⟩ :=
  ⟨by decide,
   ((unreadable_document_skipped gap_corpus 1 ⟨ascii "d1.txt", ascii "d1", 8, none⟩ rfl rfl).2.2
      (built gap_corpus) (by decide)).1,
   ((unreadable_document_skipped gap_corpus 1 ⟨ascii "d1.txt", ascii "d1", 8, none⟩ rfl rfl).2.2
      (built gap_corpus) (by decide)).2.1,
   ((unreadable_document_skipped gap_corpus 1 ⟨ascii "d1.txt", ascii "d1", 8, none⟩ rfl rfl).2.2
      (built gap_corpus) (by decide)).2.2,
   by decide⟩

end BooleanIndexBuilder

/-! ## Header, dictionary and posting offsets of the index file -/

namespace IndexFile
open BooleanIndexBuilder BooleanIndexReader

theorem write_file_header_length (b : Builder) : (write_file_header b []).length = 36 := by
  simp [write_file_header, FILE_MAGIC, u32le_length]

set_option maxRecDepth 100000 in
/-- C21, as stated, fails. In the index file of the three-document corpus the header
written by `write_file_header` is 36 bytes long, the stored `doc_table_offset` is 36 and
not 32, bytes 32..35 hold the `file_size` field (222, the length of the file), and the
first document record (title length 2) starts at byte 36. -/
theorem header_is_not_32_bytes :
    save_index (built pets_corpus) = some pets_file ∧
    (write_file_header (built pets_corpus) []).length = 36 ∧
    header_doc_table_offset pets_file = 36 ∧
    (pets_file.drop 32).take 4 = u32le 222 ∧
    (pets_file.drop 36).take 6 = u32le 2 ++ ascii "d0" := by
  decide

/-- C21, amended. The header that `save_index` writes occupies exactly 36 bytes: "BIND",
`version`, `doc_count`, `term_count` and five more 32-bit fields, the last being
`file_size` at bytes 32..35.  The document table starts at byte 36, and the stored
`doc_table_offset` is 36. -/
theorem header_occupies_36_bytes (b : Builder) (file : List Byte)
    (h : save_index b = some file) :
    (write_file_header b []).length = 36 ∧
    (write_document_table b (write_file_header b [])).2 = 36 ∧
    header_doc_table_offset file = 36 ∧
    (∃ rest, file.drop 36 = write_documents b.documents ++ rest) ∧
    (file.drop 32).take 4 = u32le (file.length % 2 ^ 32) := by
  obtain ⟨offs, dict, posts, _, _, _, hfile⟩ := save_index_layout b file h
  have hl := write_file_header_length b
  have hlen : file.length
      = 36 + (write_documents b.documents).length + dict.length + posts.length := by
    rw [hfile]
    simp only [List.length_append, header_bytes_length]
    omega
  refine ⟨hl, ?_, ?_, ?_, ?_⟩
  · simp only [write_document_table, hl]
  · rw [hfile]
    exact (header_fields b 36 _ _ _).2.2.2.1
  · refine ⟨dict ++ posts, ?_⟩
    rw [hfile]
    exact List.drop_left' (header_bytes_length b _ _ _)
  · rw [hlen, hfile]
    rfl

set_option maxRecDepth 100000 in
theorem header_occupies_36_bytes_witness :
    save_index (built pets_corpus) = some pets_file ∧
    header_doc_table_offset pets_file = 36 ∧
    (∃ rest, pets_file.drop 36 = write_documents (built pets_corpus).documents ++ rest) :=
  ⟨by decide,
   (header_occupies_36_bytes (built pets_corpus) pets_file (by decide)).2.2.1,
   (header_occupies_36_bytes (built pets_corpus) pets_file (by decide)).2.2.2.1⟩

end IndexFile

namespace BooleanIndexBuilder

theorem numbered_corpus_length (n : Nat) : (numbered_corpus n).length = n := by
  simp [numbered_corpus]

theorem numbered_corpus_contents (n : Nat) :
    (numbered_corpus n).map (fun f => f.content) = List.replicate n (some (ascii "ab ")) := by
  simp only [numbered_corpus, List.map_map]
  have : ((fun f : CorpusFile => f.content) ∘ fun i =>
      (⟨doc_name i ++ ascii ".txt", doc_name i, 3, some (ascii "ab ")⟩ : CorpusFile))
      = fun _ => some (ascii "ab ") := rfl
  rw [this, List.map_const', List.length_range]

theorem doc_tokens_ab : doc_tokens (some (ascii "ab ")) = [ascii "ab"] := by decide

theorem spec_ids_replicate (t : Str) (c : Option Str) :
    ∀ (n d : Nat), spec_ids t (List.replicate n c) d
      = if t ∈ doc_tokens c then List.range' d n else []
  | 0, d => by simp [spec_ids]
  | n + 1, d => by
    rw [List.replicate_succ, spec_ids, spec_ids_replicate t c n (d + 1)]
    by_cases h : t ∈ doc_tokens c
    · simp only [h, if_true, List.range'_succ]
    · simp only [h, if_false]

theorem spec_total_replicate (t : Str) (c : Option Str) :
    ∀ n : Nat, spec_total t (List.replicate n c) = n * ((doc_tokens c).count t % 2 ^ 32)
  | 0 => by simp [spec_total]
  | n + 1 => by
    rw [List.replicate_succ, spec_total, spec_total_replicate t c n]
    ring

theorem unique_of_strict : ∀ l : List Nat, l.Pairwise (fun a b => a < b) → unique l = l
  | [], _ => rfl
  | [_], _ => rfl
  | a :: b :: rest, h => by
    have hab : a < b := (List.pairwise_cons.mp h).1 b (by simp)
    rw [unique, if_neg (by omega), unique_of_strict (b :: rest) (List.pairwise_cons.mp h).2]

theorem prepared_range (d n : Nat) : unique (sort_ids (List.range' d n)) = List.range' d n := by
  have hs : (List.range' d n).Pairwise (fun a b => a < b) := by
    simpa using List.pairwise_lt_range' d n
  have hle : (List.range' d n).Sorted (fun a b => a ≤ b) := hs.imp (fun h => Nat.le_of_lt h)
  rw [sort_ids, List.Sorted.insertionSort_eq hle, unique_of_strict _ hs]

theorem eq_singleton_of_nodup {α : Type} (a : α) :
    ∀ l : List α, l.Nodup → (∀ t, t ∈ l ↔ t = a) → l = [a]
  | [], _, h => by have := (h a).mpr rfl; simp at this
  | [x], _, h => by rw [(h x).mp (by simp)]
  | x :: y :: rest, hn, h => by
    have hx := (h x).mp (by simp)
    have hy := (h y).mp (by simp)
    rw [hx, hy] at hn
    simp at hn

end BooleanIndexBuilder

namespace BooleanIndexBuilder

theorem build_index_of_length (files : List CorpusFile) (h0 : 0 < files.length)
    (h1 : files.length < 2 ^ 32) : build_index files = some (built files) := by
  have hdir : (scan_directory Builder.fresh files).1 = decide (files.length > 0) := by
    simp [scan_directory, Builder.fresh]
  unfold build_index
  rw [hdir, if_neg (by simp only [decide_eq_false_iff_not, not_not]; omega), if_neg (by omega)]

theorem built_documents_length (files : List CorpusFile) :
    (built files).documents.length = files.length := by
  have hdocs : (built files).documents
      = (process_all (scan_directory Builder.fresh files).2
          (files.map (fun f => f.content)) 0).documents := rfl
  rw [hdocs, process_all_length]
  simp [scan_directory, Builder.fresh]

/-- The index built from `n` documents that each hold "ab ". -/
theorem numbered_built (n : Nat) (hn : 0 < n) :
    (built (numbered_corpus n)).sorted_terms = [ascii "ab"] ∧
    mapFind (built (numbered_corpus n)).term_index (ascii "ab") = some ⟨List.range' 0 n, n⟩ := by
  have hfind : ∀ t, mapFind (built (numbered_corpus n)).term_index t
      = if t = ascii "ab" then some ⟨List.range' 0 n, n⟩ else none := by
    intro t
    rw [built_find, numbered_corpus_contents, spec_ids_replicate, spec_total_replicate,
      doc_tokens_ab]
    by_cases ht : t = ascii "ab"
    · subst ht
      have hne : List.range' 0 n ≠ [] := by
        intro h
        have := congrArg List.length h
        simp at this
        omega
      simp only [List.mem_singleton, if_true, hne, if_false, prepared_range]
      have hc : List.count (ascii "ab") [ascii "ab"] = 1 := by decide
      rw [hc]
      norm_num
    · simp [ht]
  refine ⟨?_, by rw [hfind, if_pos rfl]⟩
  apply eq_singleton_of_nodup
  · exact (built_sorted_strict (numbered_corpus n)).imp (fun {a b} h e => by
      subst e
      rw [str_lt_irrefl] at h
      cases h)
  · intro t
    rw [built_sorted_terms, hfind]
    by_cases ht : t = ascii "ab" <;> simp [ht]

theorem numbered_dictionary (n : Nat) (hn : 0 < n) (out : List Byte) :
    write_term_dictionary (built (numbered_corpus n)) out
      = some (out ++ write_term (ascii "ab") ⟨List.range' 0 n, n⟩ 0, out.length) := by
  obtain ⟨hs, hf⟩ := numbered_built n hn
  unfold write_term_dictionary
  rw [hs]
  simp only [posting_offsets, hf, write_terms, List.append_nil]

end BooleanIndexBuilder

namespace BooleanIndexBuilder

theorem write_term_crowded (ids : List Nat) (h : ids.length = 2 ^ 30) :
    write_term (ascii "ab") ⟨ids, 2 ^ 30⟩ 0
      = u16le 2 ++ ascii "ab" ++ u32le 0 ++ u32le 4 ++ u32le (2 ^ 30) := by
  have h1 : (ascii "ab").length % 2 ^ 16 = 2 := by decide
  have h2 : (ascii "ab").take 2 = ascii "ab" := by decide
  have h3 : list_size ⟨ids, 2 ^ 30⟩ = 4 := by
    unfold list_size
    rw [h]
    norm_num
  have h4 : (2 : Nat) ^ 30 % 2 ^ 32 = 2 ^ 30 := by norm_num
  unfold write_term
  simp only [h1, h2, h3, h4]

theorem doc_ids_of_some (b : Builder) (t : Str) (info : TermInfo)
    (h : mapFind b.term_index t = some info) : doc_ids_of b t = info.doc_ids := by
  unfold doc_ids_of
  rw [h]

theorem numbered_build (n : Nat) (h0 : 0 < n) (h1 : n < 2 ^ 32) :
    build_index (numbered_corpus n) = some (built (numbered_corpus n)) :=
  build_index_of_length _ (by rw [numbered_corpus_length]; exact h0)
    (by rw [numbered_corpus_length]; exact h1)

theorem numbered_doc_ids (n : Nat) (hn : 0 < n) :
    (doc_ids_of (built (numbered_corpus n)) (ascii "ab")).length = n := by
  rw [doc_ids_of_some _ _ _ (numbered_built n hn).2]
  exact List.length_range' _ _ _

end BooleanIndexBuilder

namespace IndexFile
open BooleanIndexBuilder BooleanIndexReader

/-- The offsets that the first loop of `write_term_dictionary` computes are the prefix
sums of the posting-list sizes, as long as the sizes add up to less than `2^32`. -/
theorem posting_offsets_sum (b : Builder) :
    ∀ (terms : List Str) (cur : Nat) (offs : List Nat),
      posting_offsets b.term_index terms cur = some offs →
      cur + (terms.map (fun u => 4 + 4 * (doc_ids_of b u).length)).sum < 2 ^ 32 →
      ∀ (i : Nat) (t : Str), terms[i]? = some t →
        ∃ info, mapFind b.term_index t = some info ∧
          offs[i]? = some (cur
            + ((terms.take i).map (fun u => 4 + 4 * (doc_ids_of b u).length)).sum) ∧
          list_size info = 4 + 4 * (doc_ids_of b t).length := by
  intro terms
  induction terms with
  | nil => intro cur offs _ _ i t hi; simp at hi
  | cons t0 ts ih =>
    intro cur offs ho hlt i t hi
    rw [posting_offsets] at ho
    cases hf : mapFind b.term_index t0 with
    | none => rw [hf] at ho; simp at ho
    | some info =>
      rw [hf] at ho
      dsimp only at ho
      cases ho2 : posting_offsets b.term_index ts ((cur + list_size info) % 2 ^ 32) with
      | none => rw [ho2] at ho; simp at ho
      | some offs1 =>
        rw [ho2] at ho
        simp only [Option.some.injEq] at ho
        subst ho
        have hd0 : doc_ids_of b t0 = info.doc_ids := by simp [doc_ids_of, hf]
        simp only [List.map_cons, List.sum_cons, hd0] at hlt
        have hls : list_size info = 4 + 4 * info.doc_ids.length := by
          unfold list_size
          rw [Nat.mod_eq_of_lt (show info.doc_ids.length < 2 ^ 32 by omega),
            Nat.mod_eq_of_lt (by omega)]
          omega
        cases i with
        | zero =>
          simp only [List.getElem?_cons_zero, Option.some.injEq] at hi
          subst hi
          exact ⟨info, hf, by simp, by rw [hd0, hls]⟩
        | succ j =>
          simp only [List.getElem?_cons_succ] at hi
          rw [hls, Nat.mod_eq_of_lt (by omega)] at ho2
          obtain ⟨info2, h1, h2, h3⟩ := ih _ offs1 ho2 (by omega) j t hi
          refine ⟨info2, h1, ?_, h3⟩
          simp only [List.getElem?_cons_succ, h2, List.take_succ_cons, List.map_cons,
            List.sum_cons, hd0, Option.some.injEq]
          omega

end IndexFile

namespace IndexFile
open BooleanIndexBuilder BooleanIndexReader

/-- C24, as stated, fails. In the index built from `2^30` documents that all contain
"ab" the posting list of "ab" has `2^30` doc ids, and the only dictionary record that
`write_term_dictionary` writes stores `posting_size = 4`, not `4 + 4 * 2^30`. -/
theorem posting_size_wraps :
    build_index crowded_corpus = some (built crowded_corpus) ∧
    (built crowded_corpus).sorted_terms = [ascii "ab"] ∧
    (doc_ids_of (built crowded_corpus) (ascii "ab")).length = 2 ^ 30 ∧
    write_term_dictionary (built crowded_corpus) []
      = some (u16le 2 ++ ascii "ab" ++ u32le 0 ++ u32le 4 ++ u32le (2 ^ 30), 0) := by
  have hn : 0 < 2 ^ 30 := by norm_num
  refine ⟨numbered_build (2 ^ 30) hn (by norm_num), (numbered_built (2 ^ 30) hn).1,
    numbered_doc_ids (2 ^ 30) hn, ?_⟩
  unfold crowded_corpus
  rw [numbered_dictionary (2 ^ 30) hn [],
    write_term_crowded _ (List.length_range' _ _ _)]
  rfl

end IndexFile

namespace IndexFile
open BooleanIndexBuilder BooleanIndexReader

/-- C24, amended. When the sizes `4 + 4 * |doc_ids(t)|` of all posting lists add up to
less than `2^32`, the record that `write_term_dictionary` writes for the `i`-th term of
`sorted_terms` (as read back by the reader) stores as `posting_offset` the sum of
`4 + 4 * |doc_ids(t_j)|` over the earlier terms `j < i`, an offset relative to the start
of the posting section and 0 for the first term, and as `posting_size` the number
`4 + 4 * |doc_ids(t_i)|`. -/
theorem dictionary_posting_offsets (b : Builder) (out : List Byte) (res : List Byte × Nat)
    (h : write_term_dictionary b out = some res)
    (hsz : (b.sorted_terms.map (fun u => 4 + 4 * (doc_ids_of b u).length)).sum < 2 ^ 32) :
    ∃ entries,
      (∀ rest, read_terms b.sorted_terms.length (res.1.drop out.length ++ rest)
        = some (entries, rest)) ∧
      ∀ (i : Nat) (t : Str), b.sorted_terms[i]? = some t →
        ∃ e, entries[i]? = some e ∧
          e.posting_offset
            = ((b.sorted_terms.take i).map (fun u => 4 + 4 * (doc_ids_of b u).length)).sum ∧
          e.posting_size = 4 + 4 * (doc_ids_of b t).length := by
  unfold write_term_dictionary at h
  cases ho : posting_offsets b.term_index b.sorted_terms 0 with
  | none => rw [ho] at h; simp at h
  | some offs =>
    rw [ho] at h
    dsimp only at h
    cases hd : write_terms b.term_index b.sorted_terms offs with
    | none => rw [hd] at h; simp at h
    | some dict =>
      rw [hd] at h
      simp only [Option.some.injEq] at h
      subst h
      have hol := posting_offsets_length _ _ _ _ ho
      refine ⟨term_entries b.term_index b.sorted_terms offs, ?_, ?_⟩
      · intro rest
        rw [List.drop_left]
        exact read_terms_write b.term_index b.sorted_terms offs dict rest hol.symm hd
      · intro i t hi
        obtain ⟨info, hf, hoi, hls⟩ :=
          posting_offsets_sum b b.sorted_terms 0 offs ho (by omega) i t hi
        rw [Nat.zero_add] at hoi
        refine ⟨_, term_entries_get b.term_index b.sorted_terms offs i t _ hi hoi, ?_, ?_⟩
        · simp only [term_entry]
          apply Nat.mod_eq_of_lt
          have hle : ((b.sorted_terms.take i).map
              (fun u => 4 + 4 * (doc_ids_of b u).length)).sum
              ≤ (b.sorted_terms.map (fun u => 4 + 4 * (doc_ids_of b u).length)).sum := by
            conv_rhs => rw [← List.take_append_drop i b.sorted_terms]
            rw [List.map_append, List.sum_append]
            omega
          omega
        · simp only [term_entry, hf, Option.getD_some, hls]

end IndexFile

namespace IndexFile
open BooleanIndexBuilder BooleanIndexReader

set_option maxRecDepth 100000 in
theorem dictionary_posting_offsets_witness :
    write_term_dictionary (built pets_corpus) [] = some ((pets_file.drop 108).take 70, 0) ∧
    ∃ entries,
      (∀ rest, read_terms 4 ((pets_file.drop 108).take 70 ++ rest) = some (entries, rest)) ∧
      ∀ (i : Nat) (t : Str), (built pets_corpus).sorted_terms[i]? = some t →
        ∃ e, entries[i]? = some e ∧
          e.posting_offset = (((built pets_corpus).sorted_terms.take i).map
            (fun u => 4 + 4 * (doc_ids_of (built pets_corpus) u).length)).sum ∧
          e.posting_size = 4 + 4 * (doc_ids_of (built pets_corpus) t).length :=
  ⟨by decide,
   dictionary_posting_offsets (built pets_corpus) [] ((pets_file.drop 108).take 70, 0)
     (by decide) (by decide)⟩

end IndexFile

namespace IndexFile
open BooleanIndexBuilder BooleanIndexReader

theorem save_index_length (b : Builder) (file : List Byte) (h : save_index b = some file) :
    16 * b.documents.length + 36 ≤ file.length ∧
    header_file_size file = file.length % 2 ^ 32 := by
  obtain ⟨offs, dict, posts, _, _, _, hfile⟩ := save_index_layout b file h
  have hlen : file.length
      = 36 + (write_documents b.documents).length + dict.length + posts.length := by
    rw [hfile]
    simp only [List.length_append, header_bytes_length]
    omega
  have h1 := write_documents_length b.documents
  refine ⟨by omega, ?_⟩
  rw [hlen, hfile]
  exact (header_fields b 36 _ _ _).2.2.2.2.2.2

theorem numbered_file_length (n : Nat) :
    ∃ file, save_index (built (numbered_corpus n)) = some file ∧
      16 * n + 36 ≤ file.length ∧ header_file_size file = file.length % 2 ^ 32 := by
  obtain ⟨file, hs⟩ := save_index_built (numbered_corpus n)
  obtain ⟨h1, h2⟩ := save_index_length _ file hs
  rw [built_documents_length, numbered_corpus_length] at h1
  exact ⟨file, hs, h1, h2⟩

/-- C25, as stated, fails. The index built from `2^30` documents is saved to a file of
more than `2^32` bytes, and the `file_size` stored in its header, a 32-bit field, is
smaller than `2^32`: it is not the length of the file. -/
theorem file_size_wraps :
    build_index crowded_corpus = some (built crowded_corpus) ∧
    ∃ file, save_index (built crowded_corpus) = some file ∧
      2 ^ 32 ≤ file.length ∧ header_file_size file < 2 ^ 32 ∧
      header_file_size file ≠ file.length := by
  have hn : 0 < 2 ^ 30 := by norm_num
  refine ⟨numbered_build (2 ^ 30) hn (by norm_num), ?_⟩
  obtain ⟨file, hs, h1, h2⟩ := numbered_file_length (2 ^ 30)
  have h3 : header_file_size file < 2 ^ 32 := by
    rw [h2]; exact Nat.mod_lt _ (by norm_num)
  have h4 : 2 ^ 32 ≤ file.length := by
    have : (16 : Nat) * 2 ^ 30 + 36 = 2 ^ 34 + 36 := by norm_num
    have : (2 : Nat) ^ 32 ≤ 2 ^ 34 := by norm_num
    omega
  exact ⟨file, hs, h4, h3, by omega⟩

/-- C25, amended. The `file_size` that `update_file_header` patches into the header is the
length of the file that `save_index` produces taken modulo `2^32`; it equals the length of
the file whenever the file is shorter than `2^32` bytes. -/
theorem file_size_field (b : Builder) (file : List Byte) (h : save_index b = some file) :
    header_file_size file = file.length % 2 ^ 32 ∧
    (file.length < 2 ^ 32 → header_file_size file = file.length) := by
  have h2 := (save_index_length b file h).2
  exact ⟨h2, fun hlt => by rw [h2, Nat.mod_eq_of_lt hlt]⟩

set_option maxRecDepth 100000 in
theorem file_size_field_witness :
    save_index (built pets_corpus) = some pets_file ∧ pets_file.length = 222 ∧
    header_file_size pets_file = 222 :=
  ⟨by decide, by decide,
   ((file_size_field (built pets_corpus) pets_file (by decide)).2
      (by rw [pets_file_length]; norm_num)).trans pets_file_length⟩

end IndexFile

namespace IndexFile
open BooleanIndexBuilder BooleanIndexReader

/-- The file written for the index of one document whose only term is 65536 bytes long:
the dictionary section is a single record of 14 bytes with `term_len = 0`. -/
theorem long_term_save_aux (term file : List Byte) (hl : term.length = 65536)
    (hs : save_index ⟨[⟨ascii "l", ascii "l.txt", 65536, 1⟩], [(term, ⟨[0], 1⟩)], [term],
      ⟨1, 1, 1, 65536⟩⟩ = some file) :
    file.length = 80 ∧
    (∀ out, write_term_dictionary ⟨[⟨ascii "l", ascii "l.txt", 65536, 1⟩], [(term, ⟨[0], 1⟩)],
        [term], ⟨1, 1, 1, 65536⟩⟩ out
      = some (out ++ (u16le 0 ++ (u32le 0 ++ (u32le 8 ++ u32le 1))), out.length)) ∧
    header_term_dict_offset file = 58 ∧
    header_posting_offset file = 65608 ∧
    calculate_term_dict_size [term] = 65550 ∧
    (file.drop 58).take 14 = u16le 0 ++ (u32le 0 ++ (u32le 8 ++ u32le 1)) := by
  have hD : (write_documents [(⟨ascii "l", ascii "l.txt", 65536, 1⟩ : Document)]).length = 22 := by
    decide
  have hw : write_term term ⟨[0], 1⟩ 0 = u16le 0 ++ (u32le 0 ++ (u32le 8 ++ u32le 1)) := by
    unfold write_term
    rw [hl]
    rfl
  obtain ⟨offs, dict, posts, ho, hd, hp, hfile⟩ := save_index_layout _ file hs
  dsimp only at ho hd hp hfile
  simp only [posting_offsets, mapFind, if_true, Option.some.injEq] at ho
  subst ho
  simp only [write_terms, mapFind, if_true, Option.some.injEq, List.append_nil] at hd
  simp only [write_postings, mapFind, if_true, Option.some.injEq, List.append_nil] at hp
  rw [hw] at hd
  have hdl : dict.length = 14 := by rw [← hd]; rfl
  have hpl : posts.length = 8 := by rw [← hp]; rfl
  have hc : calculate_term_dict_size [term] = 65550 := by
    simp only [calculate_term_dict_size, hl]
  refine ⟨?_, ?_, ?_, ?_, hc, ?_⟩
  · rw [hfile]
    simp only [List.length_append, header_bytes_length, hD, hdl, hpl]
  · intro out
    simp only [write_term_dictionary, posting_offsets, mapFind, if_true, write_terms,
      List.append_nil, hw]
  · rw [hfile]
    have := (header_fields
      ({ documents := [⟨ascii "l", ascii "l.txt", 65536, 1⟩],
         term_index := [(term, ⟨[0], 1⟩)],
         sorted_terms := [term],
         stats := ⟨1, 1, 1, 65536⟩ } : Builder) 36
      (36 + (write_documents [(⟨ascii "l", ascii "l.txt", 65536, 1⟩ : Document)]).length)
      (36 + (write_documents [(⟨ascii "l", ascii "l.txt", 65536, 1⟩ : Document)]).length
        + dict.length + posts.length)
      (write_documents [(⟨ascii "l", ascii "l.txt", 65536, 1⟩ : Document)]
        ++ (dict ++ posts))).2.2.2.2.1
    rw [this, hD]
    norm_num
  · rw [hfile]
    have := (header_fields
      ({ documents := [⟨ascii "l", ascii "l.txt", 65536, 1⟩],
         term_index := [(term, ⟨[0], 1⟩)],
         sorted_terms := [term],
         stats := ⟨1, 1, 1, 65536⟩ } : Builder) 36
      (36 + (write_documents [(⟨ascii "l", ascii "l.txt", 65536, 1⟩ : Document)]).length)
      (36 + (write_documents [(⟨ascii "l", ascii "l.txt", 65536, 1⟩ : Document)]).length
        + dict.length + posts.length)
      (write_documents [(⟨ascii "l", ascii "l.txt", 65536, 1⟩ : Document)]
        ++ (dict ++ posts))).2.2.2.2.2.1
    rw [this]
    simp only [hD, hc]
    norm_num
  · rw [hfile, ← List.append_assoc, List.drop_left' (by
      rw [List.length_append, header_bytes_length, hD]), ← hd]
    exact List.take_left' rfl

theorem long_term_save (file : List Byte) (hs : save_index (built long_term_corpus) = some file) :
    file.length = 80 ∧
    (∀ out, write_term_dictionary (built long_term_corpus) out
      = some (out ++ (u16le 0 ++ (u32le 0 ++ (u32le 8 ++ u32le 1))), out.length)) ∧
    header_term_dict_offset file = 58 ∧
    header_posting_offset file = 65608 ∧
    calculate_term_dict_size (built long_term_corpus).sorted_terms = 65550 ∧
    (file.drop 58).take 14 = u16le 0 ++ (u32le 0 ++ (u32le 8 ++ u32le 1)) := by
  rw [long_term_built] at hs ⊢
  exact long_term_save_aux _ file (List.length_replicate _ _) hs

end IndexFile

namespace IndexFile
open BooleanIndexBuilder BooleanIndexReader

theorem term_entries_written_terms (ti : UMap BooleanIndexBuilder.TermInfo) :
    ∀ (terms : List Str) (offs : List Nat), terms.length = offs.length →
      (term_entries ti terms offs).map (fun e => e.term)
        = terms.map (fun t => t.take (t.length % 2 ^ 16)) := by
  intro terms
  induction terms with
  | nil => intro offs _; cases offs <;> simp [term_entries]
  | cons t0 ts ih =>
    intro offs hl
    cases offs with
    | nil => simp at hl
    | cons o0 os =>
      simp only [term_entries, List.map_cons, term_entry, ih os (by simpa using hl)]

/-- C23, as stated, fails. The builder holds the term of 65536 letters "a" and nothing
else; `save_index` does not reject it, and the 14-byte dictionary record it writes has
`term_len = 0` with no term bytes: the record describes the empty term, which the
builder does not hold. -/
theorem long_term_written_empty :
    build_index long_term_corpus = some (built long_term_corpus) ∧
    (built long_term_corpus).sorted_terms = [List.replicate 65536 97] ∧
    ([] : Str) ∉ (built long_term_corpus).sorted_terms ∧
    ∃ file, save_index (built long_term_corpus) = some file ∧
      header_term_dict_offset file = 58 ∧
      (file.drop 58).take 14 = u16le 0 ++ (u32le 0 ++ (u32le 8 ++ u32le 1)) ∧
      read_term ((file.drop 58).take 14) = some (⟨[], 0, 8, 1⟩, []) := by
  have hst : (built long_term_corpus).sorted_terms = [List.replicate 65536 97] := by
    rw [long_term_built]
  refine ⟨rfl, hst, ?_, ?_⟩
  · rw [hst]
    intro h
    have := congrArg List.length (List.mem_singleton.mp h)
    rw [List.length_nil, List.length_replicate] at this
    omega
  · obtain ⟨file, hs⟩ := save_index_built long_term_corpus
    obtain ⟨_, _, h3, _, _, h6⟩ := long_term_save file hs
    refine ⟨file, hs, h3, h6, ?_⟩
    rw [h6]
    rfl

/-- C23, amended. `write_term_dictionary` rejects no term.  For a term of `L` bytes it
writes `term_len = L mod 65536` followed by the first `L mod 65536` bytes of the term, so
the number of term bytes that follow always equals `term_len` and the reader parses the
records one after the other; the term a record describes is that prefix.  A term of at
most 65535 bytes is written intact; a term of 65536 bytes is written as the empty term. -/
theorem term_len_counts_bytes (b : Builder) (out : List Byte) (res : List Byte × Nat)
    (h : write_term_dictionary b out = some res) :
    (∀ (t : Str) (info : BooleanIndexBuilder.TermInfo) (o : Nat),
      write_term t info o
        = u16le (t.length % 2 ^ 16) ++ t.take (t.length % 2 ^ 16) ++ u32le o
            ++ u32le (list_size info) ++ u32le (info.total_occurrences % 2 ^ 32) ∧
      (t.take (t.length % 2 ^ 16)).length = t.length % 2 ^ 16) ∧
    (∃ entries,
      (∀ rest, read_terms b.sorted_terms.length (res.1.drop out.length ++ rest)
        = some (entries, rest)) ∧
      entries.map (fun e => e.term)
        = b.sorted_terms.map (fun t => t.take (t.length % 2 ^ 16))) ∧
    (∀ t : Str, (t.length ≤ 65535 → t.take (t.length % 2 ^ 16) = t) ∧
      (t.length = 65536 → t.take (t.length % 2 ^ 16) = [])) := by
  refine ⟨?_, ?_, ?_⟩
  · intro t info o
    refine ⟨rfl, ?_⟩
    rw [List.length_take]
    exact Nat.min_eq_left (Nat.mod_le _ _)
  · unfold write_term_dictionary at h
    cases ho : posting_offsets b.term_index b.sorted_terms 0 with
    | none => rw [ho] at h; simp at h
    | some offs =>
      rw [ho] at h
      dsimp only at h
      cases hd : write_terms b.term_index b.sorted_terms offs with
      | none => rw [hd] at h; simp at h
      | some dict =>
        rw [hd] at h
        simp only [Option.some.injEq] at h
        subst h
        have hol := posting_offsets_length _ _ _ _ ho
        refine ⟨term_entries b.term_index b.sorted_terms offs, ?_,
          term_entries_written_terms _ _ _ hol.symm⟩
        intro rest
        rw [List.drop_left]
        exact read_terms_write b.term_index b.sorted_terms offs dict rest hol.symm hd
  · intro t
    constructor
    · intro hle
      rw [Nat.mod_eq_of_lt (by omega), List.take_length]
    · intro he
      rw [he]
      rfl

set_option maxRecDepth 100000 in
theorem term_len_counts_bytes_witness :
    write_term_dictionary (built pets_corpus) [] = some ((pets_file.drop 108).take 70, 0) ∧
    ∃ entries,
      (∀ rest, read_terms (built pets_corpus).sorted_terms.length
          (((pets_file.drop 108).take 70, 0).1.drop ([] : List Byte).length ++ rest)
        = some (entries, rest)) ∧
      entries.map (fun e => e.term)
        = (built pets_corpus).sorted_terms.map (fun t => t.take (t.length % 2 ^ 16)) :=
  ⟨by decide,
   (term_len_counts_bytes (built pets_corpus) [] ((pets_file.drop 108).take 70, 0)
     (by decide)).2.1⟩

end IndexFile

/-! ## The binary search of the reader -/

namespace BooleanIndexReader
open BooleanIndexBuilder

theorem search_loop_spec (td : List TermInfo) (term : Str)
    (hsorted : ∀ (i j : Nat) (ei ej : TermInfo), td[i]? = some ei → td[j]? = some ej → i < j →
      str_lt ei.term ej.term = true)
    (hn : td.length < 2 ^ 31) :
    ∀ (fuel : Nat) (left right : Int), 0 ≤ left → right < td.length →
      0 < fuel → right - left + 1 < fuel →
      (∀ (i : Nat) (e : TermInfo), td[i]? = some e → (i : Int) < left →
        str_lt e.term term = true) →
      (∀ (i : Nat) (e : TermInfo), td[i]? = some e → right < (i : Int) →
        str_lt term e.term = true) →
      ∃ r, search_loop td term fuel left right = some r ∧
        ((r = -1 ∧ ∀ e ∈ td, e.term ≠ term) ∨
         (0 ≤ r ∧ ∃ e, td[r.toNat]? = some e ∧ e.term = term)) := by
  intro fuel
  induction fuel with
  | zero =>
    intro left right h0 hr hpos hf _ _
    omega
  | succ fuel ih =>
    intro left right h0 hr _ hf hlo hhi
    rw [search_loop]
    by_cases hlr : left ≤ right
    · rw [if_pos hlr]
      have hmid0 : 0 ≤ left + (right - left) / 2 := by omega
      have hmidl : left ≤ left + (right - left) / 2 := by omega
      have hmidr : left + (right - left) / 2 ≤ right := by omega
      generalize hm : left + (right - left) / 2 = mid at hmid0 hmidl hmidr
      dsimp only
      rw [if_neg (by omega)]
      have hlt : mid.toNat < td.length := by omega
      have hget : td.get? mid.toNat = some (td.get ⟨mid.toNat, hlt⟩) := List.get?_eq_get hlt
      have hget2 : td[mid.toNat]? = some (td.get ⟨mid.toNat, hlt⟩) := by
        rw [← List.get?_eq_getElem?]; exact hget
      rw [hget]
      dsimp only
      generalize td.get ⟨mid.toNat, hlt⟩ = e at hget hget2
      by_cases heq : e.term = term
      · rw [if_pos heq]
        exact ⟨mid, rfl, Or.inr ⟨hmid0, e, hget2, heq⟩⟩
      · rw [if_neg heq]
        cases hlt2 : str_lt e.term term with
        | true =>
          simp only [if_true]
          rw [if_pos (by omega)]
          apply ih (mid + 1) right (by omega) hr (by omega) (by omega)
          · intro i ei hi hil
            by_cases him : i = mid.toNat
            · subst him
              rw [hget2] at hi
              cases hi
              exact hlt2
            · exact str_lt_trans _ _ _ (hsorted i mid.toNat ei e hi hget2 (by omega)) hlt2
          · exact hhi
        | false =>
          simp only [Bool.false_eq_true, if_false]
          have hgt : str_lt term e.term = true := by
            cases h : str_lt term e.term with
            | true => rfl
            | false => exact absurd (str_lt_connex _ _ hlt2 h) heq
          apply ih left (mid - 1) h0 (by omega) (by omega) (by omega) hlo
          intro i ei hi hil
          by_cases him : i = mid.toNat
          · subst him
            rw [hget2] at hi
            cases hi
            exact hgt
          · exact str_lt_trans _ _ _ hgt (hsorted mid.toNat i e ei hget2 hi (by omega))
    · rw [if_neg hlr]
      refine ⟨-1, rfl, Or.inl ⟨rfl, ?_⟩⟩
      intro e he heq
      obtain ⟨i, hi⟩ := List.getElem?_of_mem he
      by_cases hil : (i : Int) < left
      · have := hlo i e hi hil
        rw [heq, str_lt_irrefl] at this
        cases this
      · have := hhi i e hi (by omega)
        rw [heq, str_lt_irrefl] at this
        cases this

theorem int_of_size_small (n : Nat) (hn : n < 2 ^ 31) : int_of_size_minus_one n = (n : Int) - 1 := by
  unfold int_of_size_minus_one
  by_cases h0 : n = 0
  · subst h0
    rfl
  · have e : (n + 2 ^ 64 - 1) % 2 ^ 64 % 2 ^ 32 = n - 1 := by omega
    dsimp only
    rw [e, if_pos (by omega)]
    omega

end BooleanIndexReader

namespace BooleanIndexReader
open BooleanIndexBuilder

theorem be32_lt (i j : Nat) (hij : i < j) (hj : j < 2 ^ 32) :
    str_lt (be32 i) (be32 j) = true := by
  have v : ∀ n : Nat, ((Fin.ofNat (n % 256) : Fin 256)).val = n % 256 := fun n => by
    simp [Fin.ofNat]
  simp only [be32, str_lt, v]
  split_ifs <;> first | rfl | omega

theorem numbered_dict_length (n : Nat) : (numbered_dict n).length = n := by
  simp [numbered_dict]

theorem numbered_dict_sorted (n : Nat) (hn : n ≤ 2 ^ 32) :
    (numbered_dict n).Pairwise (fun a b => str_lt a.term b.term = true) := by
  unfold numbered_dict
  rw [List.pairwise_map]
  have h := List.pairwise_lt_range n
  refine List.Pairwise.imp_of_mem ?_ h
  intro a b _ hb hab
  exact be32_lt a b hab (by have := List.mem_range.mp hb; omega)

theorem numbered_dict_mem (n : Nat) (hn : 0 < n) :
    ∃ e ∈ numbered_dict n, e.term = be32 0 :=
  ⟨⟨be32 0, 0, 8, 1⟩, List.mem_map.mpr ⟨0, List.mem_range.mpr hn, rfl⟩, rfl⟩

theorem search_loop_negative (td : List TermInfo) (term : Str) (fuel : Nat) (right : Int)
    (h : right < 0) : search_loop td term (fuel + 1) 0 right = some (-1) := by
  rw [search_loop, if_neg (by omega)]

theorem int_of_size_huge : int_of_size_minus_one (2 ^ 31 + 1) = -2 ^ 31 := by
  unfold int_of_size_minus_one
  norm_num

theorem numbered_search (n : Nat) (term : Str) (fuel : Nat)
    (h : int_of_size_minus_one n < 0) :
    search_term_find (numbered_dict n) term (fuel + 1) = some (-1) := by
  unfold search_term_find
  rw [numbered_dict_length]
  exact search_loop_negative _ _ _ _ h

/-- C26, as stated, fails. A dictionary of `2^31 + 1` entries, strictly ascending, contains
the term of four zero bytes; `right` starts at `(int)(size - 1) = -2^31`, the loop is never
entered, and the binary search reports "not found" for that term. -/
theorem search_misses_present_term :
    huge_dict.length = 2 ^ 31 + 1 ∧
    huge_dict.Pairwise (fun a b => str_lt a.term b.term = true) ∧
    (∃ e ∈ huge_dict, e.term = be32 0) ∧
    ∀ fuel, search_term_find huge_dict (be32 0) (fuel + 1) = some (-1) :=
  ⟨numbered_dict_length (2 ^ 31 + 1), numbered_dict_sorted (2 ^ 31 + 1) (by norm_num),
   numbered_dict_mem (2 ^ 31 + 1) (by norm_num),
   fun fuel => numbered_search (2 ^ 31 + 1) (be32 0) fuel (by rw [int_of_size_huge]; norm_num)⟩

/-- C26, amended. For every term dictionary that is strictly ascending in the byte-wise
order and has fewer than `2^31` entries (so that its indices fit the `int` variables of
the loop), and for every query string, the binary search of `search_term` terminates
without indexing outside the dictionary: it ends with an index whose term equals the
query when the query is in the dictionary, and with `-1` ("not found") otherwise, also on
an empty dictionary. -/
theorem search_term_exact (td : List TermInfo) (term : Str) (fuel : Nat)
    (hs : td.Pairwise (fun a b => str_lt a.term b.term = true))
    (hn : td.length < 2 ^ 31) (hf : td.length < fuel) :
    ∃ res, search_term_find td term fuel = some res ∧
      ((∃ e ∈ td, e.term = term) →
        0 ≤ res ∧ ∃ e, td[res.toNat]? = some e ∧ e.term = term) ∧
      ((∀ e ∈ td, e.term ≠ term) → res = -1) := by
  have hsorted : ∀ (i j : Nat) (ei ej : TermInfo), td[i]? = some ei →
      td[j]? = some ej → i < j → str_lt ei.term ej.term = true := by
    intro i j ei ej hi hj hij
    obtain ⟨hi1, hi2⟩ := List.getElem?_eq_some.mp hi
    obtain ⟨hj1, hj2⟩ := List.getElem?_eq_some.mp hj
    have := List.pairwise_iff_getElem.mp hs i j hi1 hj1 hij
    rw [hi2, hj2] at this
    exact this
  obtain ⟨res, h1, h2⟩ := search_loop_spec td term hsorted hn fuel 0
    (int_of_size_minus_one td.length) (le_refl _)
    (by rw [int_of_size_small _ hn]; omega) (by omega)
    (by rw [int_of_size_small _ hn]; omega)
    (fun i e _ hi => by omega)
    (fun i e hi hlt => by
      rw [int_of_size_small _ hn] at hlt
      have := (List.getElem?_eq_some.mp hi).1
      omega)
  refine ⟨res, h1, ?_, ?_⟩
  · rintro ⟨e, he, heq⟩
    rcases h2 with ⟨_, hall⟩ | h
    · exact absurd heq (hall e he)
    · exact h
  · intro hall
    rcases h2 with ⟨h, _⟩ | ⟨_, e, he, heq⟩
    · exact h
    · exact absurd heq (hall e (List.getElem?_mem he))

theorem search_term_exact_witness :
    search_term_find pets_dict (ascii "cat") 5 = some 1 ∧
    search_term_find pets_dict (ascii "cow") 5 = some (-1) ∧
    search_term_find [] (ascii "cat") 1 = some (-1) ∧
    ∃ res, search_term_find pets_dict (ascii "cat") 5 = some res ∧
      ((∃ e ∈ pets_dict, e.term = ascii "cat") →
        0 ≤ res ∧ ∃ e, pets_dict[res.toNat]? = some e ∧ e.term = ascii "cat") ∧
      ((∀ e ∈ pets_dict, e.term ≠ ascii "cat") → res = -1) :=
  ⟨by decide, by decide, by decide,
   search_term_exact pets_dict (ascii "cat") 5 (by decide) (by decide) (by decide)⟩

end BooleanIndexReader

/-! ## The tokenizer -/

namespace Tokenizer

theorem c_locale_ascii : ascii_as_in_c c_locale := fun _ _ => ⟨rfl, rfl, rfl⟩

/-- C39, as the code runs. For the text "C++" `process_text` yields the single token
"c+": the first plus sign follows "C" and is a word character, the second one follows a
plus sign and is not, so the token ends before it.  The token list is not `["c++"]`. -/
theorem process_text_cpp (loc : WideLocale) (h : ascii_as_in_c loc) :
    (process_text loc State.fresh (wide "C++")).tokens = [wide "c+"] ∧
    (process_text loc State.fresh (wide "C++")).tokens ≠ [wide "c++"] ∧
    is_word_char loc 43 67 43 = true ∧ is_word_char loc 43 43 0 = false ∧
    (process_text loc State.fresh (wide "c++")).tokens = [wide "c"] := by
  obtain ⟨hl1, ha1, _⟩ := h 67 (by norm_num)
  obtain ⟨hl2, ha2, _⟩ := h 43 (by norm_num)
  have hC : is_digit_or_letter loc 67 = true := by
    simp [is_digit_or_letter, ha1, c_locale]
  have hP : is_digit_or_letter loc 43 = false := by
    simp [is_digit_or_letter, ha2, c_locale]
  have hw1 : is_word_char loc 67 0 43 = true := by simp [is_word_char, hC]
  have hw2 : is_word_char loc 43 67 43 = true := by simp [is_word_char, hP]
  have hw3 : is_word_char loc 43 43 0 = false := by simp [is_word_char, hP]
  have e1 : loc.towlower 67 = 99 := by rw [hl1]; rfl
  have e2 : loc.towlower 43 = 43 := by rw [hl2]; rfl
  have hw : wide "C++" = [67, 43, 43] := by decide
  have hr : (process_text loc State.fresh (wide "C++")).tokens = [wide "c+"] := by
    rw [hw]
    simp [process_text, scan_loop, hw1, hw2, hw3, e1, e2, push_token, State.fresh]
    decide
  obtain ⟨hl3, ha3, _⟩ := h 99 (by norm_num)
  have hc : is_digit_or_letter loc 99 = true := by
    simp [is_digit_or_letter, ha3, c_locale]
  have hw4 : is_word_char loc 99 0 43 = true := by simp [is_word_char, hc]
  have hw5 : is_word_char loc 43 99 43 = false := by simp [is_word_char, hP]
  have e3 : loc.towlower 99 = 99 := by rw [hl3]; rfl
  have hw6 : wide "c++" = [99, 43, 43] := by decide
  refine ⟨hr, ?_, hw2, hw3, ?_⟩
  · rw [hr]
    decide
  · rw [hw6]
    simp [process_text, scan_loop, hw4, hw5, hw3, e3, push_token, State.fresh]
    decide

theorem process_text_cpp_witness :
    (process_text c_locale State.fresh (wide "C++")).tokens = [wide "c+"] ∧
    wide "c+" = [99, 43] :=
  ⟨(process_text_cpp c_locale c_locale_ascii).1, by decide⟩

end Tokenizer

/-! ## The stemmer -/

namespace RussianStemmer

theorem c_locale_keeps : keeps_lower_cyrillic c_locale := by
  intro c hc
  simp only [is_lower_cyrillic, decide_eq_true_eq] at hc
  have : ¬ (65 ≤ c ∧ c ≤ 90) := by omega
  simp [c_locale, this]

theorem is_vowel_congr (loc : WideLocale) (h : keeps_lower_cyrillic loc) (c : Nat)
    (hc : is_lower_cyrillic c = true) : is_vowel loc c = is_vowel c_locale c := by
  simp only [is_vowel, h c hc, c_locale_keeps c hc]

theorem foldl_vowels_congr (loc : WideLocale) (h : keeps_lower_cyrillic loc) :
    ∀ (w : WStr) (n : Nat), w.all is_lower_cyrillic = true →
      w.foldl (fun count c => if is_vowel loc c then count + 1 else count) n
        = w.foldl (fun count c => if is_vowel c_locale c then count + 1 else count) n := by
  intro w
  induction w with
  | nil => intro n _; rfl
  | cons c cs ih =>
    intro n hw
    simp only [List.all_cons, Bool.and_eq_true] at hw
    simp only [List.foldl_cons, is_vowel_congr loc h c hw.1]
    exact ih _ hw.2

theorem count_vowels_congr (loc : WideLocale) (h : keeps_lower_cyrillic loc) (w : WStr)
    (hw : w.all is_lower_cyrillic = true) : count_vowels loc w = count_vowels c_locale w :=
  foldl_vowels_congr loc h w 0 hw

theorem all_take (w : WStr) (k : Nat) (hw : w.all is_lower_cyrillic = true) :
    (w.take k).all is_lower_cyrillic = true := by
  rw [List.all_eq_true] at hw ⊢
  exact fun x hx => hw x (List.mem_of_mem_take hx)

theorem remove_loop_congr (loc : WideLocale) (h : keeps_lower_cyrillic loc) (w : WStr)
    (hw : w.all is_lower_cyrillic = true) :
    ∀ es : List WStr, remove_loop loc w es = remove_loop c_locale w es := by
  intro es
  induction es with
  | nil => rfl
  | cons e es ih =>
    simp only [remove_loop, count_vowels_congr loc h _ (all_take w _ hw), ih]

/-- For a word of lower-case Russian letters the stem is the same in every locale. -/
theorem stem_congr (loc : WideLocale) (h : keeps_lower_cyrillic loc) (w : WStr)
    (hw : w.all is_lower_cyrillic = true) : stem loc w = stem c_locale w := by
  simp only [stem, remove_endings, remove_loop_congr loc h w hw]

set_option maxRecDepth 100000 in
/-- C36, as the code runs. Of the five rows of the stemmer's own test table, `stem`
reproduces three ("мир", "стекло" gives "стекл", "хороший" gives "хорош") and misses two:
"писать" gives "писат" where the table expects "пис", and "бежать" gives "бежат" where
the table expects "беж".  This holds in every locale whose `towlower` leaves lower-case
Russian letters unchanged. -/
theorem stem_test_table (loc : WideLocale) (h : keeps_lower_cyrillic loc) :
    stem loc (wide "мир") = wide "мир" ∧
    stem loc (wide "стекло") = wide "стекл" ∧
    stem loc (wide "хороший") = wide "хорош" ∧
    stem loc (wide "писать") = wide "писат" ∧ wide "писат" ≠ wide "пис" ∧
    stem loc (wide "бежать") = wide "бежат" ∧ wide "бежат" ≠ wide "беж" := by
  refine ⟨?_, ?_, ?_, ?_, by decide, ?_, by decide⟩
  · rw [stem_congr loc h _ (by decide)]; decide
  · rw [stem_congr loc h _ (by decide)]; decide
  · rw [stem_congr loc h _ (by decide)]; decide
  · rw [stem_congr loc h _ (by decide)]; decide
  · rw [stem_congr loc h _ (by decide)]; decide

set_option maxRecDepth 100000 in
theorem stem_test_table_witness :
    stem c_locale (wide "писать") = wide "писат" ∧
    wide "писать" = [1087, 1080, 1089, 1072, 1090, 1100] ∧
    wide "писат" = [1087, 1080, 1089, 1072, 1090] :=
  ⟨(stem_test_table c_locale c_locale_keeps).2.2.2.1, by decide, by decide⟩

end RussianStemmer

namespace RussianStemmer

theorem ends_with_iff (w a : WStr) : ends_with w a = true ↔ a <:+ w := by
  unfold ends_with
  constructor
  · intro h
    split at h
    · cases h
    · rw [decide_eq_true_eq] at h
      rw [← h]
      exact List.drop_suffix _ _
  · rintro ⟨t, rfl⟩
    rw [if_neg (by simp), decide_eq_true_eq]
    have : (t ++ a).length - a.length = t.length := by simp
    rw [this, List.drop_left]

theorem foldl_vowels_le (loc : WideLocale) :
    ∀ (w : WStr) (n : Nat),
      w.foldl (fun count c => if is_vowel loc c then count + 1 else count) n ≤ n + w.length := by
  intro w
  induction w with
  | nil => intro n; simp
  | cons c cs ih =>
    intro n
    rw [List.foldl_cons, List.length_cons]
    by_cases hv : is_vowel loc c = true
    · rw [if_pos hv]
      have := ih (n + 1)
      omega
    · rw [if_neg hv]
      have := ih n
      omega

theorem count_vowels_le (loc : WideLocale) (w : WStr) : count_vowels loc w ≤ w.length := by
  have := foldl_vowels_le loc w 0
  unfold count_vowels
  omega

theorem suffix_rules_spec (c : WStr) (h : 2 ≤ c.length) :
    1 ≤ (suffix_rules c).length ∧ suffix_rules c <+: c := by
  unfold suffix_rules
  split
  · rename_i h1
    exact ⟨by rw [List.length_take]; omega, List.take_prefix _ _⟩
  · split
    · rename_i h1
      exact ⟨by rw [List.length_take]; omega, List.take_prefix _ _⟩
    · split
      · rename_i h1
        exact ⟨by rw [List.length_take]; omega, List.take_prefix _ _⟩
      · split
        · rename_i h1
          exact ⟨by rw [List.length_take]; omega, List.take_prefix _ _⟩
        · exact ⟨by omega, List.prefix_refl _⟩

theorem removable_iff (loc : WideLocale) (word e : WStr) :
    removable loc word e = true ↔
      ends_with word e = true ∧ (word.take (word.length - e.length)).length ≥ 2 ∧
        count_vowels loc (word.take (word.length - e.length)) > 0 := by
  simp only [removable, Bool.and_eq_true, decide_eq_true_eq]

theorem remove_loop_step (loc : WideLocale) (word e : WStr) (es : List WStr) :
    remove_loop loc word (e :: es)
      = if removable loc word e = true then suffix_rules (word.take (word.length - e.length))
        else remove_loop loc word es := by
  rw [remove_loop]
  by_cases h1 : ends_with word e = true
  · by_cases h2 : (word.take (word.length - e.length)).length ≥ 2 ∧
        count_vowels loc (word.take (word.length - e.length)) > 0
    · rw [if_pos h1, if_pos ((removable_iff loc word e).mpr ⟨h1, h2⟩)]
      simp only [h2, and_self, if_true]
    · rw [if_pos h1, if_neg (fun h => h2 ((removable_iff loc word e).mp h).2)]
      simp only [h2, if_false]
  · rw [if_neg h1, if_neg (fun h => h1 ((removable_iff loc word e).mp h).1)]

set_option maxRecDepth 100000 in
theorem endings_order : endings.Pairwise (fun a b => later_not_longer a b = true) := by
  decide

theorem removable_length (loc : WideLocale) (word a b : WStr) (ha : removable loc word a = true)
    (hb : removable loc word b = true) (hab : later_not_longer a b = true) :
    b.length ≤ a.length := by
  simp only [later_not_longer, Bool.or_eq_true, decide_eq_true_eq, Bool.not_eq_true'] at hab
  rcases hab with h | h
  · exact h
  · by_contra hlt
    have h1 := (ends_with_iff word a).mp ((removable_iff loc word a).mp ha).1
    have h2 := (ends_with_iff word b).mp ((removable_iff loc word b).mp hb).1
    have := (ends_with_iff b a).mpr (List.suffix_of_suffix_length_le h1 h2 (by omega))
    rw [this] at h
    cases h

theorem remove_loop_first (loc : WideLocale) (word : WStr) :
    ∀ es : List WStr, es.Pairwise (fun a b => later_not_longer a b = true) →
      ((∀ e ∈ es, removable loc word e = false) ∧ remove_loop loc word es = word) ∨
      (∃ e ∈ es, removable loc word e = true ∧
        (∀ e2 ∈ es, removable loc word e2 = true → e2.length ≤ e.length) ∧
        remove_loop loc word es = suffix_rules (word.take (word.length - e.length))) := by
  intro es
  induction es with
  | nil => intro _; exact Or.inl ⟨by simp, rfl⟩
  | cons a rest ih =>
    intro hp
    rw [List.pairwise_cons] at hp
    rw [remove_loop_step]
    cases ha : removable loc word a with
    | true =>
      right
      refine ⟨a, by simp, ha, ?_, by simp⟩
      intro e2 he2 hr2
      rcases List.mem_cons.mp he2 with h | h
      · rw [h]
      · exact removable_length loc word a e2 ha hr2 (hp.1 e2 h)
    | false =>
      simp only [Bool.false_eq_true, if_false]
      rcases ih hp.2 with ⟨h1, h2⟩ | ⟨e, he, h1, h2, h3⟩
      · left
        refine ⟨?_, h2⟩
        intro e he
        rcases List.mem_cons.mp he with h | h
        · rw [h]; exact ha
        · exact h1 e h
      · right
        refine ⟨e, List.mem_cons_of_mem _ he, h1, ?_, h3⟩
        intro e2 he2 hr2
        rcases List.mem_cons.mp he2 with h | h
        · rw [h, ha] at hr2; cases hr2
        · exact h2 e2 h hr2

set_option maxRecDepth 100000 in
/-- C37, as stated, fails. From "токи" the ending "и" is removed, which leaves "ток" (three
characters, one vowel); the additional rule for "ок" then cuts it down, and
`remove_endings` returns "т": one character and no vowel.  (`stem` then returns the
word itself.) -/
theorem remove_endings_short_stem :
    remove_endings c_locale (wide "токи") = wide "т" ∧
    (wide "т").length = 1 ∧ count_vowels c_locale (wide "т") = 0 ∧
    removable c_locale (wide "токи") (wide "и") = true ∧
    stem c_locale (wide "токи") = wide "токи" := by
  decide

/-- C37, amended. For every word of fewer than `2^31` characters, whenever
`remove_endings` strips an ending, what is left of the word once the ending is removed
has at least 2 characters and at least one vowel; the value returned is that remainder
after the additional rules (removal of one of "ость", "тель", "ник", "ок"), which is a
prefix of the remainder with at least 1 character.  When no ending can be stripped the
word is returned unchanged. -/
theorem remove_endings_remainder (loc : WideLocale) (word : WStr) (hlen : word.length < 2 ^ 31) :
    ((∀ e ∈ endings, removable loc word e = false) ∧ remove_endings loc word = word) ∨
    (∃ e ∈ endings, removable loc word e = true ∧
      2 ≤ (word.take (word.length - e.length)).length ∧
      0 < count_vowels loc (word.take (word.length - e.length)) ∧
      count_vowels loc (word.take (word.length - e.length)) < 2 ^ 31 ∧
      remove_endings loc word = suffix_rules (word.take (word.length - e.length)) ∧
      1 ≤ (remove_endings loc word).length ∧
      remove_endings loc word <+: word.take (word.length - e.length)) := by
  rcases remove_loop_first loc word endings endings_order with h | ⟨e, he, h1, _, h3⟩
  · exact Or.inl h
  · right
    obtain ⟨_, h4, h5⟩ := (removable_iff loc word e).mp h1
    have h6 := count_vowels_le loc (word.take (word.length - e.length))
    have h7 : (word.take (word.length - e.length)).length ≤ word.length := by
      rw [List.length_take]; omega
    have h8 := suffix_rules_spec _ h4
    refine ⟨e, he, h1, h4, h5, by omega, h3, ?_, ?_⟩
    · unfold remove_endings; rw [h3]; exact h8.1
    · unfold remove_endings; rw [h3]; exact h8.2

set_option maxRecDepth 100000 in
theorem remove_endings_remainder_witness :
    remove_endings c_locale (wide "хороший") = wide "хорош" ∧
    (((∀ e ∈ endings, removable c_locale (wide "хороший") e = false) ∧
        remove_endings c_locale (wide "хороший") = wide "хороший") ∨
      (∃ e ∈ endings, removable c_locale (wide "хороший") e = true ∧
        2 ≤ ((wide "хороший").take ((wide "хороший").length - e.length)).length ∧
        0 < count_vowels c_locale ((wide "хороший").take ((wide "хороший").length - e.length)) ∧
        count_vowels c_locale ((wide "хороший").take ((wide "хороший").length - e.length))
          < 2 ^ 31 ∧
        remove_endings c_locale (wide "хороший")
          = suffix_rules ((wide "хороший").take ((wide "хороший").length - e.length)) ∧
        1 ≤ (remove_endings c_locale (wide "хороший")).length ∧
        remove_endings c_locale (wide "хороший")
          <+: (wide "хороший").take ((wide "хороший").length - e.length))) :=
  ⟨by decide, remove_endings_remainder c_locale (wide "хороший") (by decide)⟩

/-- C38. For every word of fewer than `2^31` characters: if some ending of the list can
be removed (the word ends with it and at least 2 characters with a vowel are left), the
ending that `remove_endings` strips is one of greatest length among those, and the
result is what is left after it, passed through the additional rules; if no ending can
be removed, the word is returned unchanged. -/
theorem longest_ending_stripped (loc : WideLocale) (word : WStr) (hlen : word.length < 2 ^ 31) :
    ((∀ e ∈ endings, removable loc word e = false) → remove_endings loc word = word) ∧
    ((∃ e ∈ endings, removable loc word e = true) →
      ∃ e ∈ endings, removable loc word e = true ∧
        (∀ e2 ∈ endings, removable loc word e2 = true → e2.length ≤ e.length) ∧
        remove_endings loc word = suffix_rules (word.take (word.length - e.length))) ∧
    (∀ e ∈ endings, count_vowels loc (word.take (word.length - e.length)) < 2 ^ 31) := by
  refine ⟨?_, ?_, ?_⟩
  · intro hnone
    rcases remove_loop_first loc word endings endings_order with h | ⟨e, he, h1, _, _⟩
    · exact h.2
    · rw [hnone e he] at h1; cases h1
  · rintro ⟨e0, he0, hr0⟩
    rcases remove_loop_first loc word endings endings_order with h | h
    · rw [h.1 e0 he0] at hr0; cases hr0
    · exact h
  · intro e _
    have h6 := count_vowels_le loc (word.take (word.length - e.length))
    have h7 : (word.take (word.length - e.length)).length ≤ word.length := by
      rw [List.length_take]; omega
    omega

set_option maxRecDepth 100000 in
theorem longest_ending_stripped_witness :
    removable c_locale (wide "историями") (wide "иями") = true ∧
    removable c_locale (wide "историями") (wide "ями") = true ∧
    removable c_locale (wide "историями") (wide "и") = true ∧
    remove_endings c_locale (wide "историями") = wide "истор" ∧
    ∃ e ∈ endings, removable c_locale (wide "историями") e = true ∧
      (∀ e2 ∈ endings, removable c_locale (wide "историями") e2 = true →
        e2.length ≤ e.length) ∧
      remove_endings c_locale (wide "историями")
        = suffix_rules ((wide "историями").take ((wide "историями").length - e.length)) :=
  ⟨by decide, by decide, by decide, by decide,
   (longest_ending_stripped c_locale (wide "историями") (by decide)).2.1
     ⟨wide "иями", by decide, by decide⟩⟩

end RussianStemmer

/-! ## Results of `eval`: subsets of the universe, termination -/

namespace BoolSearch

theorem mapFind_mem {V : Type} : ∀ (m : UMap V) (k : Str) (v : V),
    mapFind m k = some v → (k, v) ∈ m
  | [], _, _, h => by simp [mapFind] at h
  | (k1, v1) :: rest, k, v, h => by
    rw [mapFind] at h
    split at h
    · rename_i hk
      simp only [Option.some.injEq] at h
      rw [← hk, ← h]
      exact List.mem_cons_self _ _
    · exact List.mem_cons_of_mem _ (mapFind_mem rest k v h)

theorem apply_op_subset (g : Globals) (st : List DocSet) (op : Op)
    (h : ∀ s ∈ st, s ⊆ g.all_docs) : ∀ s ∈ (apply_op g st op).1, s ⊆ g.all_docs := by
  cases op with
  | empty => rw [apply_op_empty]; exact h
  | and =>
    match st, h with
    | [], h => exact h
    | [a], h => exact h
    | b :: a :: rest, h =>
      rw [apply_op_and]
      intro s hs
      rcases List.mem_cons.mp hs with rfl | hs
      · exact Finset.inter_subset_left.trans (h a (by simp))
      · exact h s (by simp [hs])
  | or =>
    match st, h with
    | [], h => exact h
    | [a], h => exact h
    | b :: a :: rest, h =>
      rw [apply_op_or]
      intro s hs
      rcases List.mem_cons.mp hs with rfl | hs
      · exact Finset.union_subset (h a (by simp)) (h b (by simp))
      · exact h s (by simp [hs])
  | not =>
    match st, h with
    | [], h => exact h
    | a :: rest, h =>
      rw [apply_op_not]
      intro s hs
      rcases List.mem_cons.mp hs with rfl | hs
      · exact Finset.sdiff_subset
      · exact h s (by simp [hs])

theorem eval_loop_subset (g : Globals) (hidx : ∀ p ∈ g.idx, p.2 ⊆ g.all_docs) :
    ∀ (fuel : Nat) (e : Str) (st : List DocSet) (op : Op) (r : DocSet),
      (∀ s ∈ st, s ⊆ g.all_docs) → eval_loop g fuel e st op = some r → r ⊆ g.all_docs := by
  intro fuel
  induction fuel with
  | zero => intro e st op r _ h; simp [eval_loop] at h
  | succ n ih =>
    intro e st op r hst h
    cases e with
    | nil =>
      simp only [eval_loop, Option.some.injEq] at h
      subst h
      cases st with
      | nil => exact Finset.empty_subset _
      | cons s rest => exact hst s (by simp)
    | cons c cs =>
      rw [eval_loop] at h
      split_ifs at h with h1 h2 h3 h4 h5 h6
      · exact ih _ _ _ _ hst h
      · dsimp only at h
        cases hin : eval_loop g n (List.take ((scan_paren cs 1 + 2 ^ 64 - 1) % 2 ^ 64) cs) []
            Op.empty with
        | none => rw [hin] at h; simp at h
        | some res =>
          rw [hin] at h
          have hres : res ⊆ g.all_docs := ih _ _ _ _ (by simp) hin
          refine ih _ _ _ _ (apply_op_subset g _ _ ?_) h
          intro s hs
          rcases List.mem_cons.mp hs with rfl | hs
          · exact hres
          · exact hst s hs
      · exact ih _ _ _ _ (apply_op_subset g _ _ hst) h
      · exact ih _ _ _ _ (apply_op_subset g _ _ hst) h
      · exact ih _ _ _ _ hst h
      · exact ih _ _ _ _ (apply_op_subset g _ _ hst) h
      · refine ih _ _ _ _ (apply_op_subset g _ _ ?_) h
        intro s hs
        split at hs
        · rcases List.mem_cons.mp hs with rfl | hs
          · cases hf : mapFind g.idx (List.map tolower (List.takeWhile is_word_char (c :: cs))) with
            | none => exact Finset.empty_subset _
            | some v => exact hidx _ (mapFind_mem _ _ _ hf)
          · exact hst s hs
        · exact hst s hs

/-- C31. If every posting set of the index is a subset of `all_docs`, then every set
that `eval` returns, on whatever expression and with whatever fuel, is a subset of
`all_docs`. -/
theorem eval_subset_universe (g : Globals) (hidx : ∀ p ∈ g.idx, p.2 ⊆ g.all_docs)
    (expr : Str) (fuel : Nat) (r : DocSet) (h : eval g fuel expr = some r) :
    r ⊆ g.all_docs :=
  eval_loop_subset g hidx fuel expr [] Op.empty r (by simp) h

theorem eval_subset_universe_witness :
    eval abc 10 (ascii "a! || c") = some {3, 4} ∧
    ({3, 4} : DocSet) ⊆ abc.all_docs :=
  ⟨by decide,
   eval_subset_universe abc (by decide) (ascii "a! || c") 10 {3, 4} (by decide)⟩

end BoolSearch

namespace BoolSearch

theorem is_word_char_eq (c : Byte) : is_word_char c = isalnum c := by
  have h : schar c < 256 := by
    unfold schar
    have := c.isLt
    split <;> omega
  have h1 : ¬ (53424 ≤ schar c) := by omega
  have h2 : ¬ (53392 ≤ schar c) := by omega
  simp [is_word_char, h1, h2]

theorem tokens_ok_cons (c : Byte) (cs : Str) (h : tokens_ok (c :: cs) = true)
    (h1 : c ≠ 38) (h2 : c ≠ 124) :
    (isalnum c = true ∨ c = 32 ∨ c = 33 ∨ c = 40 ∨ c = 41) ∧ tokens_ok cs = true := by
  cases cs with
  | nil =>
    simp only [tokens_ok, Bool.or_eq_true, decide_eq_true_eq] at h
    exact ⟨by tauto, rfl⟩
  | cons c2 rest =>
    rw [tokens_ok, if_neg (by tauto)] at h
    simp only [Bool.and_eq_true, Bool.or_eq_true, decide_eq_true_eq] at h
    exact ⟨by tauto, h.2⟩

theorem tokens_ok_pair (c : Byte) (cs : Str) (h : tokens_ok (c :: cs) = true)
    (hc : c = 38 ∨ c = 124) : ∃ rest, cs = c :: rest ∧ tokens_ok rest = true := by
  cases cs with
  | nil =>
    rcases hc with rfl | rfl <;> exact absurd h (by decide)
  | cons c2 rest =>
    rw [tokens_ok, if_pos hc] at h
    simp only [Bool.and_eq_true, decide_eq_true_eq] at h
    exact ⟨rest, by rw [h.1], h.2⟩

theorem tokens_ok_split : ∀ (q rest : Str), tokens_ok (q ++ 41 :: rest) = true →
    tokens_ok q = true ∧ tokens_ok rest = true
  | [], rest, h => ⟨rfl, (tokens_ok_cons 41 rest h (by decide) (by decide)).2⟩
  | [c], rest, h => by
    by_cases hc : c = 38 ∨ c = 124
    · obtain ⟨r, hr, _⟩ := tokens_ok_pair c (41 :: rest) h hc
      simp only [List.cons.injEq] at hr
      rcases hc with rfl | rfl <;> simp at hr
    · have h1 := tokens_ok_cons c (41 :: rest) h (by tauto) (by tauto)
      have h2 := tokens_ok_split [] rest h1.2
      refine ⟨?_, h2.2⟩
      simp only [tokens_ok, Bool.or_eq_true, decide_eq_true_eq]
      tauto
  | c :: c2 :: q, rest, h => by
    by_cases hc : c = 38 ∨ c = 124
    · obtain ⟨r, hr, hr2⟩ := tokens_ok_pair c (c2 :: q ++ 41 :: rest) h hc
      simp only [List.cons_append, List.cons.injEq] at hr
      obtain ⟨h1, h2⟩ := hr
      rw [← h2] at hr2
      have h3 := tokens_ok_split q rest hr2
      refine ⟨?_, h3.2⟩
      rw [tokens_ok, if_pos hc]
      simp [h1, h3.1]
    · have h1 := tokens_ok_cons c (c2 :: q ++ 41 :: rest) h (by tauto) (by tauto)
      have h2 := tokens_ok_split (c2 :: q) rest h1.2
      refine ⟨?_, h2.2⟩
      rw [tokens_ok, if_neg hc]
      simp only [Bool.and_eq_true, Bool.or_eq_true, decide_eq_true_eq]
      exact ⟨by tauto, h2.1⟩

theorem balanced_other (d : Nat) (c : Byte) (cs : Str) (h1 : c ≠ 40) (h2 : c ≠ 41) :
    balanced d (c :: cs) = balanced d cs := by
  rw [balanced, if_neg h1, if_neg h2]

/-- A text read at depth `d + 1` that is balanced splits at the ")" that brings the depth
back to `d`. -/
theorem balanced_split : ∀ (n : Nat) (cs : Str) (d : Nat), cs.length ≤ n →
    balanced (d + 1) cs = true →
    ∃ q rest, cs = q ++ 41 :: rest ∧ balanced 0 q = true ∧ balanced d rest = true := by
  intro n
  induction n with
  | zero =>
    intro cs d hl h
    have : cs = [] := List.length_eq_zero.mp (by omega)
    subst this
    simp [balanced] at h
  | succ n ih =>
    intro cs d hl h
    cases cs with
    | nil => simp [balanced] at h
    | cons c cs =>
      simp only [List.length_cons] at hl
      by_cases h40 : c = 40
      · subst h40
        rw [balanced, if_pos rfl] at h
        obtain ⟨q1, r1, e1, hq1, hr1⟩ := ih cs (d + 1) (by omega) h
        have hl1 : r1.length ≤ n := by
          have := congrArg List.length e1
          simp only [List.length_append, List.length_cons] at this
          omega
        obtain ⟨q2, r2, e2, hq2, hr2⟩ := ih r1 d hl1 hr1
        refine ⟨40 :: (q1 ++ 41 :: q2), r2, ?_, ?_, hr2⟩
        · rw [e1, e2]; simp
        · rw [balanced, if_pos rfl]
          have := balanced_append q1 0 1 (41 :: q2) hq1
          rw [Nat.zero_add] at this
          rw [this, balanced, if_neg (by decide), if_pos rfl]
          simpa using hq2
      · by_cases h41 : c = 41
        · subst h41
          rw [balanced, if_neg (by decide), if_pos rfl] at h
          simp only [Nat.add_sub_cancel, Bool.and_eq_true, decide_eq_true_eq] at h
          exact ⟨[], cs, rfl, rfl, h.2⟩
        · rw [balanced_other _ _ _ h40 h41] at h
          obtain ⟨q, r, e, hq, hr⟩ := ih cs d (by omega) h
          exact ⟨c :: q, r, by rw [e]; rfl, by rw [balanced_other _ _ _ h40 h41]; exact hq, hr⟩

theorem dropWhile_alnum (c : Byte) (cs : Str) (hc : isalnum c = true)
    (ht : tokens_ok (c :: cs) = true) :
    ∀ d, balanced d (c :: cs) = true →
      tokens_ok ((c :: cs).dropWhile is_word_char) = true ∧
      balanced d ((c :: cs).dropWhile is_word_char) = true ∧
      ((c :: cs).dropWhile is_word_char).length ≤ cs.length := by
  induction cs generalizing c with
  | nil =>
    intro d hb
    rw [List.dropWhile_cons_of_pos (by rw [is_word_char_eq]; exact hc)]
    have hn := isalnum_ne hc
    rw [balanced_other _ _ _ hn.2.1 hn.2.2.1] at hb
    exact ⟨rfl, hb, Nat.le_refl _⟩
  | cons c2 rest ih =>
    intro d hb
    have hn := isalnum_ne hc
    rw [List.dropWhile_cons_of_pos (by rw [is_word_char_eq]; exact hc)]
    rw [balanced_other _ _ _ hn.2.1 hn.2.2.1] at hb
    have ht2 := (tokens_ok_cons c (c2 :: rest) ht hn.2.2.2.1 hn.2.2.2.2.1).2
    by_cases hc2 : isalnum c2 = true
    · obtain ⟨h1, h2, h3⟩ := ih c2 hc2 ht2 d hb
      exact ⟨h1, h2, by simp only [List.length_cons]; omega⟩
    · rw [List.dropWhile_cons_of_neg (by rw [is_word_char_eq]; exact hc2)]
      exact ⟨ht2, hb, Nat.le_refl _⟩

theorem eval_loop_terminates (g : Globals) :
    ∀ (n : Nat) (e : Str), e.length ≤ n → e.length < 2 ^ 64 → tokens_ok e = true →
      balanced 0 e = true →
      ∀ (fuel : Nat) (st : List DocSet) (op : Op), e.length < fuel →
        ∃ r, eval_loop g fuel e st op = some r := by
  intro n
  induction n with
  | zero =>
    intro e hl _ _ _ fuel st op hf
    have : e = [] := List.length_eq_zero.mp (by omega)
    subst this
    obtain ⟨f, rfl⟩ : ∃ f, fuel = f + 1 := ⟨fuel - 1, by simp at hf; omega⟩
    exact ⟨_, eval_loop_nil g f st op⟩
  | succ n ih =>
    intro e hl h64 ht hb fuel st op hf
    obtain ⟨f, rfl⟩ : ∃ f, fuel = f + 1 := ⟨fuel - 1, by omega⟩
    cases e with
    | nil => exact ⟨_, eval_loop_nil g f st op⟩
    | cons c cs =>
      simp only [List.length_cons] at hl hf h64
      by_cases h32 : c = 32
      · subst h32
        rw [eval_loop_space]
        have ht2 := (tokens_ok_cons _ _ ht (by decide) (by decide)).2
        rw [balanced_other _ _ _ (by decide) (by decide)] at hb
        exact ih cs (by omega) (by omega) ht2 hb f st op (by omega)
      by_cases h40 : c = 40
      · subst h40
        have ht2 := (tokens_ok_cons _ _ ht (by decide) (by decide)).2
        rw [balanced, if_pos rfl] at hb
        obtain ⟨q, rest, e1, hq, hr⟩ := balanced_split cs.length cs 0 (Nat.le_refl _) hb
        have hlen := congrArg List.length e1
        simp only [List.length_append, List.length_cons] at hlen
        rw [e1] at ht2
        obtain ⟨htq, htr⟩ := tokens_ok_split q rest ht2
        rw [e1, eval_loop_paren g f q rest st op hq (by omega)]
        obtain ⟨res, hres⟩ := ih q (by omega) (by omega) htq hq f [] Op.empty (by omega)
        rw [hres]
        exact ih rest (by omega) (by omega) htr hr f _ _ (by omega)
      by_cases h41 : c = 41
      · subst h41
        simp [balanced] at hb
      by_cases h38 : c = 38
      · subst h38
        obtain ⟨rest, e1, htr⟩ := tokens_ok_pair _ _ ht (Or.inl rfl)
        subst e1
        rw [balanced_other _ _ _ (by decide) (by decide),
          balanced_other _ _ _ (by decide) (by decide)] at hb
        simp only [List.length_cons] at hl hf h64
        have := eval_loop_binop g f BinOp.and rest st op
        rw [show BinOp.and.text ++ rest = 38 :: 38 :: rest from rfl] at this
        rw [this]
        exact ih rest (by omega) (by omega) htr hb f _ _ (by omega)
      by_cases h124 : c = 124
      · subst h124
        obtain ⟨rest, e1, htr⟩ := tokens_ok_pair _ _ ht (Or.inr rfl)
        subst e1
        rw [balanced_other _ _ _ (by decide) (by decide),
          balanced_other _ _ _ (by decide) (by decide)] at hb
        simp only [List.length_cons] at hl hf h64
        have := eval_loop_binop g f BinOp.or rest st op
        rw [show BinOp.or.text ++ rest = 124 :: 124 :: rest from rfl] at this
        rw [this]
        exact ih rest (by omega) (by omega) htr hb f _ _ (by omega)
      have ht2 := tokens_ok_cons _ _ ht h38 h124
      have hbc : balanced 0 cs = true := by
        rw [balanced_other _ _ _ h40 h41] at hb; exact hb
      have hp1 : (c :: cs).take 2 ≠ [38, 38] := by
        intro h
        cases cs <;> simp at h
        tauto
      have hp2 : (c :: cs).take 2 ≠ [124, 124] := by
        intro h
        cases cs <;> simp at h
        tauto
      by_cases h33 : c = 33
      · subst h33
        rw [eval_loop]
        simp only [show (33 : Byte) ≠ 32 by decide, show (33 : Byte) ≠ 40 by decide, if_false,
          hp1, hp2, if_true]
        split
        · exact ih cs (by omega) (by omega) ht2.2 hbc f _ _ (by omega)
        · exact ih cs (by omega) (by omega) ht2.2 hbc f _ _ (by omega)
      · have hc : isalnum c = true := by tauto
        obtain ⟨hd1, hd2, hd3⟩ := dropWhile_alnum c cs hc ht 0 hb
        rw [eval_loop]
        simp only [h32, h40, if_false, hp1, hp2, h33]
        exact ih _ (by omega) (by omega) hd1 hd2 f _ _ (by omega)

/-- C32. On every expression made only of ASCII letters and digits, spaces, "&&", "||",
"!" and parentheses, with the parentheses balanced, `eval` terminates: with any fuel
greater than the length of the expression it returns a set, the same one whatever the
fuel, so the loop runs at most once per character of the text it scans.  The recursive
call for a parenthesised part is always on a strictly shorter string. -/
theorem eval_terminates (g : Globals) (e : Str) (hlen : e.length < 2 ^ 64)
    (ht : tokens_ok e = true) (hb : balanced 0 e = true) :
    (∃ r, ∀ fuel, e.length < fuel → eval g fuel e = some r) ∧
    (∀ cs : Str, (cs.take ((scan_paren cs 1 + 2 ^ 64 - 1) % 2 ^ 64)).length
      < (40 :: cs).length) := by
  constructor
  · obtain ⟨r, hr⟩ := eval_loop_terminates g e.length e (Nat.le_refl _) hlen ht hb
      (e.length + 1) [] Op.empty (by omega)
    exact ⟨r, fun fuel hf => eval_loop_mono g _ e [] Op.empty r hr fuel (by omega)⟩
  · intro cs
    rw [List.length_take, List.length_cons]
    omega

theorem eval_terminates_witness :
    tokens_ok (ascii "(a || b) && !c") = true ∧ balanced 0 (ascii "(a || b) && !c") = true ∧
    eval abc 15 (ascii "(a || b) && !c") = some {3} ∧
    ∃ r, ∀ fuel, (ascii "(a || b) && !c").length < fuel →
      eval abc fuel (ascii "(a || b) && !c") = some r :=
  ⟨by decide, by decide, by decide,
   (eval_terminates abc (ascii "(a || b) && !c") (by decide) (by decide) (by decide)).1⟩

end BoolSearch

/-! ## Posting lists before the final sort, the printed top list, token counts -/

namespace BooleanIndexBuilder

theorem spec_ids_ge (t : Str) : ∀ (cs : List (Option Str)) (d x : Nat),
    x ∈ spec_ids t cs d → d ≤ x := by
  intro cs d x hx
  obtain ⟨i, _, h, _⟩ := (mem_spec_ids t cs d x).mp hx
  omega

theorem spec_ids_strict (t : Str) : ∀ (cs : List (Option Str)) (d : Nat),
    (spec_ids t cs d).Pairwise (fun a b => a < b) := by
  intro cs
  induction cs with
  | nil => intro d; simp [spec_ids]
  | cons c cs ih =>
    intro d
    rw [spec_ids]
    split
    · rw [List.pairwise_cons]
      refine ⟨?_, ih (d + 1)⟩
      intro x hx
      have := spec_ids_ge t cs (d + 1) x hx
      omega
    · exact ih (d + 1)

theorem prepared_of_strict (l : List Nat) (hs : l.Pairwise (fun a b => a < b)) :
    unique (sort_ids l) = l := by
  have hle : l.Sorted (fun a b => a ≤ b) := hs.imp (fun h => Nat.le_of_lt h)
  rw [sort_ids, List.Sorted.insertionSort_eq hle, unique_of_strict _ hs]

theorem processed_find (files : List CorpusFile) (t : Str) :
    mapFind (processed files).term_index t
      = if spec_ids t (files.map (fun f => f.content)) 0 = [] then none
        else some ⟨spec_ids t (files.map (fun f => f.content)) 0,
                   spec_total t (files.map (fun f => f.content))⟩ := by
  have h := process_all_find t (files.map (fun f => f.content))
    (scan_directory Builder.fresh files).2 0 (by simp [scan_directory, Builder.fresh])
  unfold processed
  rw [h]
  split
  · simp [scan_directory, Builder.fresh, mapFind]
  · simp [scan_directory, Builder.fresh, mapFind]

theorem mapFind_of_mem {V : Type} : ∀ (m : UMap V) (k : Str) (v : V),
    (mapKeys m).Nodup → (k, v) ∈ m → mapFind m k = some v
  | [], _, _, _, h => by simp at h
  | (k1, v1) :: rest, k, v, hn, h => by
    simp only [mapKeys, List.map_cons, List.nodup_cons] at hn
    rw [mapFind]
    rcases List.mem_cons.mp h with h | h
    · simp only [Prod.mk.injEq] at h
      rw [if_pos h.1.symm, h.2]
    · have hk : k ∈ rest.map Prod.fst := List.mem_map.mpr ⟨(k, v), h, rfl⟩
      have hne : k1 ≠ k := fun e => hn.1 (e ▸ hk)
      rw [if_neg hne]
      exact mapFind_of_mem rest k v hn.2 h

theorem processed_keys_nodup (files : List CorpusFile) :
    (mapKeys (processed files).term_index).Nodup :=
  process_all_nodup _ _ _ (by simp [scan_directory, Builder.fresh, mapKeys])

theorem built_eq_prepare (files : List CorpusFile) :
    built files = prepare_term_dictionary (processed files) := rfl

/-- C33. For every corpus that `build_index` accepts, the posting lists that the document
loop leaves are already strictly ascending, so the sort and the removal of duplicates in
`prepare_term_dictionary` change none of them: the map `term_index` is the same before
and after. -/
theorem prepare_keeps_postings (files : List CorpusFile) (b : Builder)
    (hb : build_index files = some b) :
    b = prepare_term_dictionary (processed files) ∧
    b.term_index = (processed files).term_index ∧
    ∀ t info, mapFind (processed files).term_index t = some info →
      info.doc_ids.Pairwise (fun x y => x < y) ∧
      unique (sort_ids info.doc_ids) = info.doc_ids ∧
      mapFind b.term_index t = some info := by
  obtain ⟨rfl, _⟩ := build_index_some files b hb
  have hall : ∀ t info, mapFind (processed files).term_index t = some info →
      info.doc_ids.Pairwise (fun x y => x < y) := by
    intro t info hf
    rw [processed_find] at hf
    split at hf
    · cases hf
    · simp only [Option.some.injEq] at hf
      rw [← hf]
      exact spec_ids_strict t _ 0
  have heq : (built files).term_index = (processed files).term_index := by
    rw [built_eq_prepare]
    show (processed files).term_index.map (fun p =>
      (p.1, ({ p.2 with doc_ids := unique (sort_ids p.2.doc_ids) } : TermInfo))) = _
    conv_rhs => rw [← List.map_id (processed files).term_index]
    apply List.map_congr_left
    intro p hp
    have hf := mapFind_of_mem _ p.1 p.2 (processed_keys_nodup files) hp
    rw [prepared_of_strict _ (hall p.1 p.2 hf)]
    rfl
  refine ⟨rfl, heq, ?_⟩
  intro t info hf
  exact ⟨hall t info hf, prepared_of_strict _ (hall t info hf), by rw [heq]; exact hf⟩

set_option maxRecDepth 100000 in
theorem prepare_keeps_postings_witness :
    build_index pets_corpus = some (built pets_corpus) ∧
    (built pets_corpus).term_index = (processed pets_corpus).term_index ∧
    mapFind (processed pets_corpus).term_index (ascii "bird") = some ⟨[1, 2], 2⟩ :=
  ⟨by decide, (prepare_keeps_postings pets_corpus (built pets_corpus) (by decide)).2.1,
   by decide⟩

set_option maxRecDepth 100000 in
/-- C35, as the code runs. The corpus has eleven terms; "zz" occurs in both documents and
every other term in one.  The list that `print_statistics` prints as the ten most
frequent terms holds the first ten terms in alphabetical order, "aa" .. "aj", each with
one document, and does not contain "zz", the term that occurs in the most documents. -/
theorem top_terms_are_first_ten :
    build_index freq_corpus = some (built freq_corpus) ∧
    (built freq_corpus).sorted_terms.length = 11 ∧
    (doc_ids_of (built freq_corpus) (ascii "zz")).length = 2 ∧
    top_terms (built freq_corpus)
      = some [(ascii "aa", 1), (ascii "ab", 1), (ascii "ac", 1), (ascii "ad", 1),
              (ascii "ae", 1), (ascii "af", 1), (ascii "ag", 1), (ascii "ah", 1),
              (ascii "ai", 1), (ascii "aj", 1)] := by
  decide

end BooleanIndexBuilder

namespace BooleanIndexBuilder

theorem sum_upsert {V : Type} (g : V → Nat) : ∀ (m : UMap V) (k : Str) (f : Option V → V),
    ((mapUpsert m k f).map (fun p => g p.2)).sum + ((mapFind m k).map g).getD 0
      = (m.map (fun p => g p.2)).sum + g (f (mapFind m k))
  | [], k, f => by simp [mapUpsert, mapFind]
  | (k1, v1) :: m, k, f => by
    by_cases h : k1 = k
    · simp only [mapUpsert, mapFind, if_pos h, List.map_cons, List.sum_cons, Option.map_some',
        Option.getD_some]
      omega
    · have := sum_upsert g m k f
      simp only [mapUpsert, mapFind, if_neg h, List.map_cons, List.sum_cons]
      omega

theorem find_le_sum {V : Type} (g : V → Nat) : ∀ (m : UMap V) (k : Str),
    ((mapFind m k).map g).getD 0 ≤ (m.map (fun p => g p.2)).sum
  | [], k => by simp [mapFind]
  | (k1, v1) :: m, k => by
    by_cases h : k1 = k
    · simp only [mapFind, if_pos h, List.map_cons, List.sum_cons, Option.map_some',
        Option.getD_some]
      omega
    · have := find_le_sum g m k
      simp only [mapFind, if_neg h, List.map_cons, List.sum_cons]
      omega

/-- As long as no counter wraps, the counters of `term_counts` add up to the number of
tokens counted. -/
theorem sum_count_tokens : ∀ (toks : List Str) (m : UMap Nat),
    (m.map (fun p => p.2)).sum + toks.length < 2 ^ 32 →
    ((count_tokens m toks).map (fun p => p.2)).sum = (m.map (fun p => p.2)).sum + toks.length := by
  intro toks
  induction toks with
  | nil => intro m _; simp [count_tokens]
  | cons t ts ih =>
    intro m h
    rw [count_tokens_cons]
    simp only [List.length_cons] at h
    have h1 := sum_upsert (fun v : Nat => v) m t (fun o => (o.getD 0 + 1) % 2 ^ 32)
    have h2 := find_le_sum (fun v : Nat => v) m t
    simp only [Option.map_id', id_eq] at h1 h2
    rw [Nat.mod_eq_of_lt (by omega)] at h1
    rw [ih _ (by omega), List.length_cons]
    omega

theorem sum_foldl_add_posting (doc_id : Nat) : ∀ (counts : UMap Nat) (ti : UMap TermInfo),
    ((counts.foldl (add_posting doc_id) ti).map (fun p => p.2.total_occurrences)).sum
      = (ti.map (fun p => p.2.total_occurrences)).sum + (counts.map (fun p => p.2)).sum := by
  intro counts
  induction counts with
  | nil => intro ti; simp
  | cons c cs ih =>
    intro ti
    rw [List.foldl_cons, ih]
    have h1 := sum_upsert (fun i : TermInfo => i.total_occurrences) ti c.1 (fun o =>
      let info := o.getD ⟨[], 0⟩
      ⟨info.doc_ids ++ [doc_id], info.total_occurrences + c.2⟩)
    have e : (add_posting doc_id ti c) = mapUpsert ti c.1 (fun o =>
      let info := o.getD ⟨[], 0⟩
      ⟨info.doc_ids ++ [doc_id], info.total_occurrences + c.2⟩) := rfl
    rw [e]
    simp only [List.map_cons, List.sum_cons]
    cases hf : mapFind ti c.1 with
    | none =>
      rw [hf] at h1
      simp only [Option.map_none', Option.getD_none, Nat.add_zero, Nat.zero_add] at h1
      omega
    | some v =>
      rw [hf] at h1
      simp only [Option.map_some', Option.getD_some] at h1
      omega

theorem sum_set {α : Type} (g : α → Nat) : ∀ (l : List α) (k : Nat) (old x : α),
    l[k]? = some old → ((l.set k x).map g).sum + g old = (l.map g).sum + g x
  | [], _, _, _, h => by simp at h
  | a :: as, 0, old, x, h => by
    simp only [List.getElem?_cons_zero, Option.some.injEq] at h
    subst h
    simp only [List.set_cons_zero, List.map_cons, List.sum_cons]
    omega
  | a :: as, k + 1, old, x, h => by
    simp only [List.getElem?_cons_succ] at h
    have := sum_set g as k old x h
    simp only [List.set_cons_succ, List.map_cons, List.sum_cons]
    omega

theorem process_document_agree (b : Builder) (d : Nat) (c : Option Str)
    (hd : d < b.documents.length) (hsmall : (doc_tokens c).length < 2 ^ 32)
    (h : counts_agree b d) : counts_agree (process_document b d c).2 (d + 1) := by
  obtain ⟨h1, h2, h3⟩ := h
  unfold process_document
  have hg : b.documents.get? d = some (b.documents.get ⟨d, hd⟩) := List.get?_eq_get hd
  have hg2 : b.documents[d]? = some (b.documents.get ⟨d, hd⟩) := by
    rw [← List.get?_eq_getElem?]; exact hg
  rw [hg]
  generalize b.documents.get ⟨d, hd⟩ = doc at hg hg2
  have h0 : doc.token_count = 0 := h3 d doc (Nat.le_refl _) hg2
  cases c with
  | none => exact ⟨h1, h2, fun j doc2 hj => h3 j doc2 (by omega)⟩
  | some bytes =>
    simp only [doc_tokens, tokenize] at hsmall
    obtain ⟨s1, s2, s3⟩ := scan_content_spec bytes ⟨[], false, [], b.stats.total_tokens,
      doc.token_count⟩ (by simp)
    have s4 := scan_content_token_count bytes ⟨[], false, [], b.stats.total_tokens,
      doc.token_count⟩ (by simp only [h0]; norm_num)
    simp only [h0, Nat.zero_add] at s1 s2 s3 s4 ⊢
    rw [Nat.mod_eq_of_lt s4, Nat.mod_eq_of_lt hsmall] at s3
    have s5 := sum_count_tokens (tokens_from [] bytes) [] (by simpa using hsmall)
    simp only [List.map_nil, List.sum_nil, Nat.zero_add] at s5
    refine ⟨?_, ?_, ?_⟩
    · simp only [sum_total_occurrences, sum_foldl_add_posting, s1, s5, s2]
      unfold sum_total_occurrences at h1
      omega
    · have := sum_set (fun x : Document => x.token_count) b.documents d doc
        { doc with token_count := (tokens_from [] bytes).length } hg2
      simp only [h0, Nat.add_zero] at this
      simp only [sum_token_count, s3, s2]
      unfold sum_token_count at h2
      omega
    · intro j doc2 hj hdoc2
      simp only at hdoc2
      rw [List.getElem?_set_ne (by omega)] at hdoc2
      exact h3 j doc2 (by omega) hdoc2

theorem process_all_agree : ∀ (cs : List (Option Str)) (b : Builder) (d : Nat),
    d + cs.length ≤ b.documents.length → (∀ c ∈ cs, (doc_tokens c).length < 2 ^ 32) →
    counts_agree b d → counts_agree (process_all b cs d) (d + cs.length) := by
  intro cs
  induction cs with
  | nil => intro b d _ _ h; exact h
  | cons c cs ih =>
    intro b d hd hs h
    simp only [List.length_cons] at hd
    rw [process_all]
    have := ih (process_document b d c).2 (d + 1)
      (by rw [process_document_length]; omega) (fun x hx => hs x (by simp [hx]))
      (process_document_agree b d c (by omega) (hs c (by simp)) h)
    simpa [Nat.add_assoc, Nat.add_comm 1] using this

theorem built_agree (files : List CorpusFile)
    (hsmall : ∀ f ∈ files, (doc_tokens f.content).length < 2 ^ 32) :
    sum_total_occurrences (built files) = (built files).stats.total_tokens ∧
    sum_token_count (built files) = (built files).stats.total_tokens := by
  have h0 : counts_agree (scan_directory Builder.fresh files).2 0 := by
    refine ⟨rfl, ?_, ?_⟩
    · simp only [sum_token_count, scan_directory, Builder.fresh, List.nil_append, List.map_map]
      induction files with
      | nil => rfl
      | cons f fs ih =>
        simp only [List.map_cons, List.sum_cons, Function.comp]
        rw [Nat.zero_add]
        exact ih (fun x hx => hsmall x (by simp [hx]))
    · intro j doc _ hj
      simp only [scan_directory, Builder.fresh, List.nil_append, List.getElem?_map] at hj
      cases hf : files[j]? with
      | none => rw [hf] at hj; cases hj
      | some f =>
        rw [hf] at hj
        simp only [Option.map_some', Option.some.injEq] at hj
        rw [← hj]
  have h := process_all_agree (files.map (fun f => f.content))
    (scan_directory Builder.fresh files).2 0
    (by simp [scan_directory, Builder.fresh])
    (by
      intro c hc
      obtain ⟨f, hf, rfl⟩ := List.mem_map.mp hc
      exact hsmall f hf)
    h0
  obtain ⟨h1, h2, _⟩ := h
  have e1 : sum_total_occurrences (built files) = sum_total_occurrences (processed files) := by
    simp only [sum_total_occurrences, built_eq_prepare, prepare_term_dictionary, List.map_map]
    rfl
  exact ⟨by rw [e1]; exact h1, h2⟩

theorem count_tokens_same (t : Str) : ∀ (m k : Nat), k < 2 ^ 32 →
    count_tokens [(t, k)] (List.replicate m t) = [(t, (k + m) % 2 ^ 32)] := by
  intro m
  induction m with
  | zero =>
    intro k hk
    rw [Nat.add_zero, Nat.mod_eq_of_lt hk]
    rfl
  | succ m ih =>
    intro k hk
    rw [List.replicate_succ, count_tokens_cons]
    simp only [mapUpsert, if_true, Option.getD_some]
    rw [ih _ (Nat.mod_lt _ (by norm_num))]
    congr 2
    omega

theorem count_tokens_replicate (t : Str) (n : Nat) (hn : 0 < n) :
    count_tokens [] (List.replicate n t) = [(t, n % 2 ^ 32)] := by
  obtain ⟨m, rfl⟩ : ∃ m, n = m + 1 := ⟨n - 1, by omega⟩
  rw [List.replicate_succ, count_tokens_cons]
  simp only [mapUpsert, Option.getD_none, Nat.zero_add]
  rw [count_tokens_same t m _ (Nat.mod_lt _ (by norm_num))]
  congr 2
  omega

/-- The counts of the index built from one document that repeats "ab " `n` times. -/
theorem repeat_counts (path title : Str) (size n : Nat) (hn : 0 < n) :
    (built [⟨path, title, size, some (repeat_str n [97, 98, 32])⟩]).stats.total_tokens = n ∧
    sum_token_count (built [⟨path, title, size, some (repeat_str n [97, 98, 32])⟩])
      = n % 2 ^ 32 ∧
    sum_total_occurrences (built [⟨path, title, size, some (repeat_str n [97, 98, 32])⟩])
      = n % 2 ^ 32 := by
  obtain ⟨s1, s2, s3⟩ := scan_content_spec (repeat_str n [97, 98, 32])
    ⟨[], false, [], 0, 0⟩ (by simp)
  have s4 := scan_content_token_count (repeat_str n [97, 98, 32]) ⟨[], false, [], 0, 0⟩
    (by norm_num)
  simp only [Nat.zero_add, tokens_repeat, List.length_replicate,
    count_tokens_replicate _ n hn] at s1 s2 s3
  rw [Nat.mod_eq_of_lt s4] at s3
  simp only [built, scan_directory, Builder.fresh, List.nil_append, List.map_cons, List.map_nil,
    process_all, process_document, List.get?_cons_zero, prepare_term_dictionary,
    sum_token_count, sum_total_occurrences, s1, s2, s3, List.set_cons_zero, List.foldl_cons,
    List.foldl_nil, add_posting, mapUpsert, List.sum_cons, List.sum_nil, Option.getD_none,
    Nat.zero_add, Nat.add_zero, and_self]

/-- C34, as stated, fails. One document that holds "ab " `2^32` times: `stats.total_tokens`
is `2^32`, while the 32-bit counters `token_count` of the document and `term_counts` of the
term have wrapped, so the sum of `token_count` and the sum of `total_occurrences` are
both 0. -/
theorem token_counts_disagree :
    build_index repetitive_corpus = some (built repetitive_corpus) ∧
    (built repetitive_corpus).stats.total_tokens = 2 ^ 32 ∧
    sum_token_count (built repetitive_corpus) = 0 ∧
    sum_total_occurrences (built repetitive_corpus) = 0 := by
  have h := repeat_counts (ascii "r.txt") (ascii "r") (3 * 2 ^ 32) (2 ^ 32) (by norm_num)
  exact ⟨repetitive_build, h.1, h.2.1, h.2.2⟩

/-- C34, amended. After `build_index` on a corpus in which every document has fewer than
`2^32` tokens, the sum over all terms of `total_occurrences` equals the sum over all
documents of `token_count`, and both equal `stats.total_tokens`. -/
theorem token_counts_agree (files : List CorpusFile) (b : Builder)
    (hb : build_index files = some b)
    (hsmall : ∀ f ∈ files, (doc_tokens f.content).length < 2 ^ 32) :
    sum_total_occurrences b = sum_token_count b ∧ sum_token_count b = b.stats.total_tokens := by
  obtain ⟨rfl, _⟩ := build_index_some files b hb
  obtain ⟨h1, h2⟩ := built_agree files hsmall
  exact ⟨h1.trans h2.symm, h2⟩

set_option maxRecDepth 100000 in
theorem token_counts_agree_witness :
    build_index pets_corpus = some (built pets_corpus) ∧
    (built pets_corpus).stats.total_tokens = 7 ∧
    sum_total_occurrences (built pets_corpus) = sum_token_count (built pets_corpus) ∧
    sum_token_count (built pets_corpus) = (built pets_corpus).stats.total_tokens :=
  ⟨by decide, by decide,
   (token_counts_agree pets_corpus (built pets_corpus) (by decide) (by decide)).1,
   (token_counts_agree pets_corpus (built pets_corpus) (by decide) (by decide)).2⟩

end BooleanIndexBuilder

/-! ## Whitespace in the query -/

namespace BoolSearch

end BoolSearch

end InfPoisk
